import Mathlib

/-!
key.c: escape codec, replay stack, key resolver, configuration loader and
field input

A shallow embedding of `src/key.c` (Anthony's Editor, key bindings and
macros).

Conventions of the embedding

* A `char` in memory is a byte, a `Nat` in `0..255`.  Plain `char` is signed
  (`CHAR_MIN` is -128), as it is on x86-64, where `long` has the 64 bits of
  `LONG_MAX` below: a byte from `0x80` on, read as plain `char`, has the value
  `plain_char` gives, 256 less than the byte.  Comparing two bytes, testing
  one against a character constant or against zero, and copying one do not
  depend on that value; `ipop` converts it to `int` and returns it.
* A `char *` used as a string is the list of bytes found from the pointer
  on.  Reading at the end of the list reads `0`: the modelled memory is
  followed by NUL bytes.  A token `t` followed by its terminator and then
  by other memory `m` is therefore `t ++ 0 :: m`.
* `header.h` and `key.h` are not part of the sources.  The constants they
  define (`K_BUFFER_LENGTH`, `K_ERROR`, ...) are the fields of `key_h`,
  a parameter of every function that uses one of them; those that only the
  loader uses are the further fields of `key_codes`.
* Where a function stores into memory that it also reads (`encodekey` called
  by the handlers, `strtok`, `getinput`), the memory is one list of bytes
  and pointers are offsets into it.
* What comes from curses or from other files of the editor (`erasechar`,
  `killchar`, `COLS`, `ISFUNCKEY`, `getblock`, `openrc`) is a parameter:
  the fields of `curses_h`, and the file as the list of the blocks that
  `getblock` reads.
-/

namespace Key

/-! ## C library -/

/-- C `isupper` in the "C" locale: the letters `A`..`Z`. -/
def isupper (c : Nat) : Bool := decide (65 ≤ c) && decide (c ≤ 90)

/-- C `tolower` in the "C" locale. -/
def tolower (c : Nat) : Nat := if isupper c then c + 32 else c

/-- C `isdigit`: the digits `0`..`9`. -/
def isdigit (c : Nat) : Bool := decide (48 ≤ c) && decide (c ≤ 57)

/-- Index of the first occurrence of `c` in the NUL-free list `s`. -/
def indexOfByte (c : Nat) : List Nat → Option Nat
  | [] => none
  | x :: xs => if x = c then some 0 else (indexOfByte c xs).map (· + 1)

/-- C `strchr(s, c)` for a string constant `s` (given without its terminator),
as the offset of the match from `s`.  The terminator is part of the string:
`strchr(s, 0)` finds it, at offset `strlen(s)`. -/
def strchr (s : List Nat) (c : Nat) : Option Nat :=
  if c = 0 then some s.length else indexOfByte c s

/-- The largest `long`; `strtol` returns it when the digits denote more. -/
def LONG_MAX : Nat := 9223372036854775807

/-- Value of the byte `c` as a digit (`0`..`9`, `a`..`z`, `A`..`Z`), as `strtol`
reads it. -/
def digitValue (c : Nat) : Option Nat :=
  if 48 ≤ c ∧ c ≤ 57 then some (c - 48)
  else if 97 ≤ c ∧ c ≤ 122 then some (c - 87)
  else if 65 ≤ c ∧ c ≤ 90 then some (c - 55)
  else none

/-- The digit loop of `strtol`: consumes the longest run of digits below
`base`, accumulating most significant digit first.  Returns the number and the
unread rest. -/
def strtol_digits (base : Nat) : List Nat → Nat → Nat × List Nat
  | [], acc => (acc, [])
  | c :: s, acc =>
    match digitValue c with
    | some d => if d < base then strtol_digits base s (acc * base + d) else (acc, c :: s)
    | none => (acc, c :: s)

/-- Tells whether `c` is a hexadecimal digit. -/
def isxdigit (c : Nat) : Bool :=
  match digitValue c with
  | some d => decide (d < 16)
  | none => false

/-- C `strtol(str, &str, 0)` on a string that starts with a digit (the only
way `encodekey` calls it, so neither white space nor a sign is skipped).
With base 0 a leading `0x` or `0X` followed by a hexadecimal digit selects
base 16, another leading `0` selects base 8, anything else base 10.
Returns the number, at most `LONG_MAX`, and the new value of `str`. -/
def strtol (str : List Nat) : Nat × List Nat :=
  if str.headD 0 = 48 ∧ (str.tail.headD 0 = 120 ∨ str.tail.headD 0 = 88)
      ∧ isxdigit (str.tail.tail.headD 0) = true then
    ((strtol_digits 16 str.tail.tail 0).1 ⊓ LONG_MAX, (strtol_digits 16 str.tail.tail 0).2)
  else if str.headD 0 = 48 then
    ((strtol_digits 8 str 0).1 ⊓ LONG_MAX, (strtol_digits 8 str 0).2)
  else
    ((strtol_digits 10 str 0).1 ⊓ LONG_MAX, (strtol_digits 10 str 0).2)

/-! ## encodekey -/

/-- The string constant `escmap` of `encodekey`: "bfnrst". -/
def escmap : List Nat := [98, 102, 110, 114, 115, 116]

/-- The string constant `escvalue` of `encodekey`: backspace, form feed,
newline, carriage return, space, tab. -/
def escvalue : List Nat := [8, 12, 10, 13, 32, 9]

/-- The string constant `control` of `encodekey`:
"@abcdefghijklmnopqrstuvwxyz[\]^_". -/
def control : List Nat :=
  [64, 97, 98, 99, 100, 101, 102, 103, 104, 105, 106, 107, 108, 109, 110, 111, 112,
   113, 114, 115, 116, 117, 118, 119, 120, 121, 122, 91, 92, 93, 94, 95]

/-- The `for` loop of `encodekey`.  `str` is the memory from the pointer `str`
on, `out` the bytes written to `buf` so far (`ptr - buf = out.length`).  The
result is the value returned and the bytes written to `buf` (on success the
terminator follows them).  The store `*str = tolower(*str)` changes only the
byte just read, which is not read again, and is left out.  One unit of `fuel`
is one iteration; every iteration advances `str`, so `str.length` units are
never used up (`encodekey_fuel`). -/
def encodekey_loop : Nat → List Nat → List Nat → Nat × List Nat
  | 0, _, out => (out.length, out)
  | fuel + 1, str, out =>
    let c := str.headD 0
    if c = 0 then (out.length, out)
    else if c = 94 then
      -- case '^'
      let d := str.tail.headD 0
      if d = 63 then encodekey_loop fuel str.tail.tail (out ++ [127])
      else
        match strchr control (tolower d) with
        | none => (0, out)
        | some i => encodekey_loop fuel str.tail.tail (out ++ [i])
    else if c = 92 then
      -- case '\\'
      let d := str.tail.headD 0
      if isdigit d then
        if 255 < (strtol str.tail).1 then (0, out)
        else encodekey_loop fuel (strtol str.tail).2 (out ++ [(strtol str.tail).1 % 256])
      else
        match strchr escmap d with
        | some i => encodekey_loop fuel str.tail.tail (out ++ [escvalue.getD i 0])
        | none => encodekey_loop fuel str.tail.tail (out ++ [d])
    else encodekey_loop fuel str.tail (out ++ [c])

/-- The function `encodekey(str, buf)`: the value it returns and the bytes it
writes to `buf`.  It returns `0` for an error, else the number of bytes
written. -/
def encodekey (str : List Nat) : Nat × List Nat :=
  encodekey_loop (str.length + 1) str []

/-! ## C integer literals, as the numeric escape is described -/

/-- Positional value of a list of digits in `base`, least significant digit
first. -/
def digitsValue (base : Nat) : List Nat → Nat
  | [] => 0
  | d :: ds => d + base * digitsValue base ds

/-- Tells whether `c` is an octal digit. -/
def isodigit (c : Nat) : Bool := decide (48 ≤ c) && decide (c ≤ 55)

/-- The digits that the characters `cs` denote, least significant first. -/
def literalDigits (cs : List Nat) : List Nat :=
  (cs.map (fun c => (digitValue c).getD 0)).reverse

/-- Value of a C integer literal that starts with a digit: `0x` or `0X` and
at least one hexadecimal digit is hexadecimal, another leading `0` is octal,
a leading `1`..`9` is decimal.  `none` when `lit` is no such literal. -/
def cLiteralValue (lit : List Nat) : Option Nat :=
  match lit with
  | [] => none
  | d :: ds =>
    if d = 48 then
      match ds with
      | [] => some 0
      | x :: hs =>
        if x = 120 ∨ x = 88 then
          if hs ≠ [] ∧ hs.all isxdigit = true then some (digitsValue 16 (literalDigits hs))
          else none
        else if ds.all isodigit = true then some (digitsValue 8 (literalDigits ds))
        else none
    else if 49 ≤ d ∧ d ≤ 57 ∧ ds.all isdigit = true then
      some (digitsValue 10 (literalDigits (d :: ds)))
    else none

/-! ## Literal-escaped tokens -/

/-- The token that writes each byte of `b` as itself, except that each `^` and
each backslash is preceded by a backslash. -/
def literalToken : List Nat → List Nat
  | [] => []
  | c :: cs => if c = 94 ∨ c = 92 then 92 :: c :: literalToken cs else c :: literalToken cs

/-- The number of units of the token `t`, as the escape grammar counts them:
`^` and the character behind it are one unit, a backslash and the number
behind it are one unit, a backslash and another character behind it are one
unit, any other character is one unit.  `none` when the token ends in a lone
`^` or a lone backslash.  Every unit has at least one character, so `t.length`
units of `fuel` are enough. -/
def token_units : Nat → List Nat → Option Nat
  | 0, _ => some 0
  | _ + 1, [] => some 0
  | _ + 1, [c] => if c = 94 ∨ c = 92 then none else some 1
  | fuel + 1, c :: d :: rest =>
    if c = 94 then (token_units fuel rest).map (· + 1)
    else if c = 92 then
      if isdigit d then (token_units fuel (strtol (d :: rest)).2).map (· + 1)
      else (token_units fuel rest).map (· + 1)
    else (token_units fuel (d :: rest)).map (· + 1)

/-! ## The input stack (replay stack) -/

/-- The bytes of the C string found in `s`: the bytes before the first NUL. -/
def cstring (s : List Nat) : List Nat := s.takeWhile (fun c => c ≠ 0)

/-- One node of the input stack, `input_t`: the string copied into `buf`
(without its terminator) and the read pointer `ptr`, as an offset into `buf`.
The field `next` is the tail of the list the node is in. -/
structure input_t where
  buf : List Nat
  ptr : Nat
deriving DecidableEq, Repr

/-- The function `ipush(buf)` on the stack `istack`, when `malloc` succeeds (the
call then returns TRUE): a node holding a copy of the string `buf`, read from
its start, goes on top. -/
def ipush (buf : List Nat) (istack : List input_t) : List input_t :=
  { buf := cstring buf, ptr := 0 } :: istack

/-- The value of the byte `b` read as plain `char`, a signed type of 8 bits:
the bytes below `0x80` have their own value, the byte `0xE9` has the value
-23 and the byte `0xFF` the value -1. -/
def plain_char (b : Nat) : Int := if b % 256 < 128 then (b % 256 : Nat) else (b % 256 : Nat) - 256

/-- The constant `EOF` of `stdio.h`. -/
def EOF : Int := -1

/-- The function `ipop()`: the value returned and the stack it leaves.  On the
empty stack the value is `EOF`.  Else `ch = (unsigned) *istack->ptr++` reads
the byte under `ptr` as plain `char` and `ptr` advances; the value of the
`char` goes to `unsigned` and from there to the `int` `ch`, which gives the
value of the `char` again.  When `ptr` then points at the terminator the node
is unlinked and freed.  Bytes of `buf` from its length on read as 0. -/
def ipop : List input_t → Int × List input_t
  | [] => (EOF, [])
  | node :: next =>
    if node.buf.getD (node.ptr + 1) 0 = 0 then (plain_char (node.buf.getD node.ptr 0), next)
    else (plain_char (node.buf.getD node.ptr 0), { node with ptr := node.ptr + 1 } :: next)

/-- The function `ismacro()`: `istack != NULL`. -/
def ismacro (istack : List input_t) : Bool := !istack.isEmpty

/-- The values of `n` consecutive calls of `ipop`, and the stack left. -/
def ipop_calls : Nat → List input_t → List Int × List input_t
  | 0, istack => ([], istack)
  | n + 1, istack =>
    ((ipop istack).1 :: (ipop_calls n (ipop istack).2).1, (ipop_calls n (ipop istack).2).2)

/-! ## The key resolver -/

/-- The constants of `key.h` that `getkey` uses. -/
structure key_h where
  K_BUFFER_LENGTH : Nat
  K_ERROR : Int
  K_DISABLED : Int
  K_HELP_TEXT : Int
  K_LITERAL : Int
  K_MACRO_DEFINE : Int
deriving DecidableEq, Repr

/-- One entry of the key table, `keymap_t`.  `none` is a NULL pointer; a string
is given by the bytes found from the pointer on. -/
structure keymap_t where
  code : Int
  lhs : Option (List Nat)
  rhs : Option (List Nat)
deriving DecidableEq, Repr

/-- The state `getkey` works on: its static array `buffer`, its static pointer
`record` as an offset into `buffer`, the input stack `istack`, and `tty`, the
bytes that the calls of `getch()` to come will return, in order. -/
structure key_state where
  buffer : List Nat
  record : Nat
  istack : List input_t
  tty : List Nat
deriving DecidableEq, Repr

/-- The state at program start: `buffer` zeroed, `record = buffer`, no node on
the input stack. -/
def key_state.start (h : key_h) (tty : List Nat) : key_state :=
  { buffer := List.replicate h.K_BUFFER_LENGTH 0, record := 0, istack := [], tty := tty }

/-- How a call ends: it returns; or it waits in `getch()` for a byte that
`tty` does not hold; or it stores outside an array (`buffer` in `getkey`, the
caller's array in `getinput`, the table in `initkey`); or the loop did not end
within the iterations granted (which `getkey` and `getinput` never let
happen). -/
inductive Res (α : Type) where
  | ok : α → Res α
  | blocked : Res α
  | fault : Res α
  | unfinished : Res α
deriving DecidableEq, Repr

/-- The function `getliteral()`: the value of `ipop()`, or, when that is
`EOF`, the value of `getch()`, which the conversion to `unsigned` and back to
`int` leaves as it is. -/
def getliteral (st : key_state) : Res (Int × key_state) :=
  if (ipop st.istack).1 = EOF then
    match st.tty with
    | [] => .blocked
    | ch :: tty => .ok ((ch : Int), { st with istack := (ipop st.istack).2, tty := tty })
  else .ok ((ipop st.istack).1, { st with istack := (ipop st.istack).2 })

/-- Outcome of the comparison loop of `getkey` for one entry. -/
inductive match_t where
  | full
  | submatch
  | differ
deriving DecidableEq, Repr

/-- The loop `for (p = buffer, q = k->lhs; *p == *q; ++p, ++q)` of `getkey`
together with the test `*p == '\0' && *q != '\0'` behind it: `full` when the
loop body finds `*q == '\0'`, `submatch` when the loop ends with `*p == '\0'`,
else `differ`. -/
def compare_lhs : List Nat → List Nat → match_t
  | [], [] => .full
  | [], b :: _ => if b = 0 then .full else .submatch
  | a :: _, [] => if a = 0 then .full else .differ
  | a :: p, b :: q =>
    if a = b then (if b = 0 then .full else compare_lhs p q)
    else if a = 0 then .submatch else .differ

/-- How the loop over the key table ends: with a `return`, or at the table's
end with the value of `submatch`. -/
inductive scan_t where
  | returned : Res (Int × key_state) → scan_t
  | finished : Bool → key_state → scan_t
deriving DecidableEq, Repr

/-- The loop `for (k = keys, submatch = 0; k->code != K_ERROR; ++k)` of
`getkey`, from entry `k` on with the current value of `submatch`.  After
`ipush(k->rhs)` the `break` leaves the comparison loop only, and the loop over
the table goes on with the next entry.  The table is the list up to its first
entry with code `K_ERROR`; a list without such an entry ends the loop at its
end. -/
def scan_keys (h : key_h) : List keymap_t → Bool → key_state → scan_t
  | [], submatch, st => .finished submatch st
  | k :: ks, submatch, st =>
    if k.code = h.K_ERROR then .finished submatch st
    else
      match k.lhs with
      | none => scan_keys h ks submatch st
      | some lhs =>
        if k.code = h.K_DISABLED ∨ k.code = h.K_HELP_TEXT then scan_keys h ks submatch st
        else
          match compare_lhs st.buffer lhs with
          | .full =>
            if k.code = h.K_LITERAL then
              .returned (getliteral st)
            else if k.code ≠ h.K_MACRO_DEFINE then .returned (.ok (k.code, st))
            else
              match k.rhs with
              | some rhs => scan_keys h ks submatch { st with istack := ipush rhs st.istack }
              | none => scan_keys h ks submatch st
          | .submatch => scan_keys h ks true st
          | .differ => scan_keys h ks submatch st

/-- The `do ... while (submatch)` loop of `getkey`.  A store to `buffer` at an
offset that is not below the length of the array ends the call with `fault`.
The byte stored is the value of `getliteral()` converted to `char`, its
residue modulo 256.  One unit of `fuel` is one iteration. -/
def getkey_loop (h : key_h) (keys : List keymap_t) : Nat → key_state → Res (Int × key_state)
  | 0, _ => .unfinished
  | fuel + 1, st =>
    if h.K_BUFFER_LENGTH < st.record then
      if 0 < st.buffer.length then
        .ok (h.K_ERROR, { st with record := 0, buffer := st.buffer.set 0 0 })
      else .fault
    else
      match getliteral st with
      | .ok (ch, st1) =>
        -- *record++ = getliteral();
        if st1.record < st1.buffer.length then
          -- *record = '\0';
          if st1.record + 1 < st1.buffer.length then
            match scan_keys h keys false
                { st1 with
                  buffer := (st1.buffer.set st1.record (ch % 256).toNat).set (st1.record + 1) 0
                  record := st1.record + 1 } with
            | .returned r => r
            | .finished submatch st2 =>
              if submatch then getkey_loop h keys fuel st2
              else .ok (Int.ofNat (st2.buffer.getD 0 0), { st2 with record := 1 })
          else .fault
        else .fault
      | .blocked => .blocked
      | .fault => .fault
      | .unfinished => .unfinished

/-- The function `getkey(keys)`: the value returned and the state left.  The
loop is granted `K_BUFFER_LENGTH + 2` iterations: `record` advances by one in
each, and the loop returns `K_ERROR` once `record - buffer` exceeds
`K_BUFFER_LENGTH`. -/
def getkey (h : key_h) (keys : List keymap_t) (st : key_state) : Res (Int × key_state) :=
  if st.buffer.getD st.record 0 ≠ 0 then
    .ok (Int.ofNat (st.buffer.getD st.record 0), { st with record := st.record + 1 })
  else getkey_loop h keys (h.K_BUFFER_LENGTH + 2) { st with record := 0 }

/-- The values of `n` consecutive calls of `getkey`, and the state left. -/
def getkey_calls (h : key_h) (keys : List keymap_t) : Nat → key_state → Res (List Int × key_state)
  | 0, st => .ok ([], st)
  | n + 1, st =>
    match getkey h keys st with
    | .ok (c, st1) =>
      match getkey_calls h keys n st1 with
      | .ok (cs, st2) => .ok (c :: cs, st2)
      | .blocked => .blocked
      | .fault => .fault
      | .unfinished => .unfinished
    | .blocked => .blocked
    | .fault => .fault
    | .unfinished => .unfinished

/-- The strings that `getkey` compares the recorded bytes with: the `lhs` of
the live entries (non-NULL `lhs`, code neither `K_DISABLED` nor `K_HELP_TEXT`)
that come before the entry with code `K_ERROR`, in table order. -/
def live_lhs (h : key_h) : List keymap_t → List (List Nat)
  | [] => []
  | k :: ks =>
    if k.code = h.K_ERROR then []
    else
      match k.lhs with
      | none => live_lhs h ks
      | some lhs =>
        if k.code = h.K_DISABLED ∨ k.code = h.K_HELP_TEXT then live_lhs h ks
        else cstring lhs :: live_lhs h ks

/-- Values for the constants of `key.h`, used where a concrete table is
evaluated: the command codes lie outside the byte values. -/
def key_h.sample : key_h :=
  { K_BUFFER_LENGTH := 256, K_ERROR := -1, K_DISABLED := -2, K_HELP_TEXT := -3,
    K_LITERAL := -4, K_MACRO_DEFINE := -5 }

/-! ## The rest of the input stack -/

/-- The function `iflush`. Its loop tests `input`, a name that key.c does not
declare (a header must, for the file to compile), and its body walks `istack`;
`input` is the value of that object, 0 when it compares equal to `NULL`.
Nothing in the body changes `input`: when it is 0 the loop is not entered and
the stack is left as it is; otherwise the loop frees node after node and then
evaluates `istack->next` with `istack == NULL`, which is `none` here. -/
def iflush (input : Int) : List input_t → Option (List input_t)
  | [] => if input ≠ 0 then none else some []
  | node :: next => if input ≠ 0 then iflush input next else some (node :: next)

/-! ## encodekey on memory

`encodekey(str, buf)` is called by the loader with both pointers into the same
record: the token further up, the output at its start. Here memory is one
list of bytes and pointers are offsets into it; a load beyond the list reads
0 and a store beyond it is dropped. -/

/-- What a call of `encodekey` leaves: the value returned, the memory, and the
offset at which `str` points when the call returns. -/
structure encode_t where
  ret : Nat
  mem : List Nat
  str : Nat
deriving DecidableEq, Repr

/-- The loop of `encodekey` with its loads and stores: `str` and `ptr` are the
two running pointers, `buf` the start of the output. Every iteration advances
`str`, so `fuel` above the length of the memory from `str` on is never used
up. -/
def encodekey_mem_loop (buf : Nat) : Nat → List Nat → Nat → Nat → encode_t
  | 0, mem, str, ptr => { ret := ptr - buf, mem := mem, str := str }
  | fuel + 1, mem, str, ptr =>
    let c := mem.getD str 0
    if c = 0 then { ret := ptr - buf, mem := mem.set ptr 0, str := str }
    else if c = 94 then
      let d := mem.getD (str + 1) 0
      if d = 63 then encodekey_mem_loop buf fuel (mem.set ptr 127) (str + 2) (ptr + 1)
      else
        let mem1 := if isupper d then mem.set (str + 1) (tolower d) else mem
        match strchr control (tolower d) with
        | none => { ret := 0, mem := mem1, str := str + 1 }
        | some i => encodekey_mem_loop buf fuel (mem1.set ptr i) (str + 2) (ptr + 1)
    else if c = 92 then
      let d := mem.getD (str + 1) 0
      if isdigit d then
        let number := strtol (mem.drop (str + 1))
        let str1 := str + 1 + ((mem.drop (str + 1)).length - number.2.length)
        if 255 < number.1 then { ret := 0, mem := mem, str := str1 }
        else encodekey_mem_loop buf fuel (mem.set ptr (number.1 % 256)) str1 (ptr + 1)
      else
        match strchr escmap d with
        | some i =>
          encodekey_mem_loop buf fuel (mem.set ptr (escvalue.getD i 0)) (str + 2) (ptr + 1)
        | none => encodekey_mem_loop buf fuel (mem.set ptr d) (str + 2) (ptr + 1)
    else encodekey_mem_loop buf fuel (mem.set ptr c) (str + 1) (ptr + 1)

/-- The call `encodekey(str, buf)` on memory `mem`. -/
def encodekey_mem (mem : List Nat) (str buf : Nat) : encode_t :=
  encodekey_mem_loop buf (mem.length + 1) mem str buf

/-! ## Field input

The curses calls that only draw (`getyx`, `addstr`, `addch`, `move`,
`refresh`) are left out, and with them the statics `fld_row` and `fld_col`. -/

/-- What field input takes from outside key.c: the results of the curses
calls `erasechar()` and `killchar()`, the curses variable `COLS`, and the
macro `ISFUNCKEY` of `header.h`, a test on a key value. -/
structure curses_h where
  erasechar : Nat
  killchar : Nat
  COLS : Int
  ISFUNCKEY : Int → Bool

/-- The functions that an entry of `ktable` can point to. -/
inductive fld_func where
  | fld_done
  | fld_erase
  | fld_kill
  | fld_left
  | fld_insert
deriving DecidableEq, Repr

/-- One entry of `ktable`: a key code and a function pointer (`none` is
`NULL`). -/
structure key_entry_t where
  code : Int
  func : Option fld_func
deriving DecidableEq, Repr

/-- The array `ktable` as `getinput` uses it, after it has stored
`erasechar()` in `ktable[ERASE_KEY].code` and `killchar()` in
`ktable[KILL_KEY].code`. -/
def ktable (c : curses_h) : List key_entry_t :=
  [ { code := c.erasechar, func := some .fld_erase },
    { code := c.killchar, func := some .fld_kill },
    { code := 13, func := some .fld_done },
    { code := 10, func := some .fld_done },
    { code := 8, func := some .fld_erase },
    { code := -1, func := some .fld_insert } ]

/-- The search `for (k = ktable; k->code != -1 && k->code != fld_key; ++k)`:
the entry at which `k` stops, `none` if `k` leaves the table. -/
def ktable_find : List key_entry_t → Int → Option key_entry_t
  | [], _ => none
  | k :: ks, fld_key => if k.code ≠ -1 ∧ k.code ≠ fld_key then ktable_find ks fld_key else some k

/-- The statics of field input: `fld_buffer` is the memory of the caller's
array, `fld_index` the cursor as an offset into it (it is below 0 only inside
`fld_kill`, between the end of its loop and its last assignment); `stores`
lists the offsets at which `fld_buffer` was stored to, oldest first. -/
structure fld_t where
  fld_buffer : List Nat
  fld_index : Nat
  fld_length : Int
  fld_key : Int
  fld_echo : Bool
  stores : List Nat
deriving DecidableEq, Repr

/-- The store `fld_buffer[i] = v` (`v` converted to `char`, its residue modulo
256); `fault` when `i` is not an offset into the caller's array. -/
def fld_store (f : fld_t) (i : Nat) (v : Int) : Res fld_t :=
  if i < f.fld_buffer.length then
    .ok { f with fld_buffer := f.fld_buffer.set i (v % 256).toNat, stores := f.stores ++ [i] }
  else .fault

/-- The function `fld_done`. -/
def fld_done (f : fld_t) : Res (Bool × fld_t) := .ok (false, f)

/-- The function `fld_left`, without its cursor movement on the screen. -/
def fld_left (f : fld_t) : Res (Bool × fld_t) :=
  if 0 < f.fld_index then .ok (true, { f with fld_index := f.fld_index - 1 })
  else .ok (true, f)

/-- The function `fld_erase`: `fld_left()`, then a NUL at the new cursor. -/
def fld_erase (f : fld_t) : Res (Bool × fld_t) :=
  if 0 < f.fld_index then
    match fld_left f with
    | .ok (_, f1) =>
      match fld_store f1 f1.fld_index 0 with
      | .ok f2 => .ok (true, f2)
      | .blocked => .blocked
      | .fault => .fault
      | .unfinished => .unfinished
    | .blocked => .blocked
    | .fault => .fault
    | .unfinished => .unfinished
  else .ok (true, f)

/-- The function `fld_kill`: its loop only blanks the screen and counts
`fld_index` down; then `fld_buffer[0] = 0` and `fld_index = 0`. -/
def fld_kill (f : fld_t) : Res (Bool × fld_t) :=
  match fld_store f 0 0 with
  | .ok f1 => .ok (true, { f1 with fld_index := 0 })
  | .blocked => .blocked
  | .fault => .fault
  | .unfinished => .unfinished

/-- The function `fld_insert`: below the bound a key that is not a function
key is stored at the cursor; the value returned is `fld_index < fld_length`
as it is after that. -/
def fld_insert (c : curses_h) (f : fld_t) : Res (Bool × fld_t) :=
  if (f.fld_index : Int) < f.fld_length then
    if !c.ISFUNCKEY f.fld_key then
      match fld_store f f.fld_index f.fld_key with
      | .ok f1 =>
        .ok (decide (((f1.fld_index + 1 : Nat) : Int) < f1.fld_length),
             { f1 with fld_index := f1.fld_index + 1 })
      | .blocked => .blocked
      | .fault => .fault
      | .unfinished => .unfinished
    else .ok (decide ((f.fld_index : Int) < f.fld_length), f)
  else .ok (decide ((f.fld_index : Int) < f.fld_length), f)

/-- The call `(*k->func)()`. -/
def fld_call (c : curses_h) : fld_func → fld_t → Res (Bool × fld_t)
  | .fld_done, f => fld_done f
  | .fld_erase, f => fld_erase f
  | .fld_kill, f => fld_kill f
  | .fld_left, f => fld_left f
  | .fld_insert, f => fld_insert c f

/-- The loop of `getinput`; `first` is its loop variable. Every iteration
reads one key with `getliteral`. The loop is left when the function called
returns FALSE: the terminator is stored at the cursor. -/
def getinput_loop (c : curses_h) : Nat → Bool → fld_t → key_state → Res (fld_t × key_state)
  | 0, _, _, _ => .unfinished
  | fuel + 1, first, f, st =>
    match getliteral st with
    | .ok (key, st1) =>
      match ktable_find (ktable c) key with
      | none => .fault
      | some k =>
        match (if first ∧ k.func = some .fld_insert then fld_kill { f with fld_key := key }
               else .ok (true, { f with fld_key := key })) with
        | .ok (_, f1) =>
          match k.func with
          | none => getinput_loop c fuel false f1 st1
          | some func =>
            match fld_call c func f1 with
            | .ok (true, f2) => getinput_loop c fuel false f2 st1
            | .ok (false, f2) =>
              match fld_store f2 f2.fld_index 0 with
              | .ok f3 => .ok (f3, st1)
              | .blocked => .blocked
              | .fault => .fault
              | .unfinished => .unfinished
            | .blocked => .blocked
            | .fault => .fault
            | .unfinished => .unfinished
        | .blocked => .blocked
        | .fault => .fault
        | .unfinished => .unfinished
    | .blocked => .blocked
    | .fault => .fault
    | .unfinished => .unfinished

/-- The number of keys that `getliteral` can deliver at most before `getch()`
has to wait: what is left of every node on the input stack (one byte at
least) and the bytes of the terminal. -/
def literals (st : key_state) : Nat :=
  (st.istack.map (fun node => max 1 (node.buf.length - node.ptr))).sum + st.tty.length

/-- The function `getinput(buf, len, echoing)`: `buf` is the memory of the
caller's array. The result is the value returned, the statics, and the state
of the input; statics not yet assigned when the call returns FALSE are shown
as 0. -/
def getinput (c : curses_h) (buf : List Nat) (len : Int) (echoing : Bool) (st : key_state) :
    Res (Bool × fld_t × key_state) :=
  let fld_length := (if len < 0 then c.COLS else len) - 1
  if fld_length < 1 then
    .ok (false, { fld_buffer := buf, fld_index := (cstring buf).length,
                  fld_length := fld_length, fld_key := 0, fld_echo := false, stores := [] }, st)
  else
    match getinput_loop c (literals st + 1) true
        { fld_buffer := buf, fld_index := (cstring buf).length, fld_length := fld_length,
          fld_key := 0, fld_echo := echoing, stores := [] } st with
    | .ok (f, st1) => .ok (true, f, st1)
    | .blocked => .blocked
    | .fault => .fault
    | .unfinished => .unfinished

/-- The function of the entry at which the search of `ktable` stops for `key`,
written out as the tests the search makes in table order; `ktable_find_func`
shows that the search finds it. -/
def fld_dispatch (c : curses_h) (key : Int) : fld_func :=
  if key = c.erasechar then .fld_erase
  else if key = c.killchar then .fld_kill
  else if key = 13 ∨ key = 10 then .fld_done
  else if key = 8 then .fld_erase
  else .fld_insert

/-- The statics of field input are within a caller's array of `len` bytes: the
array has `len` elements, `fld_length` is `len - 1`, the cursor is at most
`len - 1`, and every store so far was at an offset below `len`. -/
def fld_within (len : Nat) (f : fld_t) : Prop :=
  len ≤ f.fld_buffer.length ∧ f.fld_length = (len : Int) - 1 ∧ f.fld_index + 1 ≤ len
    ∧ ∀ i ∈ f.stores, i < len

/-- Values for what field input takes from outside, used where a concrete call
is evaluated: erase character DEL, kill character ^U, 80 columns, and the key
values above the bytes as function keys. -/
def curses_h.sample : curses_h :=
  { erasechar := 127, killchar := 21, COLS := 80, ISFUNCKEY := fun key => decide (255 < key) }

/-! ## The configuration file

The record that `getblock` passes back is one list of bytes, the memory of
`buf`; `strtok`, `strlwr`, `encodekey` and the handlers load from it and store
into it by offset. `malloc` and `realloc` are taken to succeed. -/

/-- The constants of `key.h` that the loader uses besides those of `key_h`:
the size `K_MAX_CODES`, the values that `initkey` returns, and the codes of
the table `keywords`. -/
structure key_codes extends key_h where
  K_MAX_CODES : Nat
  INITKEY_OK : Int
  INITKEY_OPEN : Int
  INITKEY_ALLOC : Int
  INITKEY_ERROR : Int
  K_INSERT_ENTER : Int
  K_INSERT_EXIT : Int
  K_DELETE_LEFT : Int
  K_DELETE_RIGHT : Int
  K_BLOCK : Int
  K_CUT : Int
  K_PASTE : Int
  K_UNDO : Int
  K_CURSOR_UP : Int
  K_CURSOR_DOWN : Int
  K_CURSOR_LEFT : Int
  K_CURSOR_RIGHT : Int
  K_PAGE_UP : Int
  K_PAGE_DOWN : Int
  K_WORD_LEFT : Int
  K_WORD_RIGHT : Int
  K_LINE_LEFT : Int
  K_LINE_RIGHT : Int
  K_FILE_TOP : Int
  K_FILE_BOTTOM : Int
  K_HELP : Int
  K_HELP_OFF : Int
  K_MACRO : Int
  K_QUIT : Int
  K_QUIT_ASK : Int
  K_FILE_READ : Int
  K_FILE_WRITE : Int
  K_STTY_ERASE : Int
  K_STTY_KILL : Int
  K_ITSELF : Int
  K_REDRAW : Int
  K_SHOW_VERSION : Int

/-- The handlers that an entry of `keywords` can point to. -/
inductive handler_t where
  | k_default
  | k_define
  | k_erase
  | k_help
  | k_itself
  | k_kill
  | k_token
deriving DecidableEq, Repr

/-- One entry of the table `keywords`, `keyinit_t`: a code, the name of the
directive (`none` is NULL), and the handler (`none` is NULL). -/
structure keyinit_t where
  code : Int
  lhs : Option (List Nat)
  fn : Option handler_t
deriving DecidableEq, Repr

/-- The table `keywords`; each name is given by its bytes. -/
def keywords (h : key_codes) : List keyinit_t :=
  [
    -- .insert_enter
    { code := h.K_INSERT_ENTER, lhs := some [46, 105, 110, 115, 101, 114, 116, 95, 101, 110, 116, 101, 114],
      fn := some .k_default },
    -- .insert_exit
    { code := h.K_INSERT_EXIT, lhs := some [46, 105, 110, 115, 101, 114, 116, 95, 101, 120, 105, 116],
      fn := some .k_default },
    -- .delete_left
    { code := h.K_DELETE_LEFT, lhs := some [46, 100, 101, 108, 101, 116, 101, 95, 108, 101, 102, 116],
      fn := some .k_default },
    -- .delete_right
    { code := h.K_DELETE_RIGHT, lhs := some [46, 100, 101, 108, 101, 116, 101, 95, 114, 105, 103, 104, 116],
      fn := some .k_default },
    -- .block
    { code := h.K_BLOCK, lhs := some [46, 98, 108, 111, 99, 107],
      fn := some .k_default },
    -- .cut
    { code := h.K_CUT, lhs := some [46, 99, 117, 116],
      fn := some .k_default },
    -- .paste
    { code := h.K_PASTE, lhs := some [46, 112, 97, 115, 116, 101],
      fn := some .k_default },
    -- .undo
    { code := h.K_UNDO, lhs := some [46, 117, 110, 100, 111],
      fn := some .k_default },
    -- .cursor_up
    { code := h.K_CURSOR_UP, lhs := some [46, 99, 117, 114, 115, 111, 114, 95, 117, 112],
      fn := some .k_default },
    -- .cursor_down
    { code := h.K_CURSOR_DOWN, lhs := some [46, 99, 117, 114, 115, 111, 114, 95, 100, 111, 119, 110],
      fn := some .k_default },
    -- .cursor_left
    { code := h.K_CURSOR_LEFT, lhs := some [46, 99, 117, 114, 115, 111, 114, 95, 108, 101, 102, 116],
      fn := some .k_default },
    -- .cursor_right
    { code := h.K_CURSOR_RIGHT, lhs := some [46, 99, 117, 114, 115, 111, 114, 95, 114, 105, 103, 104, 116],
      fn := some .k_default },
    -- .page_up
    { code := h.K_PAGE_UP, lhs := some [46, 112, 97, 103, 101, 95, 117, 112],
      fn := some .k_default },
    -- .page_down
    { code := h.K_PAGE_DOWN, lhs := some [46, 112, 97, 103, 101, 95, 100, 111, 119, 110],
      fn := some .k_default },
    -- .word_left
    { code := h.K_WORD_LEFT, lhs := some [46, 119, 111, 114, 100, 95, 108, 101, 102, 116],
      fn := some .k_default },
    -- .word_right
    { code := h.K_WORD_RIGHT, lhs := some [46, 119, 111, 114, 100, 95, 114, 105, 103, 104, 116],
      fn := some .k_default },
    -- .line_left
    { code := h.K_LINE_LEFT, lhs := some [46, 108, 105, 110, 101, 95, 108, 101, 102, 116],
      fn := some .k_default },
    -- .line_right
    { code := h.K_LINE_RIGHT, lhs := some [46, 108, 105, 110, 101, 95, 114, 105, 103, 104, 116],
      fn := some .k_default },
    -- .file_top
    { code := h.K_FILE_TOP, lhs := some [46, 102, 105, 108, 101, 95, 116, 111, 112],
      fn := some .k_default },
    -- .file_bottom
    { code := h.K_FILE_BOTTOM, lhs := some [46, 102, 105, 108, 101, 95, 98, 111, 116, 116, 111, 109],
      fn := some .k_default },
    -- .help
    { code := h.K_HELP, lhs := some [46, 104, 101, 108, 112],
      fn := some .k_default },
    -- .help_off
    { code := h.K_HELP_OFF, lhs := some [46, 104, 101, 108, 112, 95, 111, 102, 102],
      fn := some .k_token },
    -- .help_text
    { code := h.K_HELP_TEXT, lhs := some [46, 104, 101, 108, 112, 95, 116, 101, 120, 116],
      fn := some .k_help },
    -- .macro
    { code := h.K_MACRO, lhs := some [46, 109, 97, 99, 114, 111],
      fn := some .k_default },
    -- .macro_define
    { code := h.K_MACRO_DEFINE, lhs := some [46, 109, 97, 99, 114, 111, 95, 100, 101, 102, 105, 110, 101],
      fn := some .k_define },
    -- .quit
    { code := h.K_QUIT, lhs := some [46, 113, 117, 105, 116],
      fn := some .k_default },
    -- .quit_ask
    { code := h.K_QUIT_ASK, lhs := some [46, 113, 117, 105, 116, 95, 97, 115, 107],
      fn := some .k_default },
    -- .file_read
    { code := h.K_FILE_READ, lhs := some [46, 102, 105, 108, 101, 95, 114, 101, 97, 100],
      fn := some .k_default },
    -- .file_write
    { code := h.K_FILE_WRITE, lhs := some [46, 102, 105, 108, 101, 95, 119, 114, 105, 116, 101],
      fn := some .k_default },
    -- .stty_erase
    { code := h.K_STTY_ERASE, lhs := some [46, 115, 116, 116, 121, 95, 101, 114, 97, 115, 101],
      fn := some .k_erase },
    -- .stty_kill
    { code := h.K_STTY_KILL, lhs := some [46, 115, 116, 116, 121, 95, 107, 105, 108, 108],
      fn := some .k_kill },
    -- .itself
    { code := h.K_ITSELF, lhs := some [46, 105, 116, 115, 101, 108, 102],
      fn := some .k_itself },
    -- .redraw
    { code := h.K_REDRAW, lhs := some [46, 114, 101, 100, 114, 97, 119],
      fn := some .k_default },
    -- .show_version
    { code := h.K_SHOW_VERSION, lhs := some [46, 115, 104, 111, 119, 95, 118, 101, 114, 115, 105, 111, 110],
      fn := some .k_default },
    -- .literal
    { code := h.K_LITERAL, lhs := some [46, 108, 105, 116, 101, 114, 97, 108],
      fn := some .k_default },
    { code := h.K_ERROR, lhs := none, fn := none } ]

/-- The static string `blank`: space, tab, CR, LF. -/
def blank : List Nat := [32, 9, 13, 10]

/-- C `strspn(s, blank)`: the number of leading bytes of the string `s` that
are in `blank`. -/
def strspn_blank : List Nat → Nat
  | [] => 0
  | c :: s => if c ∈ blank then strspn_blank s + 1 else 0

/-- C `strcspn(s, blank)`: the number of leading bytes of the string `s` that
are not in `blank`; the count ends at the terminator. -/
def strcspn_blank : List Nat → Nat
  | [] => 0
  | c :: s => if c = 0 ∨ c ∈ blank then 0 else strcspn_blank s + 1

/-- What a call of `strtok` leaves: the token it returns (`none` is NULL), the
memory, and the pointer it keeps for the next call. -/
structure strtok_t where
  tok : Option Nat
  mem : List Nat
  save : Nat
deriving DecidableEq, Repr

/-- C `strtok` with the delimiters `blank`, started at offset `s` of `mem`:
`strtok(buf, blank)` is `strtok mem 0` and `strtok(NULL, blank)` is `strtok`
at the pointer kept by the call before. Leading delimiters are skipped; at the
terminator there is no token; otherwise the token runs up to the next
delimiter, which is overwritten with NUL, or up to the terminator. -/
def strtok (mem : List Nat) (s : Nat) : strtok_t :=
  let tok := s + strspn_blank (mem.drop s)
  if mem.getD tok 0 = 0 then { tok := none, mem := mem, save := tok }
  else
    let e := tok + strcspn_blank (mem.drop tok)
    if mem.getD e 0 = 0 then { tok := some tok, mem := mem, save := e }
    else { tok := some tok, mem := mem.set e 0, save := e + 1 }

/-- The bytes of a string with every upper case letter made lower case, up to
its terminator. -/
def strlwr_string : List Nat → List Nat
  | [] => []
  | c :: s => if c = 0 then c :: s else tolower c :: strlwr_string s

/-- Modelled from the spec: `strlwr` is not in the C library nor in the
sources; `initkey` passes its result to `findikey` as the token "lower-cased".
`strlwr(s)` makes the string at offset `s` lower case in place and returns
`s`. -/
def strlwr (mem : List Nat) (s : Nat) : List Nat := mem.take s ++ strlwr_string (mem.drop s)

/-- The function `findikey`: the first entry before the one with code
`K_ERROR` whose name is the string `token`. -/
def findikey (h : key_h) : List keyinit_t → List Nat → Option keyinit_t
  | [], _ => none
  | kp :: rest, token =>
    if kp.code = h.K_ERROR then none
    else
      match kp.lhs with
      | some lhs => if cstring token = cstring lhs then some kp else findikey h rest token
      | none => findikey h rest token

/-- The function `findkey`: the first entry before the one with code `K_ERROR`
whose `lhs` is the string `token`. -/
def findkey (h : key_h) : List keymap_t → List Nat → Option keymap_t
  | [], _ => none
  | kp :: rest, token =>
    if kp.code = h.K_ERROR then none
    else
      match kp.lhs with
      | some lhs => if cstring token = cstring lhs then some kp else findkey h rest token
      | none => findkey h rest token

/-- The handler `k_token`. -/
def k_token (kp : keymap_t) : Option keymap_t := some { kp with lhs := none, rhs := none }

/-- The handler `k_help`: `help` is what `getblock(fp, ".end\n", &kp->lhs)`
passes back, `none` when it does not return `GETBLOCK_OK`. -/
def k_help (help : Option (List Nat)) (kp : keymap_t) : Option keymap_t :=
  match help with
  | some text => some { kp with lhs := some text }
  | none => none

/-- The handler `k_default` on the record `mem`, `olds` being the pointer that
`strtok` keeps; `none` is FALSE. `realloc(buf, lhs)` keeps the first `lhs`
bytes of the record: the encoded bytes, without the terminator that
`encodekey` stored behind them. -/
def k_default (mem : List Nat) (olds : Nat) (kp : keymap_t) : Option keymap_t :=
  match (strtok mem olds).tok with
  | none => none
  | some tok =>
    let lhs := encodekey_mem (strtok mem olds).mem tok 0
    if lhs.ret = 0 then none else some { kp with lhs := some (lhs.mem.take lhs.ret) }

/-- The handler `k_define`. With no token it is `k_token`. Otherwise the first
token is encoded at the start of the record, a second token is asked for and
encoded behind the first and its terminator, and `realloc(buf, lhs+rhs+2)`
keeps both strings; `rhs` points behind the first. Whenever one of these steps
does not succeed the value is FALSE. -/
def k_define (mem : List Nat) (olds : Nat) (kp : keymap_t) : Option keymap_t :=
  match (strtok mem olds).tok with
  | none => k_token kp
  | some tok =>
    let lhs := encodekey_mem (strtok mem olds).mem tok 0
    if lhs.ret ≠ 0 then
      match (strtok lhs.mem (strtok mem olds).save).tok with
      | none => none
      | some tok2 =>
        let rhs := encodekey_mem (strtok lhs.mem (strtok mem olds).save).mem tok2 (lhs.ret + 1)
        if rhs.ret ≠ 0 then
          some { kp with lhs := some (rhs.mem.take (lhs.ret + rhs.ret + 2)),
                         rhs := some ((rhs.mem.take (lhs.ret + rhs.ret + 2)).drop (lhs.ret + 1)) }
        else none
    else none

/-- The handler `k_itself`: the code becomes the first byte of the record. -/
def k_itself (mem : List Nat) (kp : keymap_t) : Option keymap_t :=
  some { kp with code := mem.getD 0 0, lhs := some ((mem.set 1 0).take 2) }

/-- The handler `k_erase`. -/
def k_erase (c : curses_h) (mem : List Nat) (kp : keymap_t) : Option keymap_t :=
  some { kp with lhs := some (((mem.set 0 (c.erasechar % 256)).set 1 0).take 2) }

/-- The handler `k_kill`. -/
def k_kill (c : curses_h) (mem : List Nat) (kp : keymap_t) : Option keymap_t :=
  some { kp with lhs := some (((mem.set 0 (c.killchar % 256)).set 1 0).take 2) }

/-- The call `(*kp->fn)(fp, buf, &array[count])`. -/
def k_call (c : curses_h) (help : Option (List Nat)) :
    handler_t → List Nat → Nat → keymap_t → Option keymap_t
  | .k_default, mem, olds, kp => k_default mem olds kp
  | .k_define, mem, olds, kp => k_define mem olds kp
  | .k_erase, mem, _, kp => k_erase c mem kp
  | .k_help, _, _, kp => k_help help kp
  | .k_itself, mem, _, kp => k_itself mem kp
  | .k_kill, mem, _, kp => k_kill c mem kp
  | .k_token, _, _, kp => k_token kp

/-- The function `growkey(array, len)`: `none` is NULL; `junk i` is what the
element `i` of the memory obtained holds before it is assigned. -/
def growkey (junk : Nat → keymap_t) (array : List keymap_t) (len : Nat) :
    Option (List keymap_t) :=
  if len = 0 then none
  else some (array ++ (List.range' array.length (len - array.length)).map junk)

/-- Modelled from the spec: `getblock` is not in the sources; it reads the
next block of the file up to a delimiter and returns `GETBLOCK_OK`,
`GETBLOCK_EOF` or `GETBLOCK_ALLOC`. One element of a file stands for one call
`getblock(fp, "\n", &buf)` of `initkey` that does not return `GETBLOCK_EOF`:
`buf` is the record passed back, `none` when the call returns
`GETBLOCK_ALLOC`; `help` is what `getblock(fp, ".end\n", &kp->lhs)` passes
back when the handler of this record calls it, `none` when that call does not
return `GETBLOCK_OK`. The end of the list is `GETBLOCK_EOF`. -/
structure block_t where
  buf : Option (List Nat)
  help : Option (List Nat)
deriving DecidableEq, Repr

/-- The test at the head of the loop body of `initkey`: `none` when the record
is dropped, otherwise the entry of `keywords` found, the record as `strtok`
and `strlwr` leave it, and the pointer that `strtok` keeps. -/
def initkey_token (h : key_codes) (buf : List Nat) : Option (keyinit_t × List Nat × Nat) :=
  if buf.getD 0 0 ≠ 46 then none
  else
    match (strtok buf 0).tok with
    | none => none
    | some token =>
      match findikey h.tokey_h (keywords h) ((strlwr (strtok buf 0).mem token).drop token) with
      | none => none
      | some kp => some (kp, strlwr (strtok buf 0).mem token, (strtok buf 0).save)

/-- The code behind the label `error1` of `initkey`: `array[count].code =
K_ERROR`, then the return of `error` and of what `*keys` holds; `fault` when
`array[count]` is not an element of the array. -/
def initkey_error1 (h : key_codes) (array : List keymap_t) (count : Nat) (error : Int)
    (ok : Bool) : Res (Int × Option (List keymap_t)) :=
  match array.get? count with
  | none => .fault
  | some slot =>
    .ok (error, if ok then some (array.set count { slot with code := h.K_ERROR }) else none)

/-- How one pass through the loop body of `initkey` ends: with the next pass,
or with the return of `initkey`. -/
inductive initkey_t where
  | next (array : List keymap_t) (count : Nat)
  | stop (r : Res (Int × Option (List keymap_t)))

/-- One pass through the loop body of `initkey` for the block `b` read. -/
def initkey_block (h : key_codes) (c : curses_h) (junk : Nat → keymap_t) (b : block_t)
    (array : List keymap_t) (count : Nat) : initkey_t :=
  match b.buf with
  | none => .stop (initkey_error1 h array count h.INITKEY_ALLOC false)
  | some buf =>
    match initkey_token h buf with
    | none => .next array count
    | some (kp, mem, olds) =>
      match array.get? count with
      | none => .stop .fault
      | some slot =>
        match (match kp.fn with
               | none => some { slot with code := kp.code }
               | some fn => k_call c b.help fn mem olds { slot with code := kp.code }) with
        | none =>
          .stop (initkey_error1 h (array.set count { slot with code := kp.code }) count
            h.INITKEY_ERROR false)
        | some entry =>
          if array.length ≤ count + 1 then
            match growkey junk (array.set count entry) (array.length + h.K_MAX_CODES) with
            | none =>
              .stop (initkey_error1 h (array.set count entry) (count + 1) h.INITKEY_ALLOC false)
            | some new => .next new (count + 1)
          else .next (array.set count entry) (count + 1)

/-- The loop of `initkey` over the blocks that `getblock` reads, and the code
behind it. -/
def initkey_loop (h : key_codes) (c : curses_h) (junk : Nat → keymap_t) :
    List block_t → List keymap_t → Nat → Res (Int × Option (List keymap_t))
  | [], array, count => initkey_error1 h array count h.INITKEY_OK true
  | b :: fp, array, count =>
    match initkey_block h c junk b array count with
    | .next array1 count1 => initkey_loop h c junk fp array1 count1
    | .stop r => r

/-- The function `initkey(fn, keys)`: `fp` is the file that `openrc(fn)`
opens, `none` when it returns NULL. The result is the value returned and what
`*keys` holds, `none` being NULL. When `growkey` returns NULL at the start
(`K_MAX_CODES` is 0) the code behind `error1` uses `array[count]` with `array`
NULL: `fault`. -/
def initkey (h : key_codes) (c : curses_h) (junk : Nat → keymap_t)
    (fp : Option (List block_t)) : Res (Int × Option (List keymap_t)) :=
  match fp with
  | none => .ok (h.INITKEY_OPEN, none)
  | some blocks =>
    match growkey junk [] h.K_MAX_CODES with
    | none => .fault
    | some array => initkey_loop h c junk blocks array 0

/-- Values for the constants of the loader, used where a concrete file is
evaluated: room for two entries per allocation, so that a file of two records
makes the table grow, and the codes of `keywords` below the byte values. -/
def key_codes.sample : key_codes :=
  { key_h.sample with
    K_MAX_CODES := 2
    INITKEY_OK := 0
    INITKEY_OPEN := 1
    INITKEY_ALLOC := 2
    INITKEY_ERROR := 3
    K_INSERT_ENTER := -10
    K_INSERT_EXIT := -11
    K_DELETE_LEFT := -12
    K_DELETE_RIGHT := -13
    K_BLOCK := -14
    K_CUT := -15
    K_PASTE := -16
    K_UNDO := -17
    K_CURSOR_UP := -18
    K_CURSOR_DOWN := -19
    K_CURSOR_LEFT := -20
    K_CURSOR_RIGHT := -21
    K_PAGE_UP := -22
    K_PAGE_DOWN := -23
    K_WORD_LEFT := -24
    K_WORD_RIGHT := -25
    K_LINE_LEFT := -26
    K_LINE_RIGHT := -27
    K_FILE_TOP := -28
    K_FILE_BOTTOM := -29
    K_HELP := -30
    K_HELP_OFF := -31
    K_MACRO := -32
    K_QUIT := -33
    K_QUIT_ASK := -34
    K_FILE_READ := -35
    K_FILE_WRITE := -36
    K_STTY_ERASE := -37
    K_STTY_KILL := -38
    K_ITSELF := -39
    K_REDRAW := -40
    K_SHOW_VERSION := -41 }

/-- Memory not yet assigned, used where a concrete file is evaluated: the code
7 and two NULL pointers in every element. -/
def junk_sample : Nat → keymap_t := fun _ => { code := 7, lhs := none, rhs := none }

/-- The first token of a record as the specification words it: the bytes of the
record before its first byte of `blank` (or its terminator), made lower
case. -/
def directive_name (buf : List Nat) : List Nat :=
  (buf.takeWhile (fun c => decide (c ≠ 0 ∧ c ∉ blank))).map tolower

/-- The entry of `keywords` that a record selects as the specification words it: the
record starts with `.`, and the entry is the first one before the last whose
name is the first token of the record, made lower case. -/
def directive (h : key_codes) (buf : List Nat) : Option keyinit_t :=
  if buf.getD 0 0 = 46 then
    (keywords h).dropLast.find? (fun kp => decide (kp.lhs = some (directive_name buf)))
  else none

/-- What the specification says of the entry `e` of the table made for a recognised
record, `r` being what the loop body hands to the handler (the entry of
`keywords`, the record, the pointer kept by `strtok`): `e` has the code of the
entry of `keywords`, or the code of `.` when the handler is `k_itself`; and
when the handler is `k_default`, the `lhs` of `e` is the bytes that
`encodekey` writes for the argument of the record, the token that `strtok`
finds next. -/
def entry_for (r : keyinit_t × List Nat × Nat) (e : keymap_t) : Prop :=
  e.code = (if r.1.fn = some handler_t.k_itself then 46 else r.1.code)
  ∧ (r.1.fn = some handler_t.k_default →
      ∃ tok, (strtok r.2.1 r.2.2).tok = some tok
        ∧ e.lhs = some (encodekey ((strtok r.2.1 r.2.2).mem.drop tok)).2)

/-- Tells whether the handler of the record in `b` returns TRUE, when the
record is recognised and the entry of `keywords` has a handler; what the slot
holds has no part in that, an empty one is used. -/
def handler_succeeds (h : key_codes) (c : curses_h) (b : block_t) : Bool :=
  match b.buf with
  | none => true
  | some buf =>
    match initkey_token h buf with
    | none => true
    | some (kp, mem, olds) =>
      match kp.fn with
      | none => true
      | some fn => (k_call c b.help fn mem olds { code := 0, lhs := none, rhs := none }).isSome

/-! ## Facts about the C library model -/

theorem indexOfByte_eq (c : Nat) (s : List Nat) :
    indexOfByte c s = if c ∈ s then some (s.indexOf c) else none := by
  induction s with
  | nil => simp [indexOfByte]
  | cons x xs ih =>
    by_cases hx : x = c
    · subst hx
      simp [indexOfByte]
    · have hx' : ¬ c = x := fun e => hx e.symm
      by_cases hm : c ∈ xs
      · simp [indexOfByte, hx, hx', ih, hm, List.indexOf_cons_ne]
      · simp [indexOfByte, hx, hx', ih, hm]

theorem strchr_of_ne_zero (s : List Nat) (c : Nat) (hc : c ≠ 0) :
    strchr s c = if c ∈ s then some (s.indexOf c) else none := by
  simp [strchr, hc, indexOfByte_eq]

theorem tolower_ne_zero (c : Nat) (hc : c ≠ 0) : tolower c ≠ 0 := by
  unfold tolower
  split <;> omega

/-! ## encodekey: one iteration of the loop -/

theorem encodekey_loop_nul (fuel : Nat) (str out : List Nat) (h : str.headD 0 = 0) :
    encodekey_loop fuel str out = (out.length, out) := by
  cases fuel with
  | zero => rfl
  | succ n => rw [encodekey_loop]; simp only [h, if_true]

theorem encodekey_loop_caret (fuel d : Nat) (rest out : List Nat) :
    encodekey_loop (fuel + 1) (94 :: d :: rest) out =
      if d = 63 then encodekey_loop fuel rest (out ++ [127])
      else
        match strchr control (tolower d) with
        | none => (0, out)
        | some i => encodekey_loop fuel rest (out ++ [i]) := by
  rw [encodekey_loop]
  simp only [List.headD_cons, List.tail_cons]
  rfl

theorem encodekey_loop_backslash (fuel d : Nat) (rest out : List Nat) :
    encodekey_loop (fuel + 1) (92 :: d :: rest) out =
      if isdigit d = true then
        if 255 < (strtol (d :: rest)).1 then (0, out)
        else encodekey_loop fuel (strtol (d :: rest)).2 (out ++ [(strtol (d :: rest)).1 % 256])
      else
        match strchr escmap d with
        | some i => encodekey_loop fuel rest (out ++ [escvalue.getD i 0])
        | none => encodekey_loop fuel rest (out ++ [d]) := by
  rw [encodekey_loop]
  simp only [List.headD_cons, List.tail_cons]
  rfl

theorem encodekey_loop_plain (fuel c : Nat) (rest out : List Nat)
    (h0 : c ≠ 0) (h1 : c ≠ 94) (h2 : c ≠ 92) :
    encodekey_loop (fuel + 1) (c :: rest) out = encodekey_loop fuel rest (out ++ [c]) := by
  rw [encodekey_loop]
  simp only [List.headD_cons, List.tail_cons, h0, h1, h2, if_false]

/-! ## encodekey: control escapes -/

/-- C4.  For every character `c` other than NUL, the token `^c` (followed by
its terminator) encodes to exactly one byte: `0x7F` when `c` is `?`, otherwise
the zero-based index of `tolower c` in `control` when it occurs there; when it
does not occur, `encodekey` returns 0.  In particular `^A` and `^a` give
`0x01`, `^@` gives `0x00`, `^_` gives `0x1F` and `^?` gives `0x7F`. -/
theorem encodekey_control_escape (c : Nat) (rest : List Nat) (hc : c ≠ 0)
    (hrest : rest.headD 0 = 0) :
    (c = 63 → encodekey (94 :: c :: rest) = (1, [127]))
    ∧ (c ≠ 63 → tolower c ∈ control →
        encodekey (94 :: c :: rest) = (1, [control.indexOf (tolower c)]))
    ∧ (c ≠ 63 → tolower c ∉ control → (encodekey (94 :: c :: rest)).1 = 0)
    ∧ encodekey [94, 65] = (1, [1]) ∧ encodekey [94, 97] = (1, [1])
    ∧ encodekey [94, 64] = (1, [0]) ∧ encodekey [94, 95] = (1, [31])
    ∧ encodekey [94, 63] = (1, [127]) := by
  have hl := strchr_of_ne_zero control (tolower c) (tolower_ne_zero c hc)
  have hstep : encodekey (94 :: c :: rest)
      = encodekey_loop (((rest.length + 1) + 1) + 1) (94 :: c :: rest) [] := rfl
  rw [hstep, encodekey_loop_caret]
  refine ⟨?_, ?_, ?_, by decide, by decide, by decide, by decide, by decide⟩
  · intro h63
    rw [if_pos h63, encodekey_loop_nul _ _ _ hrest]
    rfl
  · intro h63 hmem
    rw [if_neg h63, hl, if_pos hmem]
    simp only []
    rw [encodekey_loop_nul _ _ _ hrest]
    rfl
  · intro h63 hmem
    rw [if_neg h63, hl, if_neg hmem]

/-- Witness of `encodekey_control_escape` at `c = 'A'`, the token `^A`. -/
theorem encodekey_control_escape_witness :
    encodekey [94, 65, 0] = (1, [1]) ∧ encodekey [94, 65] = (1, [1]) :=
  ⟨(encodekey_control_escape 65 [0] (by decide) (by decide)).2.1 (by decide) (by decide),
   (encodekey_control_escape 65 [] (by decide) (by decide)).2.1 (by decide) (by decide)⟩

/-! ## encodekey: numeric escapes -/

theorem digitsValue_append (base : Nat) (xs ys : List Nat) :
    digitsValue base (xs ++ ys) = digitsValue base xs + base ^ xs.length * digitsValue base ys := by
  induction xs with
  | nil => simp [digitsValue]
  | cons x xs ih =>
    change x + base * digitsValue base (xs ++ ys)
      = (x + base * digitsValue base xs) + base ^ (xs.length + 1) * digitsValue base ys
    rw [ih, pow_succ]
    ring

theorem literalDigits_cons (c : Nat) (cs : List Nat) :
    literalDigits (c :: cs) = literalDigits cs ++ [(digitValue c).getD 0] := by
  simp [literalDigits]

theorem literalDigits_length (cs : List Nat) : (literalDigits cs).length = cs.length := by
  simp [literalDigits]

theorem digitValue_zero : digitValue 0 = none := by decide

theorem strtol_digits_append (base : Nat) (ds rest : List Nat) (acc : Nat)
    (hds : ∀ c ∈ ds, ∃ d, digitValue c = some d ∧ d < base)
    (hrest : rest.headD 0 = 0) :
    strtol_digits base (ds ++ rest) acc
      = (acc * base ^ ds.length + digitsValue base (literalDigits ds), rest) := by
  induction ds generalizing acc with
  | nil =>
    cases rest with
    | nil => simp [strtol_digits, digitsValue, literalDigits]
    | cons r rs =>
      have hr : r = 0 := by simpa using hrest
      subst hr
      simp [strtol_digits, digitValue_zero, digitsValue, literalDigits]
  | cons c ds ih =>
    obtain ⟨d, hd, hlt⟩ := hds c (List.mem_cons_self _ _)
    have hds' : ∀ c ∈ ds, ∃ d, digitValue c = some d ∧ d < base :=
      fun x hx => hds x (List.mem_cons_of_mem _ hx)
    simp only [List.cons_append, strtol_digits, hd, hlt, if_true, List.append_eq]
    rw [ih _ hds', literalDigits_cons, digitsValue_append, literalDigits_length, hd]
    simp only [Option.getD_some, digitsValue, List.length_cons, pow_succ, Prod.mk.injEq, and_true]
    ring

theorem digit_of_isxdigit (c : Nat) (h : isxdigit c = true) :
    ∃ d, digitValue c = some d ∧ d < 16 := by
  unfold isxdigit at h
  cases hv : digitValue c with
  | none => simp [hv] at h
  | some d => exact ⟨d, rfl, by simpa [hv] using h⟩

theorem digit_of_isodigit (c : Nat) (h : isodigit c = true) :
    ∃ d, digitValue c = some d ∧ d < 8 := by
  simp only [isodigit, Bool.and_eq_true, decide_eq_true_eq] at h
  refine ⟨c - 48, ?_, by omega⟩
  simp [digitValue, h.1, h.2, show c ≤ 57 by omega]

theorem digit_of_isdigit (c : Nat) (h : isdigit c = true) :
    ∃ d, digitValue c = some d ∧ d < 10 := by
  simp only [isdigit, Bool.and_eq_true, decide_eq_true_eq] at h
  refine ⟨c - 48, ?_, by omega⟩
  simp [digitValue, h.1, h.2]

/-- On a C integer literal followed by the terminator, `strtol` with base 0
returns the value of the literal (at most `LONG_MAX`) and stops at the
terminator. -/
theorem strtol_literal (lit rest : List Nat) (v : Nat)
    (hlit : cLiteralValue lit = some v) (hrest : rest.headD 0 = 0) :
    strtol (lit ++ rest) = (v ⊓ LONG_MAX, rest) ∧ isdigit ((lit ++ rest).headD 0) = true := by
  cases lit with
  | nil => simp [cLiteralValue] at hlit
  | cons d ds =>
    by_cases hd : d = 48
    · subst hd
      cases ds with
      | nil =>
        have hv : v = 0 := by simpa [cLiteralValue] using hlit.symm
        subst hv
        have h8 := strtol_digits_append 8 [48] rest 0
          (by intro c hc; simp at hc; subst hc; exact ⟨0, by decide, by decide⟩) hrest
        have hx : ¬ (rest.headD 0 = 120 ∨ rest.headD 0 = 88) := by rw [hrest]; decide
        constructor
        · simp only [strtol, List.cons_append, List.nil_append, List.headD_cons, List.tail_cons,
            hx, false_and, and_false, if_false, if_true]
          simp only [List.cons_append, List.nil_append] at h8
          rw [h8]
          simp [digitsValue, literalDigits, digitValue]
        · rfl
      | cons x hs =>
        by_cases hx : x = 120 ∨ x = 88
        · simp only [cLiteralValue, if_true, hx] at hlit
          by_cases hh : hs ≠ [] ∧ hs.all isxdigit = true
          · rw [if_pos hh] at hlit
            have hv : digitsValue 16 (literalDigits hs) = v := by simpa using hlit
            have hall : ∀ c ∈ hs, ∃ d, digitValue c = some d ∧ d < 16 := by
              intro c hc
              exact digit_of_isxdigit c (List.all_eq_true.mp hh.2 c hc)
            have h16 := strtol_digits_append 16 hs rest 0 hall hrest
            obtain ⟨y, ys, rfl⟩ := List.exists_cons_of_ne_nil hh.1
            have hy : isxdigit y = true := List.all_eq_true.mp hh.2 y (List.mem_cons_self _ _)
            constructor
            · simp only [strtol, List.cons_append, List.headD_cons, List.tail_cons, hx, hy,
                true_and, and_self, if_true]
              simp only [List.cons_append] at h16
              rw [h16, ← hv]
              simp
            · rfl
          · rw [if_neg hh] at hlit
            exact absurd hlit (by simp)
        · simp only [cLiteralValue, if_true, hx, if_false] at hlit
          by_cases ho : (x :: hs).all isodigit = true
          · rw [if_pos ho] at hlit
            have hv : digitsValue 8 (literalDigits (x :: hs)) = v := by simpa using hlit
            have hall : ∀ c ∈ 48 :: x :: hs, ∃ d, digitValue c = some d ∧ d < 8 := by
              intro c hc
              rcases List.mem_cons.mp hc with h | h
              · subst h; exact ⟨0, by decide, by decide⟩
              · exact digit_of_isodigit c (List.all_eq_true.mp ho c h)
            have h8 := strtol_digits_append 8 (48 :: x :: hs) rest 0 hall hrest
            constructor
            · simp only [strtol, List.cons_append, List.headD_cons, List.tail_cons, hx,
                false_and, and_false, if_false, if_true]
              simp only [List.cons_append] at h8
              rw [h8, ← hv, literalDigits_cons (48 : Nat) (x :: hs), digitsValue_append]
              simp [digitsValue, digitValue]
            · rfl
          · rw [if_neg ho] at hlit
            exact absurd hlit (by simp)
    · simp only [cLiteralValue, hd, if_false] at hlit
      by_cases hdec : 49 ≤ d ∧ d ≤ 57 ∧ ds.all isdigit = true
      · rw [if_pos hdec] at hlit
        have hv : digitsValue 10 (literalDigits (d :: ds)) = v := by simpa using hlit
        have hdd : isdigit d = true := by
          simp only [isdigit, Bool.and_eq_true, decide_eq_true_eq]; omega
        have hall : ∀ c ∈ d :: ds, ∃ e, digitValue c = some e ∧ e < 10 := by
          intro c hc
          rcases List.mem_cons.mp hc with h | h
          · subst h; exact digit_of_isdigit c hdd
          · exact digit_of_isdigit c (List.all_eq_true.mp hdec.2.2 c h)
        have h10 := strtol_digits_append 10 (d :: ds) rest 0 hall hrest
        constructor
        · simp only [strtol, List.cons_append, List.headD_cons, hd, false_and, if_false]
          simp only [List.cons_append] at h10
          rw [h10, ← hv]
          simp
        · simpa using hdd
      · rw [if_neg hdec] at hlit
        exact absurd hlit (by simp)

theorem encodekey_numeric (lit rest : List Nat) (v : Nat)
    (hlit : cLiteralValue lit = some v) (hrest : rest.headD 0 = 0) :
    encodekey (92 :: lit ++ rest) = if 255 < v then (0, []) else (1, [v]) := by
  obtain ⟨hs, hdig⟩ := strtol_literal lit rest v hlit hrest
  cases lit with
  | nil => simp [cLiteralValue] at hlit
  | cons d ds =>
    have hstep : encodekey (92 :: (d :: ds) ++ rest)
        = encodekey_loop (((ds ++ rest).length + 1) + 1 + 1) (92 :: d :: (ds ++ rest)) [] := rfl
    have hd : isdigit d = true := by simpa using hdig
    have hs' : strtol (d :: (ds ++ rest)) = (v ⊓ LONG_MAX, rest) := hs
    rw [hstep, encodekey_loop_backslash, if_pos hd, hs']
    by_cases hv : 255 < v
    · have h1 : 255 < v ⊓ LONG_MAX := by
        apply lt_inf_iff.mpr
        exact ⟨hv, by unfold LONG_MAX; omega⟩
      simp only [h1, hv, if_true]
    · have h1 : ¬ 255 < v ⊓ LONG_MAX := by
        have : v ⊓ LONG_MAX ≤ v := inf_le_left
        omega
      have h2 : v ⊓ LONG_MAX = v := by
        apply inf_eq_left.mpr
        unfold LONG_MAX
        omega
      simp only [h1, hv, if_false]
      rw [encodekey_loop_nul _ _ _ hrest, h2, Nat.mod_eq_of_lt (by omega)]
      rfl

/-- C5.  For every token made of a backslash and a C integer literal that
starts with a digit (leading `0x` hexadecimal, leading `0` octal, otherwise
decimal) of value `v`, `encodekey` returns length 1 and the output byte `v`
when `v ≤ 255`, and returns 0 when `v > 255`.  `\65`, `\0101` and `\0x41`
each give the byte `0x41`, `\255` gives `0xFF`, `\256` and `\999` fail. -/
theorem encodekey_numeric_escape (lit rest : List Nat) (v : Nat)
    (hlit : cLiteralValue lit = some v) (hrest : rest.headD 0 = 0) :
    (v ≤ 255 → encodekey (92 :: lit ++ rest) = (1, [v]))
    ∧ (255 < v → (encodekey (92 :: lit ++ rest)).1 = 0)
    ∧ encodekey [92, 54, 53] = (1, [65])
    ∧ encodekey [92, 48, 49, 48, 49] = (1, [65])
    ∧ encodekey [92, 48, 120, 52, 49] = (1, [65])
    ∧ encodekey [92, 50, 53, 53] = (1, [255])
    ∧ (encodekey [92, 50, 53, 54]).1 = 0
    ∧ (encodekey [92, 57, 57, 57]).1 = 0 := by
  have h := encodekey_numeric lit rest v hlit hrest
  refine ⟨?_, ?_, by decide, by decide, by decide, by decide, by decide, by decide⟩
  · intro hv
    rw [h, if_neg (by omega)]
  · intro hv
    rw [h, if_pos hv]

/-- Witness of `encodekey_numeric_escape` at the literals `65` (token `\65`)
and `999` (token `\999`). -/
theorem encodekey_numeric_escape_witness :
    encodekey [92, 54, 53, 0] = (1, [65]) ∧ (encodekey [92, 57, 57, 57, 0]).1 = 0 :=
  ⟨(encodekey_numeric_escape [54, 53] [0] 65 (by decide) (by decide)).1 (by decide),
   (encodekey_numeric_escape [57, 57, 57] [0] 999 (by decide) (by decide)).2.1 (by decide)⟩

/-! ## encodekey: the tokens `\101` and `\x41` -/

/-- C6, as stated, fails: `encodekey` applied to the token backslash, `1`,
`0`, `1` does not give length 1 with the byte `0x41`. -/
theorem encodekey_backslash_101_ne_0x41 : encodekey [92, 49, 48, 49] ≠ (1, [65]) := by
  decide

/-- C6, amended.  `encodekey` applied to the token backslash, `1`, `0`, `1`,
whatever follows its terminator, returns length 1 and writes the single byte
`0x65` (decimal 101): digits without a leading `0` are read as decimal.  The
octal spelling `\0101` gives `0x41`. -/
theorem encodekey_backslash_101 (m : List Nat) :
    encodekey ([92, 49, 48, 49] ++ 0 :: m) = (1, [101])
    ∧ encodekey [92, 49, 48, 49] = (1, [101])
    ∧ encodekey ([92, 48, 49, 48, 49] ++ 0 :: m) = (1, [65]) := by
  refine ⟨?_, by decide, ?_⟩
  · exact encodekey_numeric [49, 48, 49] (0 :: m) 101 (by decide) rfl
  · exact encodekey_numeric [48, 49, 48, 49] (0 :: m) 65 (by decide) rfl

/-- C7, as stated, fails: `encodekey` applied to the token backslash, `x`,
`4`, `1` does not give length 1 with the byte `0x41`. -/
theorem encodekey_backslash_x41_ne_0x41 : encodekey [92, 120, 52, 49] ≠ (1, [65]) := by
  decide

/-- C7, amended.  `encodekey` applied to the token backslash, `x`, `4`, `1`,
whatever follows its terminator, returns length 3 and writes the three bytes
`x`, `4`, `1`: a backslash before `x` is a literal escape.  The hexadecimal
spelling `\0x41` gives the single byte `0x41`. -/
theorem encodekey_backslash_x41 (m : List Nat) :
    encodekey ([92, 120, 52, 49] ++ 0 :: m) = (3, [120, 52, 49])
    ∧ encodekey [92, 120, 52, 49] = (3, [120, 52, 49])
    ∧ encodekey ([92, 48, 120, 52, 49] ++ 0 :: m) = (1, [65]) := by
  refine ⟨?_, by decide, ?_⟩
  · have hstep : encodekey ([92, 120, 52, 49] ++ 0 :: m)
        = encodekey_loop (m.length + 1 + 1 + 1 + 1 + 1 + 1) (92 :: 120 :: 52 :: 49 :: 0 :: m) [] :=
      rfl
    rw [hstep, encodekey_loop_backslash, if_neg (by decide)]
    have h120 : strchr escmap 120 = none := by decide
    rw [h120]
    simp only []
    rw [encodekey_loop_plain _ _ _ _ (by decide) (by decide) (by decide),
      encodekey_loop_plain _ _ _ _ (by decide) (by decide) (by decide),
      encodekey_loop_nul _ (0 :: m) _ rfl]
    rfl
  · exact encodekey_numeric [48, 120, 52, 49] (0 :: m) 65 (by decide) rfl

/-! ## encodekey: literal escapes -/

theorem encodekey_loop_literalToken (b rest : List Nat) (hb : ∀ c ∈ b, c ≠ 0)
    (hrest : rest.headD 0 = 0) (fuel : Nat) (out : List Nat)
    (hfuel : (literalToken b).length ≤ fuel) :
    encodekey_loop fuel (literalToken b ++ rest) out = (out.length + b.length, out ++ b) := by
  induction b generalizing fuel out with
  | nil =>
    rw [literalToken, List.nil_append, encodekey_loop_nul _ _ _ hrest]
    simp
  | cons c cs ih =>
    have hc : c ≠ 0 := hb c (List.mem_cons_self _ _)
    have hcs : ∀ x ∈ cs, x ≠ 0 := fun x hx => hb x (List.mem_cons_of_mem _ hx)
    by_cases hesc : c = 94 ∨ c = 92
    · have hlt : literalToken (c :: cs) = 92 :: c :: literalToken cs := by
        rw [literalToken, if_pos hesc]
      rw [hlt] at hfuel ⊢
      obtain ⟨f, rfl⟩ : ∃ f, fuel = f + 1 := ⟨fuel - 1, by simp at hfuel; omega⟩
      have hf : (literalToken cs).length ≤ f := by simp at hfuel; omega
      have hdig : ¬ isdigit c = true := by rcases hesc with h | h <;> subst h <;> decide
      have hmap : strchr escmap c = none := by rcases hesc with h | h <;> subst h <;> decide
      rw [List.cons_append, List.cons_append, encodekey_loop_backslash, if_neg hdig, hmap]
      simp only []
      rw [ih hcs f (out ++ [c]) hf]
      simp [Nat.add_assoc, Nat.add_comm 1]
    · have hlt : literalToken (c :: cs) = c :: literalToken cs := by
        rw [literalToken, if_neg hesc]
      rw [hlt] at hfuel ⊢
      obtain ⟨f, rfl⟩ : ∃ f, fuel = f + 1 := ⟨fuel - 1, by simp at hfuel; omega⟩
      have hf : (literalToken cs).length ≤ f := by simp at hfuel; omega
      rw [List.cons_append, encodekey_loop_plain _ _ _ _ hc (fun h => hesc (Or.inl h))
        (fun h => hesc (Or.inr h)), ih hcs f (out ++ [c]) hf]
      simp [Nat.add_assoc, Nat.add_comm 1]

theorem literalToken_of_plain (b : List Nat) (hp : ∀ c ∈ b, c ≠ 94 ∧ c ≠ 92) :
    literalToken b = b := by
  induction b with
  | nil => rfl
  | cons c cs ih =>
    have hc := hp c (List.mem_cons_self _ _)
    rw [literalToken, if_neg (by omega), ih (fun x hx => hp x (List.mem_cons_of_mem _ hx))]

/-- C9.  For every non-empty sequence `b` of non-zero bytes, `encodekey` on
the literal-escaped token of `b` (each `^` and each backslash preceded by a
backslash, every other byte written as itself) succeeds with length `|b|` and
output exactly `b`.  A token with neither `^` nor backslash encodes to itself,
and encoding that output again yields the same bytes. -/
theorem encodekey_literalToken (b rest : List Nat) (hne : b ≠ [])
    (hb : ∀ c ∈ b, c ≠ 0) (hrest : rest.headD 0 = 0) :
    encodekey (literalToken b ++ rest) = (b.length, b)
    ∧ (encodekey (literalToken b ++ rest)).1 ≠ 0
    ∧ ((∀ c ∈ b, c ≠ 94 ∧ c ≠ 92) →
        encodekey (b ++ rest) = (b.length, b)
        ∧ encodekey ((encodekey (b ++ rest)).2 ++ rest) = encodekey (b ++ rest)) := by
  have hmain : encodekey (literalToken b ++ rest) = (b.length, b) := by
    have h := encodekey_loop_literalToken b rest hb hrest
      ((literalToken b ++ rest).length + 1) [] (by simp; omega)
    simpa [encodekey] using h
  refine ⟨hmain, ?_, ?_⟩
  · rw [hmain]
    intro h0
    exact hne (List.length_eq_zero.mp h0)
  · intro hp
    rw [literalToken_of_plain b hp] at hmain
    rw [hmain]
    exact ⟨rfl, hmain⟩

/-- Witness of `encodekey_literalToken` at `b = "a^\"`, whose literal-escaped
token is `a\^\\`. -/
theorem encodekey_literalToken_witness :
    encodekey (literalToken [97, 94, 92] ++ [0]) = (3, [97, 94, 92])
    ∧ literalToken [97, 94, 92] = [97, 92, 94, 92, 92] :=
  ⟨(encodekey_literalToken [97, 94, 92] [0] (by decide) (by decide) (by decide)).1, by decide⟩

/-! ## encodekey: the returned length and lone escape characters -/

/-- C8.  `encodekey` at the inputs where the returned length is not the number
of units of the token.  The token is the single character backslash (first
equation) or `^` (second equation), and the byte after its terminator is `x`,
as `strtok` leaves it for a record whose next word is `x`.  `strchr` finds the
terminator in `escmap` (in `control`), one byte is written and `str` steps over
the terminator, so the scan goes on in the memory behind the token: 2 is
returned for a token of one unit.  The empty token returns 0. -/
theorem encodekey_lone_escape_overrun :
    encodekey [92, 0, 120] = (2, [0, 120])
    ∧ encodekey [94, 0, 120] = (2, [32, 120])
    ∧ encodekey [] = (0, [])
    ∧ encodekey [0, 120] = (0, []) := by
  decide

/-! ## The input stack: last in, first out -/

theorem getD_zero_of_length_le (a : List Nat) (k : Nat) (hk : a.length ≤ k) :
    a.getD k 0 = 0 := by
  induction a generalizing k with
  | nil => rfl
  | cons x xs ih =>
    cases k with
    | zero => simp at hk
    | succ k => simpa using ih k (by simpa using hk)

theorem getD_ne_zero_of_lt (a : List Nat) (ha : ∀ c ∈ a, c ≠ 0) (k : Nat)
    (hk : k < a.length) : a.getD k 0 ≠ 0 := by
  induction a generalizing k with
  | nil => simp at hk
  | cons x xs ih =>
    cases k with
    | zero => simpa using ha x (List.mem_cons_self _ _)
    | succ k =>
      simpa using ih (fun c hc => ha c (List.mem_cons_of_mem _ hc)) k (by simpa using hk)

theorem drop_eq_getD_cons (a : List Nat) (k : Nat) (hk : k < a.length) :
    a.drop k = a.getD k 0 :: a.drop (k + 1) := by
  induction a generalizing k with
  | nil => simp at hk
  | cons x xs ih =>
    cases k with
    | zero => simp
    | succ k => simpa using ih k (by simpa using hk)

theorem cstring_of_nul_free (s : List Nat) (hs : ∀ c ∈ s, c ≠ 0) : cstring s = s := by
  unfold cstring
  rw [List.takeWhile_eq_self_iff]
  intro c hc
  simpa using hs c hc

/-- A byte below `0x80` read as plain `char` has its own value. -/
theorem plain_char_of_lt (b : Nat) (hb : b < 128) : plain_char b = (b : Int) := by
  unfold plain_char
  have h1 : b % 256 = b := Nat.mod_eq_of_lt (by omega)
  rw [h1, if_pos hb]

/-- A byte from `0x80` on read as plain `char` has a negative value, 256 less
than the byte. -/
theorem plain_char_of_ge (b : Nat) (hb : 128 ≤ b) (hb2 : b < 256) :
    plain_char b = (b : Int) - 256 := by
  unfold plain_char
  have h1 : b % 256 = b := Nat.mod_eq_of_lt hb2
  rw [h1, if_neg (by omega)]

/-- The value of a plain `char` converted back to `char` is the byte read. -/
theorem plain_char_emod (b : Nat) : (plain_char b % 256).toNat = b % 256 := by
  unfold plain_char
  split <;> omega

/-- One call of `ipop` on a node with bytes left: the byte under the read
pointer is returned as the value of a plain `char`, and the node goes exactly
when that byte was its last. -/
theorem ipop_node (a : List Nat) (ha : ∀ c ∈ a, c ≠ 0) (k : Nat) (hk : k < a.length)
    (S : List input_t) :
    ipop ({ buf := a, ptr := k } :: S)
      = (plain_char (a.getD k 0),
         if k + 1 = a.length then S else { buf := a, ptr := k + 1 } :: S) := by
  by_cases hlast : k + 1 = a.length
  · have h0 : a.getD (k + 1) 0 = 0 := getD_zero_of_length_le a (k + 1) (by omega)
    rw [if_pos hlast]
    simp only [ipop, h0, if_true]
  · have h0 : a.getD (k + 1) 0 ≠ 0 := getD_ne_zero_of_lt a ha (k + 1) (by omega)
    rw [if_neg hlast]
    simp only [ipop, h0, if_false]

theorem ipop_calls_add (m n : Nat) (S : List input_t) :
    ipop_calls (m + n) S
      = ((ipop_calls m S).1 ++ (ipop_calls n (ipop_calls m S).2).1,
         (ipop_calls n (ipop_calls m S).2).2) := by
  induction m generalizing S with
  | zero => simp [ipop_calls]
  | succ m ih =>
    rw [Nat.succ_add]
    simp only [ipop_calls, ih, List.cons_append]

/-- Popping `j` bytes off a node that holds at least `j` more: the values of
the bytes as plain `char` come in order and the node stays, with its pointer
advanced, unless it is used up. -/
theorem ipop_calls_node (a : List Nat) (ha : ∀ c ∈ a, c ≠ 0) (S : List input_t) (j k : Nat)
    (hk : k + j ≤ a.length) (hj : 0 < j) :
    ipop_calls j ({ buf := a, ptr := k } :: S)
      = (((a.drop k).take j).map plain_char,
         if k + j = a.length then S else { buf := a, ptr := k + j } :: S) := by
  induction j generalizing k with
  | zero => omega
  | succ j ih =>
    have hstep := ipop_node a ha k (by omega) S
    rw [drop_eq_getD_cons a k (by omega)]
    by_cases hj0 : j = 0
    · subst hj0
      simp only [ipop_calls, hstep, List.take_succ_cons, List.take_zero, List.map_cons,
        List.map_nil, Nat.zero_add]
    · have hne : ¬ k + 1 = a.length := by omega
      simp only [ipop_calls, hstep, if_neg hne, List.take_succ_cons, List.map_cons]
      rw [ih (k + 1) (by omega) (by omega)]
      simp only [Nat.add_assoc, Nat.add_comm 1 j]

/-- The values of the bytes of a string as plain `char` are the bytes
themselves when every byte is below `0x80`. -/
theorem map_plain_char_of_lt (s : List Nat) (hs : ∀ c ∈ s, c < 128) :
    s.map plain_char = s.map Int.ofNat := by
  apply List.map_congr_left
  intro c hc
  exact plain_char_of_lt c (hs c hc)

/-- C10.  `ipush` and `ipop` are last in, first out, and a node is freed by the
pop that returns its last byte; but what a pop returns is the value of the
byte as plain `char`, not the byte.  For every stack `S` and non-empty NUL-free
string `s`: after `ipush(s)` the next `|s|` calls of `ipop` return the values
of the bytes of `s` as plain `char`, in order, and leave exactly `S`; after
fewer calls the node of `s` is still on top; when a node for `a` has `k < |a|`
bytes consumed and `b` is pushed, the next pops return the values for all of
`b` and then for `a[k]`, `a[k+1]`, ...; and `ipop` on the empty stack returns
`EOF`.  The values are the bytes when every byte of `s` is below `0x80`.  They
are not for the string of the one byte `0xE9`, whose pop returns -23, nor for
the string of the one byte `0xFF`, whose pop returns `EOF` with the node
freed, so that `getliteral` then reads the terminal. -/
theorem ipush_ipop_plain_char (S : List input_t) (s : List Nat) (hne : s ≠ [])
    (hs : ∀ c ∈ s, c ≠ 0) :
    ipop_calls s.length (ipush s S) = (s.map plain_char, S)
    ∧ (∀ j, j < s.length →
        ipop_calls j (ipush s S) = ((s.take j).map plain_char, { buf := s, ptr := j } :: S))
    ∧ (∀ (a : List Nat) (k : Nat), (∀ c ∈ a, c ≠ 0) → k < a.length →
        ipop_calls (s.length + (a.length - k)) (ipush s ({ buf := a, ptr := k } :: S))
          = ((s ++ a.drop k).map plain_char, S))
    ∧ ipop [] = (EOF, [])
    ∧ ismacro (ipush s S) = true ∧ ismacro [] = false
    ∧ ((∀ c ∈ s, c < 128) → s.map plain_char = s.map Int.ofNat)
    ∧ ipop (ipush [233] S) = (-23, S)
    ∧ ipop (ipush [255] S) = (EOF, S)
    ∧ (∀ (kb : List Nat) (kr c : Nat) (tty : List Nat),
        getliteral { buffer := kb, record := kr, istack := ipush [255] S, tty := c :: tty }
          = Res.ok ((c : Int), { buffer := kb, record := kr, istack := S, tty := tty })) := by
  have hlen : 0 < s.length := List.length_pos.mpr hne
  have hpush : ∀ T, ipush s T = { buf := s, ptr := 0 } :: T := by
    intro T
    rw [ipush, cstring_of_nul_free s hs]
  have hall : ∀ T, ipop_calls s.length (ipush s T) = (s.map plain_char, T) := by
    intro T
    rw [hpush, ipop_calls_node s hs T s.length 0 (by omega) hlen]
    simp
  have h255 : ipop (ipush [255] S) = (EOF, S) := by
    simp [ipop, ipush, cstring, plain_char, EOF]
  refine ⟨hall S, ?_, ?_, rfl, rfl, rfl, map_plain_char_of_lt s, ?_, h255, ?_⟩
  · intro j hj
    rw [hpush]
    by_cases hj0 : j = 0
    · subst hj0
      simp [ipop_calls]
    · rw [ipop_calls_node s hs S j 0 (by omega) (by omega)]
      simp only [List.drop_zero, Nat.zero_add, if_neg (show ¬ j = s.length by omega)]
  · intro a k ha hk
    rw [ipop_calls_add, hall, ipop_calls_node a ha S (a.length - k) k (by omega) (by omega)]
    have h1 : k + (a.length - k) = a.length := by omega
    have h2 : (a.drop k).take (a.length - k) = a.drop k := by
      apply List.take_of_length_le
      simp
    simp only [h1, h2, if_true, List.map_append]
  · simp [ipop, ipush, cstring, plain_char]
  · intro kb kr c tty
    simp only [getliteral, h255, if_true]

/-- Witness of `ipush_ipop_plain_char`: the string of the one byte `0xE9`
pushed on a stack that holds a node for `ab` read up to `b`; the pop returns
-23 and leaves that stack. -/
theorem ipush_ipop_plain_char_witness :
    ipop_calls 1 (ipush [233] [{ buf := [97, 98], ptr := 1 }])
      = ([-23], [{ buf := [97, 98], ptr := 1 }]) :=
  (ipush_ipop_plain_char [{ buf := [97, 98], ptr := 1 }] [233] (by decide) (by decide)).1

/-! ## getkey: comparing the recorded bytes with one entry -/

theorem cstring_cons_ne_zero (b : Nat) (q : List Nat) (hb : b ≠ 0) :
    cstring (b :: q) = b :: cstring q := by
  simp [cstring, hb]

theorem cstring_cons_zero (q : List Nat) : cstring (0 :: q) = [] := by
  simp [cstring]

/-- With the NUL-free bytes `acc` recorded and terminated in `buffer`, the
comparison loop finds a full match exactly when `lhs` is the string `acc`, and a
submatch exactly when `acc` is a proper prefix of the string `lhs`. -/
theorem compare_lhs_spec (acc junk lhs : List Nat) (hacc : ∀ c ∈ acc, c ≠ 0) :
    compare_lhs (acc ++ 0 :: junk) lhs
      = if cstring lhs = acc then match_t.full
        else if acc <+: cstring lhs then match_t.submatch else match_t.differ := by
  induction acc generalizing lhs with
  | nil =>
    cases lhs with
    | nil => simp [compare_lhs, cstring]
    | cons b q =>
      by_cases hb : b = 0
      · subst hb
        simp [compare_lhs, cstring_cons_zero]
      · have hb' : ¬ 0 = b := fun e => hb e.symm
        simp [compare_lhs, cstring_cons_ne_zero b q hb, hb, hb']
  | cons a acc ih =>
    have ha : a ≠ 0 := hacc a (List.mem_cons_self _ _)
    have hacc' : ∀ c ∈ acc, c ≠ 0 := fun c hc => hacc c (List.mem_cons_of_mem _ hc)
    cases lhs with
    | nil => simp [compare_lhs, cstring, ha]
    | cons b q =>
      by_cases hab : a = b
      · subst hab
        rw [List.cons_append, compare_lhs, if_pos rfl, if_neg ha, ih q hacc',
          cstring_cons_ne_zero a q ha]
        simp [List.cons_prefix_cons]
      · rw [List.cons_append, compare_lhs, if_neg hab, if_neg ha]
        by_cases hb : b = 0
        · subst hb
          simp [cstring_cons_zero]
        · have hba : ¬ b = a := fun e => hab e.symm
          simp [cstring_cons_ne_zero b q hb, List.cons_prefix_cons, hab, hba]

/-! ## getkey: one pass over the key table -/

/-- When no live entry is a full match of the recorded bytes `acc`, the pass
over the table returns nothing, changes nothing, and leaves `submatch` set
exactly when it was set before or `acc` is a prefix of some live `lhs`. -/
theorem scan_keys_no_full (h : key_h) (keys : List keymap_t) (submatch : Bool)
    (st : key_state) (acc junk : List Nat) (hbuf : st.buffer = acc ++ 0 :: junk)
    (hacc : ∀ c ∈ acc, c ≠ 0) (hnot : acc ∉ live_lhs h keys) :
    ∃ b, scan_keys h keys submatch st = scan_t.finished b st
      ∧ (b = true ↔ (submatch = true ∨ ∃ l ∈ live_lhs h keys, acc <+: l)) := by
  induction keys generalizing submatch with
  | nil => exact ⟨submatch, rfl, by simp [live_lhs]⟩
  | cons k ks ih =>
    by_cases hend : k.code = h.K_ERROR
    · exact ⟨submatch, by simp [scan_keys, hend], by simp [live_lhs, hend]⟩
    · cases hl : k.lhs with
      | none =>
        have hlive : live_lhs h (k :: ks) = live_lhs h ks := by simp [live_lhs, hend, hl]
        rw [hlive] at hnot ⊢
        obtain ⟨b, hb, hiff⟩ := ih submatch hnot
        exact ⟨b, by simp [scan_keys, hend, hl, hb], hiff⟩
      | some lhs =>
        by_cases hoff : k.code = h.K_DISABLED ∨ k.code = h.K_HELP_TEXT
        · have hlive : live_lhs h (k :: ks) = live_lhs h ks := by
            simp [live_lhs, hend, hl, hoff]
          rw [hlive] at hnot ⊢
          obtain ⟨b, hb, hiff⟩ := ih submatch hnot
          exact ⟨b, by simp [scan_keys, hend, hl, hoff, hb], hiff⟩
        · have hlive : live_lhs h (k :: ks) = cstring lhs :: live_lhs h ks := by
            simp [live_lhs, hend, hl, hoff]
          rw [hlive] at hnot ⊢
          have hne : ¬ cstring lhs = acc := fun e => hnot (by simp [e])
          have hnot' : acc ∉ live_lhs h ks := fun hm => hnot (List.mem_cons_of_mem _ hm)
          have hcmp := compare_lhs_spec acc junk lhs hacc
          rw [if_neg hne, ← hbuf] at hcmp
          by_cases hpre : acc <+: cstring lhs
          · rw [if_pos hpre] at hcmp
            obtain ⟨b, hb, hiff⟩ := ih true hnot'
            refine ⟨b, by simp [scan_keys, hend, hl, hoff, hcmp, hb], ?_⟩
            have hbt : b = true := hiff.mpr (Or.inl rfl)
            simp [hbt, hpre]
          · rw [if_neg hpre] at hcmp
            obtain ⟨b, hb, hiff⟩ := ih submatch hnot'
            refine ⟨b, by simp [scan_keys, hend, hl, hoff, hcmp, hb], ?_⟩
            rw [hiff]
            simp [hpre]

/-! ## getkey: one iteration of the read loop -/

theorem set_append_at (pre : List Nat) (x : Nat) (t : List Nat) (v : Nat) :
    (pre ++ x :: t).set pre.length v = pre ++ v :: t := by
  induction pre with
  | nil => rfl
  | cons p ps ih => simp [ih]

theorem set_append_at_succ (pre : List Nat) (x y : Nat) (t : List Nat) (v : Nat) :
    (pre ++ x :: y :: t).set (pre.length + 1) v = pre ++ x :: v :: t := by
  induction pre with
  | nil => rfl
  | cons p ps ih => simp [ih]

/-- A value of `getch()` converted to `char` is its residue modulo 256. -/
theorem toNat_cast_emod (c : Nat) : ((c : Int) % 256).toNat = c % 256 := by
  omega

/-- The value 0 converted to `char` is the byte 0. -/
theorem toNat_zero_emod : ((0 : Int) % 256).toNat = 0 := by
  decide

theorem getliteral_tty (buffer : List Nat) (record c : Nat) (tty : List Nat) :
    getliteral { buffer := buffer, record := record, istack := [], tty := c :: tty }
      = Res.ok ((c : Int), { buffer := buffer, record := record, istack := [], tty := tty }) := by
  rfl

/-- One iteration that reads the byte `c` from the terminal behind the recorded
bytes `pre`, with room in `buffer` for `c` and the terminator. -/
theorem getkey_loop_read (h : key_h) (keys : List keymap_t) (fuel : Nat)
    (pre : List Nat) (t0 t1 : Nat) (tl : List Nat) (c : Nat) (tty : List Nat)
    (hcap : pre.length ≤ h.K_BUFFER_LENGTH) (hc : c < 256) :
    getkey_loop h keys (fuel + 1)
        { buffer := pre ++ t0 :: t1 :: tl, record := pre.length, istack := [], tty := c :: tty }
      = match scan_keys h keys false
            { buffer := pre ++ c :: 0 :: tl, record := pre.length + 1, istack := [],
              tty := tty } with
        | scan_t.returned r => r
        | scan_t.finished submatch st2 =>
          if submatch then getkey_loop h keys fuel st2
          else Res.ok (Int.ofNat (st2.buffer.getD 0 0), { st2 with record := 1 }) := by
  have h1 : ¬ h.K_BUFFER_LENGTH < pre.length := by omega
  have h2 : pre.length < (pre ++ t0 :: t1 :: tl).length := by simp
  have h3 : pre.length + 1 < (pre ++ t0 :: t1 :: tl).length := by simp
  have h4 : ((pre ++ t0 :: t1 :: tl).set pre.length ((c : Int) % 256).toNat).set
      (pre.length + 1) 0 = pre ++ c :: 0 :: tl := by
    rw [toNat_cast_emod, set_append_at, set_append_at_succ, Nat.mod_eq_of_lt hc]
  rw [getkey_loop]
  simp only [h1, if_false, getliteral_tty, h2, h3, if_true, h4]

/-- One iteration that reads a byte when `buffer` has room for the byte but
not for the terminator behind it: the store of the terminator is outside the
array. -/
theorem getkey_loop_no_room (h : key_h) (keys : List keymap_t) (fuel : Nat)
    (pre : List Nat) (t0 c : Nat) (tty : List Nat)
    (hcap : pre.length ≤ h.K_BUFFER_LENGTH) :
    getkey_loop h keys (fuel + 1)
        { buffer := pre ++ [t0], record := pre.length, istack := [], tty := c :: tty }
      = Res.fault := by
  have h1 : ¬ h.K_BUFFER_LENGTH < pre.length := by omega
  have h2 : pre.length < (pre ++ [t0]).length := by simp
  have h3 : ¬ pre.length + 1 < (pre ++ [t0]).length := by simp
  rw [getkey_loop]
  simp only [h1, if_false, getliteral_tty, h2, h3, if_true]

/-- An iteration after which the recorded bytes are a proper prefix of some live
`lhs` and a full match of none: the loop goes round again. -/
theorem getkey_loop_submatch (h : key_h) (keys : List keymap_t) (fuel : Nat)
    (pre : List Nat) (t0 t1 : Nat) (tl : List Nat) (c : Nat) (tty : List Nat)
    (hcap : pre.length ≤ h.K_BUFFER_LENGTH) (hc : c < 256)
    (hnul : ∀ x ∈ pre ++ [c], x ≠ 0)
    (hnot : pre ++ [c] ∉ live_lhs h keys)
    (hsub : ∃ l ∈ live_lhs h keys, pre ++ [c] <+: l) :
    getkey_loop h keys (fuel + 1)
        { buffer := pre ++ t0 :: t1 :: tl, record := pre.length, istack := [], tty := c :: tty }
      = getkey_loop h keys fuel
          { buffer := (pre ++ [c]) ++ 0 :: tl, record := (pre ++ [c]).length, istack := [],
            tty := tty } := by
  rw [getkey_loop_read h keys fuel pre t0 t1 tl c tty hcap hc]
  obtain ⟨b, hb, hiff⟩ := scan_keys_no_full h keys false
    { buffer := pre ++ c :: 0 :: tl, record := pre.length + 1, istack := [], tty := tty }
    (pre ++ [c]) tl (by simp) hnul hnot
  have hbt : b = true := hiff.mpr (Or.inr hsub)
  subst hbt
  rw [hb]
  simp

/-- An iteration after which the recorded bytes are neither a full match nor a
prefix of any live `lhs`: the first recorded byte is returned and `record`
points behind it. -/
theorem getkey_loop_differ (h : key_h) (keys : List keymap_t) (fuel : Nat)
    (pre : List Nat) (t0 t1 : Nat) (tl : List Nat) (c : Nat) (tty : List Nat)
    (hcap : pre.length ≤ h.K_BUFFER_LENGTH) (hc : c < 256)
    (hnul : ∀ x ∈ pre ++ [c], x ≠ 0)
    (hno : ∀ l ∈ live_lhs h keys, ¬ pre ++ [c] <+: l) :
    getkey_loop h keys (fuel + 1)
        { buffer := pre ++ t0 :: t1 :: tl, record := pre.length, istack := [], tty := c :: tty }
      = Res.ok (Int.ofNat ((pre ++ [c]).headD 0),
          { buffer := (pre ++ [c]) ++ 0 :: tl, record := 1, istack := [], tty := tty }) := by
  rw [getkey_loop_read h keys fuel pre t0 t1 tl c tty hcap hc]
  have hnot : pre ++ [c] ∉ live_lhs h keys := fun hm => hno _ hm (List.prefix_refl _)
  obtain ⟨b, hb, hiff⟩ := scan_keys_no_full h keys false
    { buffer := pre ++ c :: 0 :: tl, record := pre.length + 1, istack := [], tty := tty }
    (pre ++ [c]) tl (by simp) hnul hnot
  have hbf : b = false := by
    cases b with
    | false => rfl
    | true =>
      rcases hiff.mp rfl with h0 | ⟨l, hl, hp⟩
      · exact absurd h0 (by decide)
      · exact absurd hp (hno l hl)
  subst hbf
  rw [hb]
  cases pre <;> simp

/-! ## getkey: accumulating and draining an unmatched sequence -/

/-- The read loop on a sequence `b` whose proper prefixes are all submatches and
which itself matches nothing: starting with `pre` recorded and `rem` still to
come, the loop reads all of `rem` and returns the first byte of `b`. -/
theorem getkey_loop_accumulates (h : key_h) (keys : List keymap_t) (b rest : List Nat)
    (hbytes : ∀ x ∈ b, x ≠ 0 ∧ x < 256)
    (hK : b.length < h.K_BUFFER_LENGTH)
    (hmid : ∀ p r, p ++ r = b → p ≠ [] → r ≠ [] →
      p ∉ live_lhs h keys ∧ ∃ l ∈ live_lhs h keys, p <+: l)
    (hend : ∀ l ∈ live_lhs h keys, ¬ b <+: l)
    (rem pre tail : List Nat) (fuel : Nat) (hrem : rem ≠ []) (hsplit : pre ++ rem = b)
    (hfuel : rem.length ≤ fuel) (htail : rem.length + 1 ≤ tail.length) :
    ∃ junk, getkey_loop h keys fuel
        { buffer := pre ++ tail, record := pre.length, istack := [], tty := rem ++ rest }
      = Res.ok (Int.ofNat (b.headD 0),
          { buffer := b ++ 0 :: junk, record := 1, istack := [], tty := rest })
      ∧ (b ++ 0 :: junk).length = (pre ++ tail).length := by
  induction rem generalizing pre tail fuel with
  | nil => exact absurd rfl hrem
  | cons c rem' ih =>
    obtain ⟨f, rfl⟩ : ∃ f, fuel = f + 1 := ⟨fuel - 1, by simp at hfuel; omega⟩
    obtain ⟨t0, t1, tl, rfl⟩ : ∃ t0 t1 tl, tail = t0 :: t1 :: tl := by
      match tail, htail with
      | t0 :: t1 :: tl, _ => exact ⟨t0, t1, tl, rfl⟩
      | [t0], ht => simp at ht
      | [], ht => simp at ht
    have hlen : pre.length + (rem'.length + 1) = b.length := by
      rw [← hsplit]; simp
    have hcap : pre.length ≤ h.K_BUFFER_LENGTH := by omega
    have hcb : c ∈ b := by rw [← hsplit]; simp
    have hc : c < 256 := (hbytes c hcb).2
    have hnul : ∀ x ∈ pre ++ [c], x ≠ 0 := by
      intro x hx
      apply (hbytes x _).1
      rw [← hsplit]
      rcases List.mem_append.mp hx with hx | hx
      · exact List.mem_append_left _ hx
      · exact List.mem_append_right _ (by simp at hx; simp [hx])
    have hsplit' : (pre ++ [c]) ++ rem' = b := by rw [← hsplit]; simp
    by_cases hlast : rem' = []
    · subst hlast
      have hb : pre ++ [c] = b := by simpa using hsplit'
      refine ⟨tl, ?_, ?_⟩
      · rw [List.cons_append, List.nil_append,
          getkey_loop_differ h keys f pre t0 t1 tl c rest hcap hc hnul (by rw [hb]; exact hend),
          hb]
      · rw [← hb]; simp
    · obtain ⟨hnot, hsub⟩ := hmid (pre ++ [c]) rem' hsplit' (by simp) hlast
      rw [List.cons_append,
        getkey_loop_submatch h keys f pre t0 t1 tl c (rem' ++ rest) hcap hc hnul hnot hsub]
      obtain ⟨junk, hres, hjl⟩ := ih (pre ++ [c]) (0 :: tl) f hlast hsplit'
        (by simp at hfuel; omega) (by simp at htail ⊢; omega)
      refine ⟨junk, hres, ?_⟩
      rw [hjl]; simp

theorem getD_append_left (b t : List Nat) (i : Nat) (hi : i < b.length) :
    (b ++ t).getD i 0 = b.getD i 0 := by
  induction b generalizing i with
  | nil => simp at hi
  | cons x xs ih =>
    cases i with
    | zero => rfl
    | succ i => simpa using ih i (by simpa using hi)

theorem getD_append_terminator (b junk : List Nat) :
    (b ++ 0 :: junk).getD b.length 0 = 0 := by
  induction b with
  | nil => rfl
  | cons x xs ih => simpa using ih

/-- With the NUL-free bytes `b` recorded and `record` at offset `i`, the next
`|b| - i` calls of `getkey` return `b[i]`, `b[i+1]`, ... without reading
anything, and leave `record` at the terminator. -/
theorem getkey_calls_drain (h : key_h) (keys : List keymap_t) (b junk : List Nat)
    (hb : ∀ x ∈ b, x ≠ 0) (istack : List input_t) (tty : List Nat) (j i : Nat)
    (hij : i + j = b.length) :
    getkey_calls h keys j
        { buffer := b ++ 0 :: junk, record := i, istack := istack, tty := tty }
      = Res.ok ((b.drop i).map Int.ofNat,
          { buffer := b ++ 0 :: junk, record := b.length, istack := istack, tty := tty }) := by
  induction j generalizing i with
  | zero =>
    have hi : i = b.length := by omega
    subst hi
    simp [getkey_calls]
  | succ j ih =>
    have hi : i < b.length := by omega
    have hget : (b ++ 0 :: junk).getD i 0 = b.getD i 0 := getD_append_left b _ i hi
    have hne : b.getD i 0 ≠ 0 := getD_ne_zero_of_lt b hb i hi
    have hcall : getkey h keys
        { buffer := b ++ 0 :: junk, record := i, istack := istack, tty := tty }
        = Res.ok (Int.ofNat (b.getD i 0),
            { buffer := b ++ 0 :: junk, record := i + 1, istack := istack, tty := tty }) := by
      simp only [getkey, hget, hne, ne_eq, not_false_eq_true, if_true]
    rw [getkey_calls, hcall]
    simp only []
    rw [ih (i + 1) (by omega), drop_eq_getD_cons b i hi]
    simp

/-- The read loop on a sequence `b` of exactly `K_BUFFER_LENGTH` bytes whose
proper prefixes are all submatches: the byte `b[K_BUFFER_LENGTH - 1]` goes into
the last element of `buffer` and the terminator is stored behind the array. -/
theorem getkey_loop_overflows (h : key_h) (keys : List keymap_t) (b rest : List Nat)
    (hbytes : ∀ x ∈ b, x ≠ 0 ∧ x < 256)
    (hK : b.length = h.K_BUFFER_LENGTH)
    (hmid : ∀ p r, p ++ r = b → p ≠ [] → r ≠ [] →
      p ∉ live_lhs h keys ∧ ∃ l ∈ live_lhs h keys, p <+: l)
    (rem pre tail : List Nat) (fuel : Nat) (hrem : rem ≠ []) (hsplit : pre ++ rem = b)
    (hfuel : rem.length ≤ fuel) (htail : (pre ++ tail).length = h.K_BUFFER_LENGTH) :
    getkey_loop h keys fuel
        { buffer := pre ++ tail, record := pre.length, istack := [], tty := rem ++ rest }
      = Res.fault := by
  induction rem generalizing pre tail fuel with
  | nil => exact absurd rfl hrem
  | cons c rem' ih =>
    obtain ⟨f, rfl⟩ : ∃ f, fuel = f + 1 := ⟨fuel - 1, by simp at hfuel; omega⟩
    have hlen : pre.length + (rem'.length + 1) = b.length := by
      rw [← hsplit]; simp
    have htl : pre.length + tail.length = h.K_BUFFER_LENGTH := by
      rw [← htail]; simp
    have hcap : pre.length ≤ h.K_BUFFER_LENGTH := by omega
    have hsplit' : (pre ++ [c]) ++ rem' = b := by rw [← hsplit]; simp
    by_cases hlast : rem' = []
    · subst hlast
      obtain ⟨t0, rfl⟩ : ∃ t0, tail = [t0] := by
        match tail, htl with
        | [t0], _ => exact ⟨t0, rfl⟩
        | [], ht => simp at ht hlen; omega
        | _ :: _ :: _, ht => simp at ht hlen; omega
      exact getkey_loop_no_room h keys f pre t0 c _ hcap
    · have hr : 0 < rem'.length := List.length_pos.mpr hlast
      obtain ⟨t0, t1, tl, rfl⟩ : ∃ t0 t1 tl, tail = t0 :: t1 :: tl := by
        match tail, htl with
        | t0 :: t1 :: tl, _ => exact ⟨t0, t1, tl, rfl⟩
        | [t0], ht => simp at ht; omega
        | [], ht => simp at ht; omega
      have hcb : c ∈ b := by rw [← hsplit]; simp
      have hc : c < 256 := (hbytes c hcb).2
      have hnul : ∀ x ∈ pre ++ [c], x ≠ 0 := by
        intro x hx
        apply (hbytes x _).1
        rw [← hsplit]
        rcases List.mem_append.mp hx with hx | hx
        · exact List.mem_append_left _ hx
        · exact List.mem_append_right _ (by simp at hx; simp [hx])
      obtain ⟨hnot, hsub⟩ := hmid (pre ++ [c]) rem' hsplit' (by simp) hlast
      rw [List.cons_append,
        getkey_loop_submatch h keys f pre t0 t1 tl c (rem' ++ rest) hcap hc hnul hnot hsub]
      exact ih (pre ++ [c]) (0 :: tl) f hlast hsplit' (by simp at hfuel; omega)
        (by rw [← htail]; simp)

/-- A table with one live binding whose `lhs` is `K + 1` bytes `0x01`, and the
input of `K` bytes `0x01` followed by `0x02`: every proper prefix of the input
is a proper prefix of the `lhs` and a full match of nothing, and the input
itself is not a prefix of the `lhs`. -/
theorem capacity_input (h : key_h) (code : Int) (K : Nat)
    (hc1 : code ≠ h.K_ERROR) (hc2 : code ≠ h.K_DISABLED) (hc3 : code ≠ h.K_HELP_TEXT)
    (keys : List keymap_t)
    (hkeys : keys = [{ code := code, lhs := some (List.replicate (K + 1) 1), rhs := none },
         { code := h.K_ERROR, lhs := none, rhs := none }]) :
    (∀ x ∈ List.replicate K 1 ++ [2], x ≠ 0 ∧ x < 256)
    ∧ (∀ p r, p ++ r = List.replicate K 1 ++ [2] → p ≠ [] → r ≠ [] →
        p ∉ live_lhs h keys ∧ ∃ l ∈ live_lhs h keys, p <+: l)
    ∧ (∀ l ∈ live_lhs h keys, ¬ List.replicate K 1 ++ [2] <+: l) := by
  have hlive : live_lhs h keys = [List.replicate (K + 1) 1] := by
    have hc : cstring (List.replicate (K + 1) 1) = List.replicate (K + 1) 1 :=
      cstring_of_nul_free _ (fun c hc => by rw [List.eq_of_mem_replicate hc]; decide)
    rw [hkeys]
    simp only [live_lhs, hc1, hc2, hc3, or_self, if_false, if_true, hc]
  rw [hlive]
  refine ⟨?_, ?_, ?_⟩
  · intro x hx
    rcases List.mem_append.mp hx with hx | hx
    · rw [List.eq_of_mem_replicate hx]; decide
    · rw [List.mem_singleton.mp hx]; decide
  · intro p r hpr _ hr
    have hdl : p ++ r.dropLast = List.replicate K 1 := by
      have := congrArg List.dropLast hpr
      rwa [List.dropLast_append_of_ne_nil _ hr, List.dropLast_concat] at this
    have hp1 : p <+: List.replicate K 1 := ⟨r.dropLast, hdl⟩
    have hp2 : List.replicate K 1 <+: List.replicate (K + 1) 1 :=
      ⟨[1], by rw [← List.replicate_succ']⟩
    have hlp : p.length ≤ K := by
      have := hp1.length_le
      rwa [List.length_replicate] at this
    refine ⟨?_, List.replicate (K + 1) 1, List.mem_singleton.mpr rfl, hp1.trans hp2⟩
    intro hm
    have hpe : p = List.replicate (K + 1) 1 := List.mem_singleton.mp hm
    rw [hpe, List.length_replicate] at hlp
    omega
  · intro l hl hpre
    rw [List.mem_singleton.mp hl] at hpre
    have h2 : (2 : Nat) ∈ List.replicate (K + 1) 1 :=
      hpre.subset (List.mem_append_right _ (List.mem_singleton.mpr rfl))
    exact absurd (List.eq_of_mem_replicate h2) (by decide)

/-- A table with one live binding whose `lhs` is `K_BUFFER_LENGTH` bytes `0x01`,
the terminal supplying `K_BUFFER_LENGTH - 1` bytes `0x01` and then `0x02`: the
input meets the conditions on prefixes, and the first call of `getkey` stores
the terminator at `buffer[K_BUFFER_LENGTH]`. -/
theorem getkey_capacity_fault (h : key_h) (code : Int) (hK : 1 ≤ h.K_BUFFER_LENGTH)
    (hc1 : code ≠ h.K_ERROR) (hc2 : code ≠ h.K_DISABLED) (hc3 : code ≠ h.K_HELP_TEXT)
    (keys : List keymap_t) (b : List Nat)
    (hkeys : keys
      = [{ code := code, lhs := some (List.replicate h.K_BUFFER_LENGTH 1), rhs := none },
         { code := h.K_ERROR, lhs := none, rhs := none }])
    (hb : b = List.replicate (h.K_BUFFER_LENGTH - 1) 1 ++ [2]) :
    (∀ x ∈ b, x ≠ 0 ∧ x < 256)
    ∧ b.length = h.K_BUFFER_LENGTH
    ∧ (∀ i, i < b.length → 0 < i →
        b.take i ∉ live_lhs h keys ∧ ∃ l ∈ live_lhs h keys, b.take i <+: l)
    ∧ (∀ l ∈ live_lhs h keys, ¬ b <+: l)
    ∧ getkey h keys (key_state.start h b) = Res.fault := by
  obtain ⟨K, hKeq⟩ : ∃ K, h.K_BUFFER_LENGTH = K + 1 := ⟨h.K_BUFFER_LENGTH - 1, by omega⟩
  rw [hKeq] at hkeys hb
  rw [Nat.add_sub_cancel] at hb
  obtain ⟨hbytes, hmid, hend⟩ := capacity_input h code K hc1 hc2 hc3 keys hkeys
  rw [← hb] at hbytes hmid hend
  have hlen : b.length = h.K_BUFFER_LENGTH := by
    rw [hb, List.length_append, List.length_replicate, hKeq]; rfl
  have hbne : b ≠ [] := by
    intro hn; rw [hn] at hlen; simp at hlen; omega
  refine ⟨hbytes, hlen, ?_, hend, ?_⟩
  · intro i hi hi0
    have ht : (b.take i).length = i := by
      rw [List.length_take]; exact Nat.min_eq_left (by omega)
    have hd : (b.drop i).length = b.length - i := List.length_drop i b
    exact hmid (b.take i) (b.drop i) (List.take_append_drop i b)
      (by intro hn; rw [hn] at ht; simp at ht; omega)
      (by intro hn; rw [hn] at hd; simp at hd; omega)
  · have hstart : key_state.start h b
        = { buffer := [] ++ List.replicate (K + 1) 0, record := ([] : List Nat).length,
            istack := [], tty := b ++ [] } := by
      simp only [key_state.start, hKeq, List.nil_append, List.append_nil, List.length_nil]
    have hloop := getkey_loop_overflows h keys b [] hbytes hlen hmid b []
      (List.replicate (K + 1) 0) (h.K_BUFFER_LENGTH + 2) hbne rfl (by omega)
      (by rw [List.nil_append, List.length_replicate, hKeq])
    rw [hstart, getkey, if_neg (by simp)]
    exact hloop

/-- C3.  `getkey` at an input with `n = K_BUFFER_LENGTH`.  With
`K_BUFFER_LENGTH = 256`, one live binding whose `lhs` is 256 bytes `0x01`, and
the terminal supplying `b`: 255 bytes `0x01` and then `0x02`.  The bytes of `b`
are non-zero, `n = 256`, every proper prefix of `b` is a proper prefix of the
`lhs` and a full match of nothing, `b` itself is not a prefix of the `lhs`; yet
the first call of `getkey` does not return `0x01`: the byte `b[255]` goes into
the last element of `buffer` and the terminator is stored at `buffer[256]`,
outside the array. -/
theorem getkey_full_buffer_overflows :
    (∀ x ∈ List.replicate 255 1 ++ [2], x ≠ 0 ∧ x < 256)
    ∧ (List.replicate 255 1 ++ [2]).length = key_h.sample.K_BUFFER_LENGTH
    ∧ (∀ i, i < (List.replicate 255 1 ++ [2]).length → 0 < i →
        (List.replicate 255 1 ++ [2]).take i
          ∉ live_lhs key_h.sample
              [{ code := -10, lhs := some (List.replicate 256 1), rhs := none },
               { code := -1, lhs := none, rhs := none }]
        ∧ ∃ l ∈ live_lhs key_h.sample
              [{ code := -10, lhs := some (List.replicate 256 1), rhs := none },
               { code := -1, lhs := none, rhs := none }],
            (List.replicate 255 1 ++ [2]).take i <+: l)
    ∧ (∀ l ∈ live_lhs key_h.sample
              [{ code := -10, lhs := some (List.replicate 256 1), rhs := none },
               { code := -1, lhs := none, rhs := none }],
        ¬ List.replicate 255 1 ++ [2] <+: l)
    ∧ getkey key_h.sample
        [{ code := -10, lhs := some (List.replicate 256 1), rhs := none },
         { code := -1, lhs := none, rhs := none }]
        (key_state.start key_h.sample (List.replicate 255 1 ++ [2]))
      = Res.fault :=
  getkey_capacity_fault key_h.sample (-10) (by decide) (by decide) (by decide) (by decide)
    _ _ rfl rfl

/-- Unmatched prefixes are drained in order when they fit the record buffer.
For every key table and every sequence `b` of `n` non-zero bytes,
`2 ≤ n < K_BUFFER_LENGTH`, such that each proper prefix of `b` is a proper
prefix of some live `lhs` and a full match of none, and `b` is neither a full
match nor a prefix of any live `lhs`: from a state with no recorded byte
pending, an empty input stack and the terminal supplying `b`, `n` consecutive
calls of `getkey` return `b[0]`, ..., `b[n-1]` in order, and the `n` bytes are
all read by the first call. -/
theorem getkey_drains_unmatched (h : key_h) (keys : List keymap_t) (b rest : List Nat)
    (st : key_state)
    (hbytes : ∀ x ∈ b, x ≠ 0 ∧ x < 256)
    (hn : 2 ≤ b.length) (hK : b.length < h.K_BUFFER_LENGTH)
    (hbuf : st.buffer.length = h.K_BUFFER_LENGTH)
    (hempty : st.buffer.getD st.record 0 = 0)
    (hstack : st.istack = []) (htty : st.tty = b ++ rest)
    (hmid : ∀ i, i < b.length → 0 < i →
      b.take i ∉ live_lhs h keys ∧ ∃ l ∈ live_lhs h keys, b.take i <+: l)
    (hend : ∀ l ∈ live_lhs h keys, ¬ b <+: l) :
    ∃ st1 stn,
      getkey h keys st = Res.ok (Int.ofNat (b.headD 0), st1)
      ∧ st1.tty = rest
      ∧ getkey_calls h keys b.length st = Res.ok (b.map Int.ofNat, stn)
      ∧ stn.tty = rest ∧ stn.istack = []
      ∧ stn.buffer.getD stn.record 0 = 0 ∧ stn.buffer.length = h.K_BUFFER_LENGTH := by
  obtain ⟨buffer, record, istack, tty⟩ := st
  simp only at hbuf hempty hstack htty
  subst hstack htty
  have hmid' : ∀ p r, p ++ r = b → p ≠ [] → r ≠ [] →
      p ∉ live_lhs h keys ∧ ∃ l ∈ live_lhs h keys, p <+: l := by
    intro p r hpr hp hr
    have hpl : 0 < p.length := List.length_pos.mpr hp
    have hrl : 0 < r.length := List.length_pos.mpr hr
    have hlen : p.length + r.length = b.length := by rw [← hpr]; simp
    have htake : b.take p.length = p := by rw [← hpr]; simp
    have := hmid p.length (by omega) hpl
    rwa [htake] at this
  have hbne : b ≠ [] := by
    intro hb; rw [hb] at hn; simp at hn
  obtain ⟨junk, hloop, hjl⟩ := getkey_loop_accumulates h keys b rest hbytes hK hmid' hend
    b [] buffer (h.K_BUFFER_LENGTH + 2) hbne rfl (by omega) (by omega)
  have hfirst : getkey h keys
      { buffer := buffer, record := record, istack := [], tty := b ++ rest }
      = Res.ok (Int.ofNat (b.headD 0),
          { buffer := b ++ 0 :: junk, record := 1, istack := [], tty := rest }) := by
    rw [getkey, if_neg (by simpa using hempty)]
    exact hloop
  have hnz : ∀ x ∈ b, x ≠ 0 := fun x hx => (hbytes x hx).1
  have hdrain := getkey_calls_drain h keys b junk hnz [] rest (b.length - 1) 1 (by omega)
  refine ⟨_, { buffer := b ++ 0 :: junk, record := b.length, istack := [], tty := rest },
    hfirst, rfl, ?_, rfl, rfl, getD_append_terminator b junk, ?_⟩
  · obtain ⟨n, hn'⟩ : ∃ n, b.length = n + 1 := ⟨b.length - 1, by omega⟩
    have hn1 : b.length - 1 = n := by omega
    rw [hn1] at hdrain
    rw [hn', getkey_calls, hfirst]
    simp only []
    rw [hdrain]
    simp only []
    cases b with
    | nil => exact absurd rfl hbne
    | cons x xs =>
      simp only [List.length_cons, Nat.add_right_cancel_iff] at hn'
      simp [hn']
  · simpa using hjl.trans hbuf

/-- Witness of `getkey_drains_unmatched`: the only live binding is `ESC [ A`,
the terminal supplies `ESC [ B` and then `BEL`. -/
theorem getkey_drains_unmatched_witness :
    ∃ st1 stn,
      getkey key_h.sample
          [{ code := -10, lhs := some [27, 91, 65], rhs := none },
           { code := -1, lhs := none, rhs := none }]
          (key_state.start key_h.sample [27, 91, 66, 7])
        = Res.ok (27, st1)
      ∧ st1.tty = [7]
      ∧ getkey_calls key_h.sample
          [{ code := -10, lhs := some [27, 91, 65], rhs := none },
           { code := -1, lhs := none, rhs := none }] 3
          (key_state.start key_h.sample [27, 91, 66, 7])
        = Res.ok ([27, 91, 66], stn)
      ∧ stn.tty = [7] ∧ stn.istack = []
      ∧ stn.buffer.getD stn.record 0 = 0 ∧ stn.buffer.length = 256 :=
  getkey_drains_unmatched key_h.sample
    [{ code := -10, lhs := some [27, 91, 65], rhs := none },
     { code := -1, lhs := none, rhs := none }]
    [27, 91, 66] [7] (key_state.start key_h.sample [27, 91, 66, 7])
    (by decide) (by decide) (by decide) (List.length_replicate _ _) rfl rfl rfl
    (by decide) (by decide)

/-! ## getkey: a full match of a macro binding -/

/-- A live binding that is a full match and is neither `K_LITERAL` nor a macro
ends the pass over the table at once: its code is returned whatever entries
follow it. -/
theorem scan_keys_full_command (h : key_h) (k : keymap_t) (ks : List keymap_t)
    (submatch : Bool) (st : key_state) (lhs : List Nat) (hl : k.lhs = some lhs)
    (h1 : k.code ≠ h.K_ERROR) (h2 : k.code ≠ h.K_DISABLED) (h3 : k.code ≠ h.K_HELP_TEXT)
    (h4 : k.code ≠ h.K_LITERAL) (h5 : k.code ≠ h.K_MACRO_DEFINE)
    (hfull : compare_lhs st.buffer lhs = match_t.full) :
    scan_keys h (k :: ks) submatch st = scan_t.returned (Res.ok (k.code, st)) := by
  simp [scan_keys, hl, h1, h2, h3, h4, h5, hfull]

/-- A live macro binding that is a full match pushes its `rhs` and the pass
over the table goes on with the entries behind it. -/
theorem scan_keys_full_define (h : key_h) (k : keymap_t) (ks : List keymap_t)
    (submatch : Bool) (st : key_state) (lhs rhs : List Nat) (hl : k.lhs = some lhs)
    (hr : k.rhs = some rhs) (h0 : k.code = h.K_MACRO_DEFINE)
    (h1 : h.K_MACRO_DEFINE ≠ h.K_ERROR) (h2 : h.K_MACRO_DEFINE ≠ h.K_DISABLED)
    (h3 : h.K_MACRO_DEFINE ≠ h.K_HELP_TEXT) (h4 : h.K_MACRO_DEFINE ≠ h.K_LITERAL)
    (hfull : compare_lhs st.buffer lhs = match_t.full) :
    scan_keys h (k :: ks) submatch st
      = scan_keys h ks submatch { st with istack := ipush rhs st.istack } := by
  simp [scan_keys, hl, hr, h0, h1, h2, h3, h4, hfull]

theorem key_state_start_eq (h : key_h) (tty : List Nat) (k : Nat)
    (hk : h.K_BUFFER_LENGTH = k + 2) :
    key_state.start h tty
      = { buffer := 0 :: 0 :: List.replicate k 0, record := 0, istack := [], tty := tty } := by
  simp [key_state.start, hk, List.replicate_succ]

/-- C1.  `getkey` at the witness of the claim, for any values of the constants of
`key.h` under which the macro binding is live: the only binding is the macro
`^T` with expansion `hello` (`.macro_define ^T hello`), record buffer and input
stack are empty and the terminal supplies `^T`.  The first call returns the
trigger byte `0x14` itself, with the expansion pushed; the calls after it
return `h`, `e`, `l`, `l`, `o`.  So five calls return `0x14`, `h`, `e`, `l`,
`l` and leave `ismacro()` true, and it takes a sixth call to return `o` and
empty the stack. -/
theorem getkey_returns_macro_trigger (h : key_h) (hK : 2 ≤ h.K_BUFFER_LENGTH)
    (h1 : h.K_MACRO_DEFINE ≠ h.K_ERROR) (h2 : h.K_MACRO_DEFINE ≠ h.K_DISABLED)
    (h3 : h.K_MACRO_DEFINE ≠ h.K_HELP_TEXT) (h4 : h.K_MACRO_DEFINE ≠ h.K_LITERAL) :
    getkey h
        [{ code := h.K_MACRO_DEFINE, lhs := some [20],
           rhs := some [104, 101, 108, 108, 111] },
         { code := h.K_ERROR, lhs := none, rhs := none }]
        (key_state.start h [20])
      = Res.ok (20,
          { buffer := 20 :: 0 :: List.replicate (h.K_BUFFER_LENGTH - 2) 0, record := 1,
            istack := [{ buf := [104, 101, 108, 108, 111], ptr := 0 }], tty := [] })
    ∧ getkey_calls h
        [{ code := h.K_MACRO_DEFINE, lhs := some [20],
           rhs := some [104, 101, 108, 108, 111] },
         { code := h.K_ERROR, lhs := none, rhs := none }] 5
        (key_state.start h [20])
      = Res.ok ([20, 104, 101, 108, 108],
          { buffer := 108 :: 0 :: List.replicate (h.K_BUFFER_LENGTH - 2) 0, record := 1,
            istack := [{ buf := [104, 101, 108, 108, 111], ptr := 4 }], tty := [] })
    ∧ ismacro [{ buf := [104, 101, 108, 108, 111], ptr := 4 }] = true
    ∧ getkey_calls h
        [{ code := h.K_MACRO_DEFINE, lhs := some [20],
           rhs := some [104, 101, 108, 108, 111] },
         { code := h.K_ERROR, lhs := none, rhs := none }] 6
        (key_state.start h [20])
      = Res.ok ([20, 104, 101, 108, 108, 111],
          { buffer := 111 :: 0 :: List.replicate (h.K_BUFFER_LENGTH - 2) 0, record := 1,
            istack := [], tty := [] }) := by
  obtain ⟨k, hk⟩ : ∃ k, h.K_BUFFER_LENGTH = k + 2 := ⟨h.K_BUFFER_LENGTH - 2, by omega⟩
  rw [key_state_start_eq h _ k hk]
  refine ⟨?_, ?_, rfl, ?_⟩ <;>
    simp [getkey_calls, getkey, getkey_loop, hk, getliteral, ipop, plain_char, EOF, scan_keys,
      compare_lhs, h1, h2, h3, h4, ipush, cstring]

/-- Witness of `getkey_returns_macro_trigger` at the sample values of the
constants. -/
theorem getkey_returns_macro_trigger_witness :
    getkey key_h.sample
        [{ code := key_h.sample.K_MACRO_DEFINE, lhs := some [20],
           rhs := some [104, 101, 108, 108, 111] },
         { code := key_h.sample.K_ERROR, lhs := none, rhs := none }]
        (key_state.start key_h.sample [20])
      = Res.ok (20,
          { buffer := 20 :: 0 :: List.replicate (key_h.sample.K_BUFFER_LENGTH - 2) 0, record := 1,
            istack := [{ buf := [104, 101, 108, 108, 111], ptr := 0 }], tty := [] })
    ∧ getkey_calls key_h.sample
        [{ code := key_h.sample.K_MACRO_DEFINE, lhs := some [20],
           rhs := some [104, 101, 108, 108, 111] },
         { code := key_h.sample.K_ERROR, lhs := none, rhs := none }] 5
        (key_state.start key_h.sample [20])
      = Res.ok ([20, 104, 101, 108, 108],
          { buffer := 108 :: 0 :: List.replicate (key_h.sample.K_BUFFER_LENGTH - 2) 0, record := 1,
            istack := [{ buf := [104, 101, 108, 108, 111], ptr := 4 }], tty := [] })
    ∧ ismacro [{ buf := [104, 101, 108, 108, 111], ptr := 4 }] = true
    ∧ getkey_calls key_h.sample
        [{ code := key_h.sample.K_MACRO_DEFINE, lhs := some [20],
           rhs := some [104, 101, 108, 108, 111] },
         { code := key_h.sample.K_ERROR, lhs := none, rhs := none }] 6
        (key_state.start key_h.sample [20])
      = Res.ok ([20, 104, 101, 108, 108, 111],
          { buffer := 111 :: 0 :: List.replicate (key_h.sample.K_BUFFER_LENGTH - 2) 0, record := 1,
            istack := [], tty := [] }) :=
  getkey_returns_macro_trigger key_h.sample (by decide) (by decide) (by decide) (by decide)
    (by decide)

/-- C2.  `getkey` on tables in which two live bindings have the same `lhs`
`^T` and the earlier one is a macro, the terminal supplying `^T`, for any
values of the constants of `key.h` under which the bindings are live.  When the
later binding is a command with code `code`, the call pushes the expansion of
the macro and returns the code of the later binding.  When the later binding is
a macro too, both expansions are pushed, the later one on top, so the later
expansion `b` is replayed before the earlier expansion `a`. -/
theorem getkey_scans_past_macro (h : key_h) (code : Int) (hK : 2 ≤ h.K_BUFFER_LENGTH)
    (h1 : h.K_MACRO_DEFINE ≠ h.K_ERROR) (h2 : h.K_MACRO_DEFINE ≠ h.K_DISABLED)
    (h3 : h.K_MACRO_DEFINE ≠ h.K_HELP_TEXT) (h4 : h.K_MACRO_DEFINE ≠ h.K_LITERAL)
    (c1 : code ≠ h.K_ERROR) (c2 : code ≠ h.K_DISABLED) (c3 : code ≠ h.K_HELP_TEXT)
    (c4 : code ≠ h.K_LITERAL) (c5 : code ≠ h.K_MACRO_DEFINE) :
    getkey h
        [{ code := h.K_MACRO_DEFINE, lhs := some [20],
           rhs := some [104, 101, 108, 108, 111] },
         { code := code, lhs := some [20], rhs := none },
         { code := h.K_ERROR, lhs := none, rhs := none }]
        (key_state.start h [20])
      = Res.ok (code,
          { buffer := 20 :: 0 :: List.replicate (h.K_BUFFER_LENGTH - 2) 0, record := 1,
            istack := [{ buf := [104, 101, 108, 108, 111], ptr := 0 }], tty := [] })
    ∧ getkey_calls h
        [{ code := h.K_MACRO_DEFINE, lhs := some [20], rhs := some [97] },
         { code := h.K_MACRO_DEFINE, lhs := some [20], rhs := some [98] },
         { code := h.K_ERROR, lhs := none, rhs := none }] 3
        (key_state.start h [20])
      = Res.ok ([20, 98, 97],
          { buffer := 97 :: 0 :: List.replicate (h.K_BUFFER_LENGTH - 2) 0, record := 1,
            istack := [], tty := [] }) := by
  obtain ⟨k, hk⟩ : ∃ k, h.K_BUFFER_LENGTH = k + 2 := ⟨h.K_BUFFER_LENGTH - 2, by omega⟩
  rw [key_state_start_eq h _ k hk]
  constructor <;>
    simp [getkey_calls, getkey, getkey_loop, hk, getliteral, ipop, plain_char, EOF, scan_keys,
      compare_lhs, h1, h2, h3, h4, c1, c2, c3, c4, c5, ipush, cstring]

/-- Witness of `getkey_scans_past_macro` at the sample values of the constants
and the command code `-10`. -/
theorem getkey_scans_past_macro_witness :
    getkey key_h.sample
        [{ code := key_h.sample.K_MACRO_DEFINE, lhs := some [20],
           rhs := some [104, 101, 108, 108, 111] },
         { code := (-10), lhs := some [20], rhs := none },
         { code := key_h.sample.K_ERROR, lhs := none, rhs := none }]
        (key_state.start key_h.sample [20])
      = Res.ok ((-10),
          { buffer := 20 :: 0 :: List.replicate (key_h.sample.K_BUFFER_LENGTH - 2) 0, record := 1,
            istack := [{ buf := [104, 101, 108, 108, 111], ptr := 0 }], tty := [] })
    ∧ getkey_calls key_h.sample
        [{ code := key_h.sample.K_MACRO_DEFINE, lhs := some [20], rhs := some [97] },
         { code := key_h.sample.K_MACRO_DEFINE, lhs := some [20], rhs := some [98] },
         { code := key_h.sample.K_ERROR, lhs := none, rhs := none }] 3
        (key_state.start key_h.sample [20])
      = Res.ok ([20, 98, 97],
          { buffer := 97 :: 0 :: List.replicate (key_h.sample.K_BUFFER_LENGTH - 2) 0, record := 1,
            istack := [], tty := [] }) :=
  getkey_scans_past_macro key_h.sample (-10) (by decide) (by decide) (by decide) (by decide)
    (by decide) (by decide) (by decide) (by decide) (by decide) (by decide)

/-! ## The iterations granted to the loops are enough -/

theorem getliteral_ne_unfinished (st : key_state) : getliteral st ≠ Res.unfinished := by
  unfold getliteral
  split
  · split <;> simp
  · simp

theorem getliteral_record (st st1 : key_state) (c : Int)
    (hl : getliteral st = Res.ok (c, st1)) :
    st1.record = st.record ∧ st1.buffer = st.buffer := by
  unfold getliteral at hl
  split at hl
  · split at hl
    · exact absurd hl (by simp)
    · simp only [Res.ok.injEq, Prod.mk.injEq] at hl
      rw [← hl.2]
      exact ⟨rfl, rfl⟩
  · simp only [Res.ok.injEq, Prod.mk.injEq] at hl
    rw [← hl.2]
    exact ⟨rfl, rfl⟩

/-- The pass over the table never reports `unfinished`, and when it falls off
the table's end it has moved neither `record` nor the bytes of `buffer`. -/
theorem scan_keys_record (h : key_h) (keys : List keymap_t) (submatch : Bool)
    (st : key_state) :
    (∀ r, scan_keys h keys submatch st = scan_t.returned r → r ≠ Res.unfinished)
    ∧ (∀ b st2, scan_keys h keys submatch st = scan_t.finished b st2 →
        st2.record = st.record ∧ st2.buffer = st.buffer) := by
  induction keys generalizing submatch st with
  | nil =>
    constructor
    · intro r hr
      simp [scan_keys] at hr
    · intro b st2 hs
      simp only [scan_keys, scan_t.finished.injEq] at hs
      rw [← hs.2]
      exact ⟨rfl, rfl⟩
  | cons k ks ih =>
    rw [scan_keys]
    split
    · constructor
      · intro r hr
        simp at hr
      · intro b st2 hs
        simp only [scan_t.finished.injEq] at hs
        rw [← hs.2]
        exact ⟨rfl, rfl⟩
    · split
      · exact ih submatch st
      · split
        · exact ih submatch st
        · split
          · split
            · constructor
              · intro r hr
                simp only [scan_t.returned.injEq] at hr
                rw [← hr]
                cases hg : getliteral st with
                | ok p => obtain ⟨ch, st1⟩ := p; simp
                | blocked => simp
                | fault => simp
                | unfinished => exact absurd hg (getliteral_ne_unfinished st)
              · intro b st2 hs
                simp at hs
            · split
              · constructor
                · intro r hr
                  simp only [scan_t.returned.injEq] at hr
                  rw [← hr]
                  simp
                · intro b st2 hs
                  simp at hs
              · split
                · exact ih submatch _
                · exact ih submatch st
          · exact ih true st
          · exact ih submatch st

/-- The loop of `getkey` ends within the iterations granted: with `record` at
most `K_BUFFER_LENGTH + 1` and `K_BUFFER_LENGTH + 2 - record` iterations, the
result is never `unfinished`. -/
theorem getkey_loop_finishes (h : key_h) (keys : List keymap_t) (fuel : Nat) (st : key_state)
    (hrec : st.record ≤ h.K_BUFFER_LENGTH + 1)
    (hfuel : h.K_BUFFER_LENGTH + 2 ≤ fuel + st.record) :
    getkey_loop h keys fuel st ≠ Res.unfinished := by
  induction fuel generalizing st with
  | zero => omega
  | succ fuel ih =>
    rw [getkey_loop]
    split
    · split <;> simp
    · rename_i hle
      split
      · rename_i ch st1 hl
        obtain ⟨hr1, _⟩ := getliteral_record st st1 ch hl
        split
        · split
          · split
            · rename_i r hs
              exact (scan_keys_record h keys false _).1 r hs
            · rename_i b st2 hs
              obtain ⟨hr2, _⟩ := (scan_keys_record h keys false _).2 b st2 hs
              simp only at hr2
              split
              · exact ih st2 (by omega) (by omega)
              · simp
          · simp
        · simp
      · simp
      · simp
      · rename_i hl
        exact absurd hl (getliteral_ne_unfinished st)

theorem encodekey_loop_succ (fuel : Nat) (str out : List Nat) :
    encodekey_loop (fuel + 1) str out =
      if str.headD 0 = 0 then (out.length, out)
      else if str.headD 0 = 94 then
        if str.tail.headD 0 = 63 then encodekey_loop fuel str.tail.tail (out ++ [127])
        else
          match strchr control (tolower (str.tail.headD 0)) with
          | none => (0, out)
          | some i => encodekey_loop fuel str.tail.tail (out ++ [i])
      else if str.headD 0 = 92 then
        if isdigit (str.tail.headD 0) = true then
          if 255 < (strtol str.tail).1 then (0, out)
          else encodekey_loop fuel (strtol str.tail).2 (out ++ [(strtol str.tail).1 % 256])
        else
          match strchr escmap (str.tail.headD 0) with
          | some i => encodekey_loop fuel str.tail.tail (out ++ [escvalue.getD i 0])
          | none => encodekey_loop fuel str.tail.tail (out ++ [str.tail.headD 0])
      else encodekey_loop fuel str.tail (out ++ [str.headD 0]) := by
  rw [encodekey_loop]

theorem strtol_digits_length (base : Nat) (s : List Nat) (acc : Nat) :
    (strtol_digits base s acc).2.length ≤ s.length := by
  induction s generalizing acc with
  | nil => simp [strtol_digits]
  | cons c s ih =>
    rw [strtol_digits]
    split
    · split
      · exact Nat.le_succ_of_le (ih _)
      · exact Nat.le_refl _
    · exact Nat.le_refl _

theorem strtol_length (s : List Nat) : (strtol s).2.length ≤ s.length := by
  unfold strtol
  split
  · have := strtol_digits_length 16 s.tail.tail 0
    simp only [List.length_tail] at this ⊢
    omega
  · split
    · exact strtol_digits_length 8 s 0
    · exact strtol_digits_length 10 s 0

/-- An iteration more than the length of `str` changes nothing: the loop of
`encodekey` has ended before. -/
theorem encodekey_loop_fuel (fuel : Nat) (str out : List Nat) (h : str.length ≤ fuel) :
    encodekey_loop (fuel + 1) str out = encodekey_loop fuel str out := by
  induction fuel generalizing str out with
  | zero =>
    have hs : str = [] := List.length_eq_zero.mp (Nat.le_zero.mp h)
    subst hs
    rfl
  | succ f ih =>
    rw [encodekey_loop_succ f str out, encodekey_loop_succ (f + 1) str out]
    by_cases h0 : str.headD 0 = 0
    · rw [if_pos h0, if_pos h0]
    · have hne : str ≠ [] := by
        intro hs; subst hs; exact h0 rfl
      have ht : str.tail.length ≤ f := by
        have := List.length_pos.mpr hne
        simp only [List.length_tail]
        omega
      have htt : str.tail.tail.length ≤ f := by
        simp only [List.length_tail] at ht ⊢
        omega
      have hst : (strtol str.tail).2.length ≤ f := le_trans (strtol_length _) ht
      rw [if_neg h0, if_neg h0]
      split_ifs
      · exact ih _ _ htt
      · cases strchr control (tolower (str.tail.headD 0)) with
        | none => rfl
        | some i => exact ih _ _ htt
      · rfl
      · exact ih _ _ hst
      · cases strchr escmap (str.tail.headD 0) with
        | none => exact ih _ _ htt
        | some i => exact ih _ _ htt
      · exact ih _ _ ht

/-- The function `encodekey` gives its loop enough iterations: any larger number
yields the same result. -/
theorem encodekey_fuel (str : List Nat) (n : Nat) :
    encodekey_loop (str.length + 1 + n) str [] = encodekey str := by
  induction n with
  | zero => rfl
  | succ n ih =>
    rw [← ih, ← Nat.add_assoc]
    exact encodekey_loop_fuel _ _ _ (by omega)

/-! ## encodekey: the returned length is the number of units -/

theorem strtol_digits_append_nul (base : Nat) (s m : List Nat) (acc : Nat) :
    strtol_digits base (s ++ 0 :: m) acc
      = ((strtol_digits base s acc).1, (strtol_digits base s acc).2 ++ 0 :: m) := by
  induction s generalizing acc with
  | nil => simp [strtol_digits, digitValue_zero]
  | cons c s ih =>
    rw [List.cons_append, strtol_digits, strtol_digits]
    cases digitValue c with
    | none => rfl
    | some d =>
      by_cases hd : d < base
      · simp only [hd, if_true]
        exact ih _
      · simp only [hd, if_false]
        rfl

theorem strtol_append_nul (d : Nat) (rest m : List Nat) :
    strtol (d :: rest ++ 0 :: m)
      = ((strtol (d :: rest)).1, (strtol (d :: rest)).2 ++ 0 :: m) := by
  have h16 : ∀ s : List Nat, strtol_digits 16 (s ++ 0 :: m) 0
      = ((strtol_digits 16 s 0).1, (strtol_digits 16 s 0).2 ++ 0 :: m) :=
    fun s => strtol_digits_append_nul 16 s m 0
  have h8 := strtol_digits_append_nul 8 (d :: rest) m 0
  have h10 := strtol_digits_append_nul 10 (d :: rest) m 0
  have hx0 : isxdigit 0 = false := by decide
  cases rest with
  | nil =>
    have hc : ¬ ((0 : Nat) = 120 ∨ (0 : Nat) = 88) := by decide
    simp only [strtol, List.cons_append, List.nil_append, List.headD_cons, List.tail_cons,
      List.headD_nil, List.tail_nil, hc, false_and, and_false, if_false]
    simp only [List.cons_append, List.nil_append] at h8 h10
    split <;> simp [h8, h10]
  | cons x rest' =>
    cases rest' with
    | nil =>
      simp only [strtol, List.cons_append, List.nil_append, List.headD_cons, List.tail_cons,
        List.headD_nil, List.tail_nil, hx0, and_false, if_false, Bool.false_eq_true]
      simp only [List.cons_append, List.nil_append] at h8 h10
      split <;> simp [h8, h10]
    | cons y ys =>
      have h16' := h16 (y :: ys)
      simp only [strtol, List.cons_append, List.headD_cons, List.tail_cons]
      simp only [List.cons_append] at h8 h10 h16'
      split
      · simp [h16']
      · split <;> simp [h8, h10]

theorem strtol_digits_suffix (base : Nat) (s : List Nat) (acc : Nat) :
    (strtol_digits base s acc).2 <:+ s := by
  induction s generalizing acc with
  | nil => simp [strtol_digits]
  | cons c s ih =>
    rw [strtol_digits]
    split
    · split
      · exact (ih _).trans (List.suffix_cons _ _)
      · exact List.suffix_refl _
    · exact List.suffix_refl _

theorem strtol_suffix (s : List Nat) : (strtol s).2 <:+ s := by
  unfold strtol
  split
  · exact (strtol_digits_suffix 16 _ 0).trans
      ((List.tail_suffix _).trans (List.tail_suffix _))
  · split
    · exact strtol_digits_suffix 8 s 0
    · exact strtol_digits_suffix 10 s 0

/-- More `fuel` than the length of the token does not change the number of
units. -/
theorem token_units_fuel (fuel : Nat) (t : List Nat) (h : t.length ≤ fuel) :
    token_units (fuel + 1) t = token_units fuel t := by
  induction fuel generalizing t with
  | zero =>
    have ht0 : t = [] := List.length_eq_zero.mp (Nat.le_zero.mp h)
    subst ht0
    rfl
  | succ f ih =>
    match t, h with
    | [], _ => rfl
    | [c], _ => simp only [token_units]
    | c :: d :: rest, h =>
      have hlr : rest.length ≤ f := by simp at h; omega
      have hldr : (d :: rest).length ≤ f := by simp at h ⊢; omega
      have hst : (strtol (d :: rest)).2.length ≤ f :=
        le_trans (strtol_suffix (d :: rest)).length_le hldr
      simp only [token_units]
      rw [ih rest hlr, ih (d :: rest) hldr, ih _ hst]

/-- On a NUL-free token that does not end in a lone `^` or backslash, followed
by its terminator and any memory, the loop of `encodekey` either returns 0 or
writes one byte per unit of the token and returns their number. -/
theorem encodekey_loop_units (fuel : Nat) (t m out : List Nat) (n : Nat)
    (ht : ∀ c ∈ t, c ≠ 0) (hfuel : t.length ≤ fuel) (hn : token_units fuel t = some n) :
    (encodekey_loop (fuel + 1) (t ++ 0 :: m) out).1 = 0
    ∨ ((encodekey_loop (fuel + 1) (t ++ 0 :: m) out).1 = out.length + n
       ∧ (encodekey_loop (fuel + 1) (t ++ 0 :: m) out).2.length = out.length + n) := by
  induction fuel generalizing t out n with
  | zero =>
    have ht0 : t = [] := List.length_eq_zero.mp (Nat.le_zero.mp hfuel)
    subst ht0
    simp only [token_units, Option.some.injEq] at hn
    subst hn
    right
    rw [List.nil_append, encodekey_loop_nul _ (0 :: m) _ rfl]
    exact ⟨rfl, rfl⟩
  | succ f ih =>
    match t, ht, hfuel, hn with
    | [], _, _, hn =>
      simp only [token_units, Option.some.injEq] at hn
      subst hn
      right
      rw [List.nil_append, encodekey_loop_nul _ (0 :: m) _ rfl]
      exact ⟨rfl, rfl⟩
    | [c], ht, _, hn =>
      have hc0 : c ≠ 0 := ht c (List.mem_singleton.mpr rfl)
      by_cases hesc : c = 94 ∨ c = 92
      · simp [token_units, hesc] at hn
      · simp only [token_units, hesc, if_false, Option.some.injEq] at hn
        subst hn
        right
        rw [List.cons_append, List.nil_append,
          encodekey_loop_plain _ _ _ _ hc0 (fun h => hesc (Or.inl h)) (fun h => hesc (Or.inr h)),
          encodekey_loop_nul _ (0 :: m) _ rfl]
        simp
    | c :: d :: rest, ht, hfuel, hn =>
      have hc0 : c ≠ 0 := ht c (List.mem_cons_self _ _)
      have hrest : ∀ x ∈ rest, x ≠ 0 := fun x hx =>
        ht x (List.mem_cons_of_mem _ (List.mem_cons_of_mem _ hx))
      have hdrest : ∀ x ∈ d :: rest, x ≠ 0 := fun x hx => ht x (List.mem_cons_of_mem _ hx)
      have hlr : rest.length ≤ f := by simp at hfuel; omega
      have hldr : (d :: rest).length ≤ f := by simp at hfuel ⊢; omega
      have hstep : ∀ (t' : List Nat) (b : Nat) (n' : Nat), (∀ x ∈ t', x ≠ 0) → t'.length ≤ f →
          token_units f t' = some n' → n = n' + 1 →
          (encodekey_loop (f + 1) (t' ++ 0 :: m) (out ++ [b])).1 = 0
          ∨ ((encodekey_loop (f + 1) (t' ++ 0 :: m) (out ++ [b])).1 = out.length + n
             ∧ (encodekey_loop (f + 1) (t' ++ 0 :: m) (out ++ [b])).2.length
                 = out.length + n) := by
        intro t' b n' h1 h2 h3 h4
        have := ih t' (out ++ [b]) n' h1 h2 h3
        simp only [List.length_append, List.length_singleton] at this
        rw [h4]
        simpa [Nat.add_assoc, Nat.add_comm 1 n'] using this
      rw [List.cons_append, List.cons_append]
      by_cases h94 : c = 94
      · subst h94
        simp only [token_units, if_true] at hn
        obtain ⟨n', hn', hnn⟩ := Option.map_eq_some'.mp hn
        rw [encodekey_loop_caret]
        split
        · exact hstep rest 127 n' hrest hlr hn' hnn.symm
        · split
          · left; rfl
          · exact hstep rest _ n' hrest hlr hn' hnn.symm
      · by_cases h92 : c = 92
        · subst h92
          rw [encodekey_loop_backslash]
          by_cases hdig : isdigit d = true
          · simp only [token_units, h94, if_false, if_true, hdig] at hn
            obtain ⟨n', hn', hnn⟩ := Option.map_eq_some'.mp hn
            have happ := strtol_append_nul d rest m
            rw [List.cons_append] at happ
            rw [if_pos hdig, happ]
            split
            · left; rfl
            · have hsuf := strtol_suffix (d :: rest)
              exact hstep (strtol (d :: rest)).2 _ n'
                (fun x hx => hdrest x (hsuf.subset hx))
                (le_trans hsuf.length_le hldr) hn' hnn.symm
          · simp only [token_units, h94, if_false, if_true, hdig] at hn
            obtain ⟨n', hn', hnn⟩ := Option.map_eq_some'.mp hn
            rw [if_neg hdig]
            split
            · exact hstep rest _ n' hrest hlr hn' hnn.symm
            · exact hstep rest _ n' hrest hlr hn' hnn.symm
        · simp only [token_units, h94, h92, if_false] at hn
          obtain ⟨n', hn', hnn⟩ := Option.map_eq_some'.mp hn
          rw [encodekey_loop_plain _ _ _ _ hc0 h94 h92, ← List.cons_append]
          exact hstep (d :: rest) c n' hdrest hldr hn' hnn.symm

/-- For every NUL-free token `t` that does not end in a lone `^` or backslash,
whatever memory follows its terminator, `encodekey` either returns 0 or returns
the number of units of `t`, having written that many bytes; for a non-empty
`t` that number is at least 1.  The empty token returns 0. -/
theorem encodekey_units (t m : List Nat) (n : Nat) (ht : ∀ c ∈ t, c ≠ 0)
    (hn : token_units t.length t = some n) :
    ((encodekey (t ++ 0 :: m)).1 = 0
      ∨ ((encodekey (t ++ 0 :: m)).1 = n ∧ (encodekey (t ++ 0 :: m)).2.length = n))
    ∧ (t ≠ [] → 1 ≤ n)
    ∧ (encodekey (0 :: m)).1 = 0 := by
  have hunits : ∀ k, token_units (t.length + k) t = some n := by
    intro k
    induction k with
    | zero => exact hn
    | succ k ihk =>
      rw [← Nat.add_assoc, token_units_fuel _ _ (by omega)]
      exact ihk
  have hlen : (t ++ 0 :: m).length + 1 = (t.length + (m.length + 1)) + 1 := by
    simp
  refine ⟨?_, ?_, ?_⟩
  · unfold encodekey
    rw [hlen]
    simpa using encodekey_loop_units (t.length + (m.length + 1)) t m [] n ht (by omega)
      (hunits _)
  · intro hne
    match t, hne, hn with
    | [c], _, hn =>
      by_cases hesc : c = 94 ∨ c = 92
      · simp [token_units, hesc] at hn
      · simp only [List.length_singleton, token_units, hesc, if_false, Option.some.injEq] at hn
        omega
    | c :: d :: rest, _, hn =>
      simp only [List.length_cons, token_units] at hn
      split at hn
      · obtain ⟨n', _, hnn⟩ := Option.map_eq_some'.mp hn; omega
      · split at hn
        · split at hn
          · obtain ⟨n', _, hnn⟩ := Option.map_eq_some'.mp hn; omega
          · obtain ⟨n', _, hnn⟩ := Option.map_eq_some'.mp hn; omega
        · obtain ⟨n', _, hnn⟩ := Option.map_eq_some'.mp hn; omega
  · rfl

/-- Instance of `encodekey_units`: the token `^A\65x`, of three units. -/
theorem encodekey_units_witness :
    (encodekey ([94, 65, 92, 54, 53, 120] ++ [0, 7])).1 = 0
    ∨ ((encodekey ([94, 65, 92, 54, 53, 120] ++ [0, 7])).1 = 3
       ∧ (encodekey ([94, 65, 92, 54, 53, 120] ++ [0, 7])).2.length = 3) :=
  (encodekey_units [94, 65, 92, 54, 53, 120] [7] 3 (by decide) (by decide)).1

/-- A call of `getkey` returns, waits for input, or stores outside `buffer`:
it always ends within the iterations granted to its loop. -/
theorem getkey_finishes (h : key_h) (keys : List keymap_t) (st : key_state) :
    getkey h keys st ≠ Res.unfinished := by
  unfold getkey
  split
  · simp
  · exact getkey_loop_finishes h keys _ _ (by simp) (by simp)

/-! ## Flushing the input stack -/

/-- C11.  `iflush` does not empty the input stack.  Its loop tests the object
`input`, which its body never changes, instead of `istack`: when `input` is 0
the call returns with every node still on the stack, and when `input` is not 0
the call does not return, whatever the stack, since once the nodes are freed
the body evaluates `istack->next` with `istack == NULL`.  With `input` 0 and
the one node "hi" on the stack, `iflush` returns, `ismacro` is still true and
the next `ipop` returns 'h'. -/
theorem iflush_leaves_stack (input : Int) (istack : List input_t) :
    (input = 0 → iflush input istack = some istack)
    ∧ (input ≠ 0 → iflush input istack = none)
    ∧ iflush 0 (ipush [104, 105] []) = some (ipush [104, 105] [])
    ∧ ismacro (ipush [104, 105] []) = true
    ∧ (ipop (ipush [104, 105] [])).1 = 104 := by
  refine ⟨?_, ?_, by decide, by decide, by decide⟩
  · intro h0
    cases istack with
    | nil => simp [iflush, h0]
    | cons n s => simp [iflush, h0]
  · intro hne
    induction istack with
    | nil => simp [iflush, hne]
    | cons n s ih => simp only [iflush, hne, ne_eq, not_false_eq_true, if_true]; exact ih

/-! ## The record buffer of getkey at its capacity -/

/-- A table with one live binding whose `lhs` is `K + 1` bytes `0x01`: every
proper non-empty prefix of `K` bytes `0x01` is a proper prefix of the `lhs`
and a full match of nothing. -/
theorem long_sequence_input (h : key_h) (code : Int) (K : Nat)
    (hc1 : code ≠ h.K_ERROR) (hc2 : code ≠ h.K_DISABLED) (hc3 : code ≠ h.K_HELP_TEXT)
    (keys : List keymap_t)
    (hkeys : keys = [{ code := code, lhs := some (List.replicate (K + 1) 1), rhs := none },
         { code := h.K_ERROR, lhs := none, rhs := none }]) :
    (∀ x ∈ List.replicate K 1, x ≠ 0 ∧ x < 256)
    ∧ (∀ p r, p ++ r = List.replicate K 1 → p ≠ [] → r ≠ [] →
        p ∉ live_lhs h keys ∧ ∃ l ∈ live_lhs h keys, p <+: l) := by
  have hlive : live_lhs h keys = [List.replicate (K + 1) 1] := by
    have hc : cstring (List.replicate (K + 1) 1) = List.replicate (K + 1) 1 :=
      cstring_of_nul_free _ (fun c hc => by rw [List.eq_of_mem_replicate hc]; decide)
    rw [hkeys]
    simp only [live_lhs, hc1, hc2, hc3, or_self, if_false, if_true, hc]
  rw [hlive]
  refine ⟨?_, ?_⟩
  · intro x hx
    rw [List.eq_of_mem_replicate hx]; decide
  · intro p r hpr _ _
    have hp1 : p <+: List.replicate K 1 := ⟨r, hpr⟩
    have hp2 : List.replicate K 1 <+: List.replicate (K + 1) 1 :=
      ⟨[1], by rw [← List.replicate_succ']⟩
    have hlp : p.length ≤ K := by
      have := hp1.length_le
      rwa [List.length_replicate] at this
    refine ⟨?_, List.replicate (K + 1) 1, List.mem_singleton.mpr rfl, hp1.trans hp2⟩
    intro hm
    have hpe : p = List.replicate (K + 1) 1 := List.mem_singleton.mp hm
    rw [hpe, List.length_replicate] at hlp
    omega

/-- C18.  `getkey` stores behind its record buffer before its length check can
fire.  With one live binding whose `lhs` is `K_BUFFER_LENGTH + 1` bytes `0x01`
and the terminal supplying `K_BUFFER_LENGTH` bytes `0x01` (and anything after
them), every byte read leaves a submatch; the check at the top of the loop
passes as long as `record - buffer` is at most `K_BUFFER_LENGTH`, so the byte
number `K_BUFFER_LENGTH` goes into the last element of `buffer` and its
terminator is stored at `buffer[K_BUFFER_LENGTH]`, outside the array: the
first call ends in that store, not in the return of `K_ERROR`. -/
theorem getkey_stores_behind_buffer (h : key_h) (code : Int) (rest : List Nat)
    (hK : 1 ≤ h.K_BUFFER_LENGTH)
    (hc1 : code ≠ h.K_ERROR) (hc2 : code ≠ h.K_DISABLED) (hc3 : code ≠ h.K_HELP_TEXT) :
    getkey h
        [{ code := code, lhs := some (List.replicate (h.K_BUFFER_LENGTH + 1) 1), rhs := none },
         { code := h.K_ERROR, lhs := none, rhs := none }]
        (key_state.start h (List.replicate h.K_BUFFER_LENGTH 1 ++ rest))
      = Res.fault := by
  obtain ⟨hbytes, hmid⟩ :=
    long_sequence_input h code h.K_BUFFER_LENGTH hc1 hc2 hc3 _ rfl
  have hbne : List.replicate h.K_BUFFER_LENGTH 1 ≠ [] := by
    intro hn
    have := congrArg List.length hn
    simp at this; omega
  have hstart : key_state.start h (List.replicate h.K_BUFFER_LENGTH 1 ++ rest)
      = { buffer := [] ++ List.replicate h.K_BUFFER_LENGTH 0,
          record := ([] : List Nat).length,
          istack := [], tty := List.replicate h.K_BUFFER_LENGTH 1 ++ rest } := by
    simp only [key_state.start, List.nil_append, List.length_nil]
  have hloop := getkey_loop_overflows h _ (List.replicate h.K_BUFFER_LENGTH 1) rest hbytes
    (List.length_replicate _ _) hmid (List.replicate h.K_BUFFER_LENGTH 1) []
    (List.replicate h.K_BUFFER_LENGTH 0) (h.K_BUFFER_LENGTH + 2) hbne rfl
    (by rw [List.length_replicate]; omega)
    (by rw [List.nil_append, List.length_replicate])
  rw [hstart, getkey, if_neg (by cases hk : h.K_BUFFER_LENGTH <;> simp [List.replicate])]
  exact hloop

/-- The table and input of C18 with the sample constants (`K_BUFFER_LENGTH`
256), the terminal supplying 256 bytes `0x01` and then `0x02`. -/
theorem getkey_stores_behind_buffer_witness :
    getkey key_h.sample
        [{ code := -10, lhs := some (List.replicate (key_h.sample.K_BUFFER_LENGTH + 1) 1),
           rhs := none },
         { code := key_h.sample.K_ERROR, lhs := none, rhs := none }]
        (key_state.start key_h.sample
          (List.replicate key_h.sample.K_BUFFER_LENGTH 1 ++ [2]))
      = Res.fault :=
  getkey_stores_behind_buffer key_h.sample (-10) [2] (by decide) (by decide) (by decide)
    (by decide)

/-! ## encodekey on a record of the configuration file -/

/-- C20.  `encodekey` reads past the terminator of a token that ends in a lone
`^` or a lone backslash.  The record `.quit ^ x`, after `strtok` has cut it
into tokens, is the memory `.quit\0^\0x\0`: the token `^` is at offset 6 and
its terminator at offset 7.  The call `encodekey(buf + 6, buf)` takes that
terminator for the character after the `^`, goes on to read `x` at offset 8
and stops at offset 9: it returns 2 for a token of one character and has
stored the two bytes 0x20 and `x`.  With a backslash for the `^` it returns 2
likewise, having stored 0 and `x`. -/
theorem encodekey_mem_reads_past_terminator :
    encodekey_mem [46, 113, 117, 105, 116, 0, 94, 0, 120, 0] 6 0
      = { ret := 2, mem := [32, 120, 0, 105, 116, 0, 94, 0, 120, 0], str := 9 }
    ∧ encodekey_mem [46, 113, 117, 105, 116, 0, 92, 0, 120, 0] 6 0
      = { ret := 2, mem := [0, 120, 0, 105, 116, 0, 92, 0, 120, 0], str := 9 }
    ∧ cstring ([46, 113, 117, 105, 116, 0, 94, 0, 120, 0].drop 6) = [94]
    ∧ cstring ([46, 113, 117, 105, 116, 0, 92, 0, 120, 0].drop 6) = [92] := by
  refine ⟨by decide, by decide, by decide, by decide⟩

/-! ## Field input: which function a key goes to -/

/-- The entry at which the search of `ktable` stops, for every key: the first
of the erase character, the kill character, CR, LF and backspace that the key
equals, and the last entry when it equals none. -/
theorem ktable_find_func (c : curses_h) (key : Int) :
    ∃ k, ktable_find (ktable c) key = some k ∧ k.func = some (fld_dispatch c key) := by
  obtain ⟨e, k, cols, isf⟩ := c
  have hneg : ∀ n : Nat, ¬ ((n : Int) = -1) := fun n => by omega
  have h13 : ((13 : Int) = key) ↔ (key = 13) := by constructor <;> intro h <;> omega
  have h10 : ((10 : Int) = key) ↔ (key = 10) := by constructor <;> intro h <;> omega
  have h8 : ((8 : Int) = key) ↔ (key = 8) := by constructor <;> intro h <;> omega
  have he : ((e : Int) = key) ↔ (key = (e : Int)) := by constructor <;> intro h <;> omega
  have hk : ((k : Int) = key) ↔ (key = (k : Int)) := by constructor <;> intro h <;> omega
  have c13 : ¬ ((13 : Int) = -1) := by decide
  have c10 : ¬ ((10 : Int) = -1) := by decide
  have c8 : ¬ ((8 : Int) = -1) := by decide
  simp only [fld_dispatch, ktable, ktable_find, ne_eq, hneg, c13, c10, c8, not_false_eq_true,
    true_and, h13, h10, h8, he, hk, not_true_eq_false, false_and, if_false]
  by_cases h1 : key = (e : Int)
  · rw [if_neg (not_not.mpr h1), if_pos h1]; exact ⟨_, rfl, rfl⟩
  rw [if_pos h1, if_neg h1]
  by_cases h2 : key = (k : Int)
  · rw [if_neg (not_not.mpr h2), if_pos h2]; exact ⟨_, rfl, rfl⟩
  rw [if_pos h2, if_neg h2]
  by_cases h3 : key = 13
  · rw [if_neg (not_not.mpr h3), if_pos (Or.inl h3)]; exact ⟨_, rfl, rfl⟩
  rw [if_pos h3]
  by_cases h4 : key = 10
  · rw [if_neg (not_not.mpr h4), if_pos (Or.inr h4)]; exact ⟨_, rfl, rfl⟩
  rw [if_pos h4, if_neg (show ¬ (key = 13 ∨ key = 10) from fun h => h.elim h3 h4)]
  by_cases h5 : key = 8
  · rw [if_neg (not_not.mpr h5), if_pos h5]; exact ⟨_, rfl, rfl⟩
  rw [if_pos h5, if_neg h5]
  simp

/-- One iteration of the loop of `getinput` that reads `key`: `fld_kill` first
when this is the first key and it goes to `fld_insert`, then the function the
key goes to; the loop goes on when that returns TRUE and stores the
terminator when it returns FALSE. -/
theorem getinput_loop_step (c : curses_h) (fuel : Nat) (first : Bool) (f : fld_t)
    (st st1 : key_state) (key : Int) (hg : getliteral st = Res.ok (key, st1)) :
    getinput_loop c (fuel + 1) first f st
      = match (if first ∧ fld_dispatch c key = fld_func.fld_insert
               then fld_kill { f with fld_key := key }
               else Res.ok (true, { f with fld_key := key })) with
        | .ok (_, f1) =>
          match fld_call c (fld_dispatch c key) f1 with
          | .ok (true, f2) => getinput_loop c fuel false f2 st1
          | .ok (false, f2) =>
            match fld_store f2 f2.fld_index 0 with
            | .ok f3 => .ok (f3, st1)
            | .blocked => .blocked
            | .fault => .fault
            | .unfinished => .unfinished
          | .blocked => .blocked
          | .fault => .fault
          | .unfinished => .unfinished
        | .blocked => .blocked
        | .fault => .fault
        | .unfinished => .unfinished := by
  obtain ⟨k, hk, hf⟩ := ktable_find_func c key
  simp only [getinput_loop, hg, hk, hf, Option.some.injEq]

/-- Every key that `getliteral` delivers is one of those counted by
`literals`. -/
theorem literals_getliteral (st st1 : key_state) (key : Int)
    (hg : getliteral st = Res.ok (key, st1)) : literals st1 < literals st := by
  obtain ⟨kb, kr, istack, tty⟩ := st
  have hpop : ((ipop istack).2.map (fun node => max 1 (node.buf.length - node.ptr))).sum
        ≤ (istack.map (fun node => max 1 (node.buf.length - node.ptr))).sum
      ∧ (istack ≠ [] →
          ((ipop istack).2.map (fun node => max 1 (node.buf.length - node.ptr))).sum
            < (istack.map (fun node => max 1 (node.buf.length - node.ptr))).sum)
      ∧ (istack = [] → (ipop istack).1 = EOF) := by
    cases istack with
    | nil => simp [ipop]
    | cons node next =>
      by_cases hlast : node.buf.getD (node.ptr + 1) 0 = 0
      · simp only [ipop, hlast, if_true, List.map_cons, List.sum_cons, ne_eq, reduceCtorEq,
          not_false_eq_true, true_implies, false_implies, and_true]
        omega
      · have hlt : node.ptr + 1 < node.buf.length := by
          by_contra hge
          exact hlast (getD_zero_of_length_le _ _ (by omega))
        simp only [ipop, hlast, if_false, List.map_cons, List.sum_cons, ne_eq, reduceCtorEq,
          not_false_eq_true, true_implies, false_implies, and_true]
        omega
  unfold getliteral at hg
  by_cases he : (ipop istack).1 = EOF
  · cases tty with
    | nil => simp [he] at hg
    | cons t tty1 =>
      simp only [he, if_true, Res.ok.injEq, Prod.mk.injEq] at hg
      rw [← hg.2]
      have hp := hpop.1
      simp only [literals, List.length_cons]
      omega
  · simp only [he, if_false, Res.ok.injEq, Prod.mk.injEq] at hg
    rw [← hg.2]
    have hcons : istack ≠ [] := fun h => he (hpop.2.2 h)
    have hp := hpop.2.1 hcons
    simp only [literals]
    omega

/-! ## Field input stays within the caller's array -/

theorem fld_store_within (len : Nat) (f : fld_t) (i : Nat) (v : Int) (hw : fld_within len f)
    (hi : i < len) :
    ∃ f1, fld_store f i v = Res.ok f1 ∧ fld_within len f1 ∧ f1.fld_index = f.fld_index
      ∧ f1.fld_buffer = f.fld_buffer.set i (v % 256).toNat ∧ f1.fld_key = f.fld_key
      ∧ f1.fld_length = f.fld_length := by
  obtain ⟨h1, h2, h3, h4⟩ := hw
  refine ⟨{ f with fld_buffer := f.fld_buffer.set i (v % 256).toNat, stores := f.stores ++ [i] },
    by rw [fld_store, if_pos (by omega)], ⟨?_, h2, h3, ?_⟩, rfl, rfl, rfl, rfl⟩
  · simpa using h1
  · intro j hj
    rcases List.mem_append.mp hj with hj | hj
    · exact h4 j hj
    · rw [List.mem_singleton.mp hj]; exact hi

/-- Every function of `ktable`, called with the statics within an array of
`len` bytes, returns and leaves them within it. -/
theorem fld_call_within (c : curses_h) (len : Nat) (func : fld_func) (f : fld_t)
    (hlen : 2 ≤ len) (hw : fld_within len f) :
    ∃ b f1, fld_call c func f = Res.ok (b, f1) ∧ fld_within len f1
      ∧ f1.fld_buffer.length = f.fld_buffer.length := by
  cases func with
  | fld_done => exact ⟨false, f, rfl, hw, rfl⟩
  | fld_left =>
    by_cases h0 : 0 < f.fld_index
    · refine ⟨true, { f with fld_index := f.fld_index - 1 },
        by simp only [fld_call, fld_left, if_pos h0], ?_, rfl⟩
      obtain ⟨h1, h2, h3, h4⟩ := hw
      exact ⟨h1, h2, by simp only []; omega, h4⟩
    · exact ⟨true, f, by simp only [fld_call, fld_left, if_neg h0], hw, rfl⟩
  | fld_erase =>
    by_cases h0 : 0 < f.fld_index
    · have hw1 : fld_within len { f with fld_index := f.fld_index - 1 } := by
        obtain ⟨h1, h2, h3, h4⟩ := hw
        exact ⟨h1, h2, by simp only []; omega, h4⟩
      obtain ⟨f2, hs, hw2, _, hb, _⟩ := fld_store_within len _ (f.fld_index - 1) 0 hw1
        (by have := hw.2.2.1; omega)
      refine ⟨true, f2, ?_, hw2, by simp [hb]⟩
      simp only [fld_call, fld_erase, fld_left, if_pos h0, hs]
    · exact ⟨true, f, by simp only [fld_call, fld_erase, if_neg h0], hw, rfl⟩
  | fld_kill =>
    obtain ⟨f1, hs, hw1, _, hb, _⟩ := fld_store_within len f 0 0 hw (by omega)
    refine ⟨true, { f1 with fld_index := 0 }, by simp only [fld_call, fld_kill, hs], ?_,
      by simp [hb]⟩
    obtain ⟨h1, h2, h3, h4⟩ := hw1
    exact ⟨h1, h2, by simp only []; omega, h4⟩
  | fld_insert =>
    by_cases hlt : (f.fld_index : Int) < f.fld_length
    · by_cases hfk : c.ISFUNCKEY f.fld_key = true
      · exact ⟨decide ((f.fld_index : Int) < f.fld_length), f,
          by simp only [fld_call, fld_insert, if_pos hlt, hfk, Bool.not_true,
            Bool.false_eq_true, if_false], hw, rfl⟩
      · have hlt2 : f.fld_index < len := by have := hw.2.2.1; omega
        obtain ⟨f1, hs, hw1, hi1, hb, _⟩ :=
          fld_store_within len f f.fld_index f.fld_key hw hlt2
        refine ⟨decide (((f1.fld_index + 1 : Nat) : Int) < f1.fld_length),
          { f1 with fld_index := f1.fld_index + 1 }, by
          simp only [fld_call, fld_insert, if_pos hlt, hfk, Bool.not_false, if_true, hs], ?_,
          by simp [hb]⟩
        obtain ⟨h1, h2, h3, h4⟩ := hw1
        refine ⟨h1, h2, ?_, h4⟩
        have h2f := hw.2.1
        simp only [hi1]
        omega
    · exact ⟨decide ((f.fld_index : Int) < f.fld_length), f,
        by simp only [fld_call, fld_insert, if_neg hlt], hw, rfl⟩

theorem getliteral_ne_fault (st : key_state) : getliteral st ≠ Res.fault := by
  unfold getliteral
  split
  · split <;> simp
  · simp

/-- The loop of `getinput`, started with the statics within an array of `len`
bytes and fuel above `literals`: it waits for a key that does not come, or it
returns with the statics within the array and a NUL at the cursor. -/
theorem getinput_loop_within (c : curses_h) (len : Nat) (hlen : 2 ≤ len) :
    ∀ (fuel : Nat) (first : Bool) (f : fld_t) (st : key_state),
      fld_within len f → literals st < fuel →
      getinput_loop c fuel first f st = Res.blocked
      ∨ ∃ f1 st1, getinput_loop c fuel first f st = Res.ok (f1, st1) ∧ fld_within len f1
          ∧ f1.fld_buffer.getD f1.fld_index 1 = 0
          ∧ f1.fld_buffer.length = f.fld_buffer.length := by
  intro fuel
  induction fuel with
  | zero => intro first f st _ h; omega
  | succ fuel ih =>
    intro first f st hw hfuel
    cases hg : getliteral st with
    | blocked => left; simp only [getinput_loop, hg]
    | fault => exact absurd hg (getliteral_ne_fault st)
    | unfinished => exact absurd hg (getliteral_ne_unfinished st)
    | ok r =>
      obtain ⟨key, st1⟩ := r
      have hl := literals_getliteral st st1 key hg
      rw [getinput_loop_step c fuel first f st st1 key hg]
      have hwk : fld_within len { f with fld_key := key } := hw
      have hkill : ∃ b f1, (if first ∧ fld_dispatch c key = fld_func.fld_insert
               then fld_kill { f with fld_key := key }
               else Res.ok (true, { f with fld_key := key })) = Res.ok (b, f1)
             ∧ fld_within len f1 ∧ f1.fld_buffer.length = f.fld_buffer.length := by
        split
        · obtain ⟨b, f1, hc, hw1, hb⟩ :=
            fld_call_within c len fld_func.fld_kill _ hlen hwk
          exact ⟨b, f1, hc, hw1, hb⟩
        · exact ⟨true, _, rfl, hwk, rfl⟩
      obtain ⟨b, f1, hk1, hw1, hlen1⟩ := hkill
      rw [hk1]
      obtain ⟨b2, f2, hc, hw2, hlen2⟩ :=
        fld_call_within c len (fld_dispatch c key) f1 hlen hw1
      simp only [hc]
      cases b2 with
      | true =>
        simp only []
        rcases ih false f2 st1 hw2 (by omega) with hb | ⟨f3, st3, hr, hw3, hz, hl3⟩
        · exact Or.inl hb
        · exact Or.inr ⟨f3, st3, hr, hw3, hz, by rw [hl3, hlen2, hlen1]⟩
      | false =>
        simp only []
        obtain ⟨f3, hs, hw3, hi3, hb3, _⟩ :=
          fld_store_within len f2 f2.fld_index 0 hw2 (by have := hw2.2.2.1; omega)
        simp only [hs]
        refine Or.inr ⟨f3, st1, rfl, hw3, ?_, ?_⟩
        · rw [hb3, hi3]
          have : f2.fld_index < f2.fld_buffer.length := by
            have := hw2.2.2.1; have := hw2.1; omega
          simp [List.getD_eq_getElem?_getD, this]
        · rw [hb3, List.length_set, hlen2, hlen1]

theorem cstring_length_le_of_nul (l : List Nat) (i : Nat) (h : l.getD i 1 = 0) :
    (cstring l).length ≤ i := by
  induction l generalizing i with
  | nil => simp [cstring]
  | cons x xs ih =>
    by_cases hx : x = 0
    · rw [hx, cstring_cons_zero]; exact Nat.zero_le _
    · rw [cstring_cons_ne_zero x xs hx]
      cases i with
      | zero => simp at h; exact absurd h hx
      | succ j =>
        have := ih j (by simpa using h)
        simp only [List.length_cons]
        omega

/-- C19.  `getinput` stores only within the caller's array.  For every `len`
of at least 2, every array `buf` of at least `len` bytes that holds a string
of at most `len - 1` characters, every echo flag and every state of the input
(stack and terminal): the call either waits for a key that does not come, or
it returns TRUE, and then every store into `buf` was at an offset below `len`,
the cursor is at most `len - 1`, the size of the array is unchanged, a NUL is
at the cursor and the string in `buf` has at most `len - 1` characters.  On
the way, every function that the loop calls (`fld_done`, `fld_erase`,
`fld_kill`, `fld_left`, `fld_insert`) returns with the cursor at most
`len - 1` and all stores below `len` when it is called so. -/
theorem getinput_within_buffer (c : curses_h) (buf : List Nat) (len : Nat) (echoing : Bool)
    (st : key_state) (hlen : 2 ≤ len) (hinit : (cstring buf).length ≤ len - 1)
    (hroom : len ≤ buf.length) :
    (getinput c buf len echoing st = Res.blocked
      ∨ ∃ f st1, getinput c buf len echoing st = Res.ok (true, f, st1)
          ∧ (∀ i ∈ f.stores, i < len) ∧ f.fld_index ≤ len - 1
          ∧ f.fld_buffer.length = buf.length
          ∧ f.fld_buffer.getD f.fld_index 1 = 0
          ∧ (cstring f.fld_buffer).length ≤ len - 1)
    ∧ (∀ func f, fld_within len f →
        ∃ b f1, fld_call c func f = Res.ok (b, f1) ∧ fld_within len f1) := by
  constructor
  · have hl0 : ¬ ((len : Int) < 0) := by omega
    have hl1 : ¬ ((len : Int) - 1 < 1) := by omega
    have hw0 : fld_within len
        { fld_buffer := buf, fld_index := (cstring buf).length, fld_length := (len : Int) - 1,
          fld_key := 0, fld_echo := echoing, stores := [] } :=
      ⟨hroom, rfl, by simp only []; omega, by simp⟩
    simp only [getinput, hl0, if_false, hl1]
    rcases getinput_loop_within c len hlen (literals st + 1) true _ st hw0 (by omega)
      with hb | ⟨f1, st1, hr, hw1, hz, hl⟩
    · left; rw [hb]
    · right
      refine ⟨f1, st1, by rw [hr], hw1.2.2.2, ?_, hl, hz, ?_⟩
      · have := hw1.2.2.1; omega
      · have h1 := cstring_length_le_of_nul _ _ hz
        have := hw1.2.2.1
        omega
  · intro func f hw
    obtain ⟨b, f1, hc, hw1, _⟩ := fld_call_within c len func f hlen hw
    exact ⟨b, f1, hc, hw1⟩

/-- Witness of `getinput_within_buffer`: an array of 5 bytes that holds `ab`,
`len` 5, and the keys `x`, `y`, CR from the terminal. -/
theorem getinput_within_buffer_witness :
    (getinput curses_h.sample [97, 98, 0, 7, 7] (5 : Nat) true
        { buffer := [0, 0], record := 0, istack := [], tty := [120, 121, 13] } = Res.blocked
      ∨ ∃ f st1, getinput curses_h.sample [97, 98, 0, 7, 7] (5 : Nat) true
            { buffer := [0, 0], record := 0, istack := [], tty := [120, 121, 13] }
            = Res.ok (true, f, st1)
          ∧ (∀ i ∈ f.stores, i < 5) ∧ f.fld_index ≤ 5 - 1
          ∧ f.fld_buffer.length = [97, 98, 0, 7, 7].length
          ∧ f.fld_buffer.getD f.fld_index 1 = 0
          ∧ (cstring f.fld_buffer).length ≤ 5 - 1)
    ∧ (∀ func f, fld_within 5 f →
        ∃ b f1, fld_call curses_h.sample func f = Res.ok (b, f1) ∧ fld_within 5 f1) :=
  getinput_within_buffer curses_h.sample [97, 98, 0, 7, 7] 5 true
    { buffer := [0, 0], record := 0, istack := [], tty := [120, 121, 13] }
    (by decide) (by decide) (by decide)

/-! ## Field input: which keys erase, end the input, or are stored -/

theorem take_set_self (l : List Nat) (i v : Nat) : (l.set i v).take i = l.take i := by
  rw [List.set_take, List.set_eq_of_length_le]
  rw [List.length_take]
  exact Nat.min_le_left _ _

theorem fld_insert_keeps (c : curses_h) (f f1 : fld_t) (b : Bool)
    (h : fld_insert c f = Res.ok (b, f1)) :
    f.fld_index ≤ f1.fld_index
      ∧ f1.fld_buffer.take f.fld_index = f.fld_buffer.take f.fld_index := by
  by_cases hlt : (f.fld_index : Int) < f.fld_length
  · by_cases hfk : c.ISFUNCKEY f.fld_key = true
    · simp only [fld_insert, if_pos hlt, hfk, Bool.not_true, Bool.false_eq_true, if_false,
        Res.ok.injEq, Prod.mk.injEq] at h
      rw [← h.2]; exact ⟨Nat.le_refl _, rfl⟩
    · by_cases hin : f.fld_index < f.fld_buffer.length
      · simp only [fld_insert, if_pos hlt, hfk, Bool.not_false, if_true, fld_store, if_pos hin,
          Res.ok.injEq, Prod.mk.injEq] at h
        rw [← h.2]
        exact ⟨Nat.le_succ _, take_set_self _ _ _⟩
      · simp [fld_insert, if_pos hlt, hfk, fld_store, if_neg hin] at h
  · simp only [fld_insert, if_neg hlt, Res.ok.injEq, Prod.mk.injEq] at h
    rw [← h.2]; exact ⟨Nat.le_refl _, rfl⟩

/-- C17 (counterexample).  On a terminal whose erase character is 0x7F and whose
kill character is 0x15, the key 0x08 is neither of them and neither CR nor LF,
yet the search of `ktable` stops at the entry `'\b'`, whose function is
`fld_erase`: with `ab` in the field, the keys 0x08 and CR leave `a`. -/
theorem backspace_goes_to_fld_erase :
    (8 : Nat) ≠ curses_h.sample.erasechar ∧ (8 : Nat) ≠ curses_h.sample.killchar
    ∧ ktable_find (ktable curses_h.sample) 8
        = some { code := 8, func := some fld_func.fld_erase }
    ∧ getinput curses_h.sample [97, 98, 0, 7, 7] 5 true
        { buffer := [0, 0], record := 0, istack := [], tty := [8, 13] }
      = Res.ok (true,
          { fld_buffer := [97, 0, 0, 7, 7], fld_index := 1, fld_length := 4, fld_key := 13,
            fld_echo := true, stores := [1, 1] },
          { buffer := [0, 0], record := 0, istack := [], tty := [] }) := by
  refine ⟨by decide, by decide, by decide, by decide⟩

/-- C17 (amended).  The search of `ktable` for a key stops at the first entry
whose code the key equals, in the order erase character, kill character, CR,
LF, backspace, and at the last entry otherwise.  So a key goes to `fld_erase`
exactly when it is the erase character or it is backspace and not the kill
character; to `fld_kill` exactly when it is the kill character and not the
erase character; to `fld_done` exactly when it is CR or LF and neither the
erase nor the kill character; and to `fld_insert` exactly when it is none of
the five.  `fld_insert` itself never moves the cursor back and leaves the
characters before the cursor as they are. -/
theorem ktable_dispatch (c : curses_h) (key : Int) :
    (∃ k, ktable_find (ktable c) key = some k ∧ k.func = some (fld_dispatch c key))
    ∧ (fld_dispatch c key = fld_func.fld_erase
        ↔ key = c.erasechar ∨ (key = 8 ∧ key ≠ c.killchar))
    ∧ (fld_dispatch c key = fld_func.fld_kill ↔ key = c.killchar ∧ key ≠ c.erasechar)
    ∧ (fld_dispatch c key = fld_func.fld_done
        ↔ (key = 13 ∨ key = 10) ∧ key ≠ c.erasechar ∧ key ≠ c.killchar)
    ∧ (fld_dispatch c key = fld_func.fld_insert
        ↔ key ≠ c.erasechar ∧ key ≠ c.killchar ∧ key ≠ 13 ∧ key ≠ 10 ∧ key ≠ 8)
    ∧ (∀ f f1 b, fld_insert c f = Res.ok (b, f1) →
        f.fld_index ≤ f1.fld_index
          ∧ f1.fld_buffer.take f.fld_index = f.fld_buffer.take f.fld_index) := by
  refine ⟨ktable_find_func c key, ?_, ?_, ?_, ?_, fun f f1 b h => fld_insert_keeps c f f1 b h⟩
  all_goals
    unfold fld_dispatch
    split_ifs with h1 h2 h3 h4 <;>
      simp only [true_iff, false_iff, reduceCtorEq, ne_eq] <;> first | tauto | omega

/-! ## Field input: a field that fills up -/

theorem take_set_succ (l : List Nat) (i v : Nat) (h : i < l.length) :
    (l.set i v).take (i + 1) = l.take i ++ [v] := by
  induction l generalizing i with
  | nil => simp at h
  | cons x xs ih =>
    cases i with
    | zero => simp
    | succ j =>
      simp only [List.set_cons_succ, List.take_succ_cons, List.cons_append, List.cons.injEq,
        true_and]
      exact ih j (by simpa using h)

/-- The first key of a call, when it goes to `fld_insert`: `fld_kill` empties
the field, and the iteration goes on as one that is not the first. -/
theorem getinput_loop_first_insert (c : curses_h) (fuel : Nat) (f : fld_t)
    (st st1 : key_state) (key : Int) (hg : getliteral st = Res.ok (key, st1))
    (hd : fld_dispatch c key = fld_func.fld_insert) (hroom : 0 < f.fld_buffer.length) :
    getinput_loop c (fuel + 1) true f st
      = getinput_loop c (fuel + 1) false
          { f with fld_buffer := f.fld_buffer.set 0 0, fld_index := 0,
                   stores := f.stores ++ [0] } st := by
  rw [getinput_loop_step c fuel true f st st1 key hg,
    getinput_loop_step c fuel false _ st st1 key hg]
  simp only [hd, and_self, if_true, fld_kill, fld_store, if_pos hroom, toNat_zero_emod,
    Bool.false_eq_true, false_and, if_false]

/-- The call of `fld_insert` with the cursor below the bound and a key that is
not a function key: the key is stored at the cursor, the cursor moves on, and
the value returned tells whether it is still below the bound. -/
theorem fld_insert_stores (c : curses_h) (g : fld_t)
    (hlt : (g.fld_index : Int) < g.fld_length) (hfk : c.ISFUNCKEY g.fld_key = false)
    (hin : g.fld_index < g.fld_buffer.length) :
    fld_insert c g
      = Res.ok (decide (((g.fld_index + 1 : Nat) : Int) < g.fld_length),
          { g with fld_buffer := g.fld_buffer.set g.fld_index (g.fld_key % 256).toNat,
                   fld_index := g.fld_index + 1, stores := g.stores ++ [g.fld_index] }) := by
  simp only [fld_insert, if_pos hlt, hfk, Bool.not_false, if_true, fld_store, if_pos hin]

/-- Keys that go to `fld_insert` and fill the field exactly, read by an
iteration that is not the first: they are stored behind what the field holds,
the last of them makes `fld_insert` return FALSE, the terminator is stored and
the loop is left; the keys behind them stay unread. -/
theorem getinput_loop_fills (c : curses_h) (len : Nat) (kb : List Nat) (kr : Nat)
    (rest : List Nat) :
    ∀ (cs : List Nat) (f : fld_t) (fuel : Nat),
      cs ≠ [] →
      (∀ x ∈ cs, fld_dispatch c x = fld_func.fld_insert ∧ c.ISFUNCKEY x = false) →
      f.fld_length = (len : Int) - 1 →
      f.fld_index + cs.length + 1 = len →
      len ≤ f.fld_buffer.length →
      cs.length < fuel →
      ∃ f1, getinput_loop c fuel false f
            { buffer := kb, record := kr, istack := [], tty := cs ++ rest }
          = Res.ok (f1, { buffer := kb, record := kr, istack := [], tty := rest })
        ∧ f1.fld_index = len - 1
        ∧ f1.fld_buffer.take len
            = f.fld_buffer.take f.fld_index ++ cs.map (fun x => x % 256) ++ [0] := by
  intro cs
  induction cs with
  | nil => intro f fuel h; exact absurd rfl h
  | cons x cs ih =>
    intro f fuel _ hplain hlength hidx hroom hfuel
    obtain ⟨n, rfl⟩ : ∃ n, fuel = n + 1 := ⟨fuel - 1, by simp at hfuel; omega⟩
    simp only [List.length_cons] at hidx hfuel
    obtain ⟨hdx, hfx⟩ := hplain x (List.mem_cons_self _ _)
    rw [List.cons_append, getinput_loop_step c n false f _ _ x (getliteral_tty kb kr x _)]
    simp only [Bool.false_eq_true, false_and, if_false, hdx, fld_call]
    rw [fld_insert_stores c { f with fld_key := x } (by simp only [hlength]; omega) hfx
      (by simp only []; omega)]
    simp only [toNat_cast_emod]
    by_cases hcs : cs = []
    · subst hcs
      simp only [List.length_nil, Nat.add_zero] at hidx
      have hdec : decide (((f.fld_index + 1 : Nat) : Int) < f.fld_length) = false := by
        simp only [decide_eq_false_iff_not, hlength]; omega
      simp only [hdec, fld_store, List.length_set]
      rw [if_pos (by omega)]
      refine ⟨_, rfl, by simp only []; omega, ?_⟩
      simp only [toNat_zero_emod, List.map_cons, List.map_nil, List.nil_append]
      have hl : len = (f.fld_index + 1) + 1 := by omega
      rw [hl, take_set_succ _ _ _ (by rw [List.length_set]; omega),
        take_set_succ _ _ _ (by omega)]
    · have hpos : 0 < cs.length := List.length_pos.mpr hcs
      have hdec : decide (((f.fld_index + 1 : Nat) : Int) < f.fld_length) = true := by
        simp only [decide_eq_true_eq, hlength]; omega
      simp only [hdec]
      obtain ⟨f1, hr, hi, hb⟩ := ih
        { f with fld_key := x, fld_buffer := f.fld_buffer.set f.fld_index (x % 256),
                 fld_index := f.fld_index + 1, stores := f.stores ++ [f.fld_index] } n hcs
        (fun y hy => hplain y (List.mem_cons_of_mem _ hy)) hlength
        (by simp only []; omega) (by simp only [List.length_set]; omega) (by omega)
      refine ⟨f1, hr, hi, ?_⟩
      rw [hb]
      simp only []
      rw [take_set_succ _ _ _ (by omega)]
      simp

theorem fld_dispatch_insert (c : curses_h) (key : Nat) (h1 : key ≠ c.erasechar)
    (h2 : key ≠ c.killchar) (h3 : key ≠ 13) (h4 : key ≠ 10) (h5 : key ≠ 8) :
    fld_dispatch c key = fld_func.fld_insert := by
  unfold fld_dispatch
  rw [if_neg (by omega), if_neg (by omega), if_neg (by omega), if_neg (by omega)]

/-- C16 (counterexample).  With `len` 3 and an empty field, the keys `a`, `b`,
`c`, CR: the call returns at `b`, the key that fills the field, with `ab` in
the array; `c` and CR are still unread. -/
theorem getinput_returns_at_bound :
    getinput curses_h.sample [0, 7, 7] 3 true
        { buffer := [0, 0], record := 0, istack := [], tty := [97, 98, 99, 13] }
      = Res.ok (true,
          { fld_buffer := [97, 98, 0], fld_index := 2, fld_length := 2, fld_key := 98,
            fld_echo := true, stores := [0, 0, 1, 2] },
          { buffer := [0, 0], record := 0, istack := [], tty := [99, 13] }) := by
  decide

/-- C16 (amended).  Reaching the length bound ends the call.  For every `len`
of at least 2, every array of at least `len` bytes, and `len - 1` keys from
the terminal that are neither the erase nor the kill character, nor CR, LF or
backspace, nor function keys: `getinput` returns TRUE at the last of them,
with these keys (as characters) and the terminator in the array and the
cursor at `len - 1`; whatever follows them on the terminal, CR and LF
included, is left unread. -/
theorem getinput_ends_when_full (c : curses_h) (buf : List Nat) (len : Nat) (echoing : Bool)
    (kb : List Nat) (kr : Nat) (cs rest : List Nat)
    (hlen : 2 ≤ len) (hroom : len ≤ buf.length) (hcs : cs.length = len - 1)
    (hplain : ∀ x ∈ cs, x ≠ c.erasechar ∧ x ≠ c.killchar ∧ x ≠ 13 ∧ x ≠ 10 ∧ x ≠ 8
      ∧ c.ISFUNCKEY x = false) :
    ∃ f, getinput c buf len echoing
          { buffer := kb, record := kr, istack := [], tty := cs ++ rest }
        = Res.ok (true, f, { buffer := kb, record := kr, istack := [], tty := rest })
      ∧ f.fld_index = len - 1
      ∧ f.fld_buffer.take len = cs.map (fun x => x % 256) ++ [0] := by
  have hl0 : ¬ ((len : Int) < 0) := by omega
  have hl1 : ¬ ((len : Int) - 1 < 1) := by omega
  have hd : ∀ x ∈ cs, fld_dispatch c x = fld_func.fld_insert ∧ c.ISFUNCKEY x = false :=
    fun x hx => by
      obtain ⟨h1, h2, h3, h4, h5, h6⟩ := hplain x hx
      exact ⟨fld_dispatch_insert c x h1 h2 h3 h4 h5, h6⟩
  obtain ⟨x, cs1, rfl⟩ : ∃ x cs1, cs = x :: cs1 := by
    cases cs with
    | nil => simp at hcs; omega
    | cons x cs1 => exact ⟨x, cs1, rfl⟩
  simp only [getinput, hl0, if_false, hl1, List.cons_append]
  rw [getinput_loop_first_insert c _ _ _ _ x (getliteral_tty kb kr x _)
    (hd x (List.mem_cons_self _ _)).1 (show 0 < buf.length by omega)]
  obtain ⟨f1, hr, hi, hb⟩ := getinput_loop_fills c len kb kr rest (x :: cs1)
    { fld_buffer := buf.set 0 0, fld_index := 0, fld_length := (len : Int) - 1, fld_key := 0,
      fld_echo := echoing, stores := [] ++ [0] }
    (literals { buffer := kb, record := kr, istack := [], tty := x :: (cs1 ++ rest) } + 1)
    (by simp) hd rfl (by simp only []; omega) (by simp only [List.length_set]; exact hroom)
    (by simp only [literals, List.map_nil, List.sum_nil, List.length_cons, List.length_append]
        omega)
  refine ⟨f1, ?_, hi, ?_⟩
  · rw [List.cons_append] at hr
    rw [hr]
  · rw [hb]; simp

/-- Witness of `getinput_ends_when_full`: `len` 3 and the keys `a`, `b`
followed by `c` and CR. -/
theorem getinput_ends_when_full_witness :
    ∃ f, getinput curses_h.sample [0, 7, 7] (3 : Nat) true
          { buffer := [0, 0], record := 0, istack := [], tty := [97, 98] ++ [99, 13] }
        = Res.ok (true, f, { buffer := [0, 0], record := 0, istack := [], tty := [99, 13] })
      ∧ f.fld_index = 3 - 1
      ∧ f.fld_buffer.take 3 = [97, 98].map (fun x => x % 256) ++ [0] :=
  getinput_ends_when_full curses_h.sample [0, 7, 7] 3 true [0, 0] 0 [97, 98] [99, 13]
    (by decide) (by decide) (by decide) (by decide)

/-! ## Field input: typing over what the field holds -/

/-- An iteration whose key goes to `fld_done`: the terminator is stored at the
cursor and the loop is left. -/
theorem getinput_loop_done (c : curses_h) (fuel : Nat) (first : Bool) (f : fld_t)
    (st st1 : key_state) (key : Int) (hg : getliteral st = Res.ok (key, st1))
    (hd : fld_dispatch c key = fld_func.fld_done) (hin : f.fld_index < f.fld_buffer.length) :
    getinput_loop c (fuel + 1) first f st
      = Res.ok ({ f with fld_key := key, fld_buffer := f.fld_buffer.set f.fld_index 0,
                         stores := f.stores ++ [f.fld_index] }, st1) := by
  rw [getinput_loop_step c fuel first f st st1 key hg]
  simp only [hd, reduceCtorEq, and_false, if_false, fld_call, fld_done, fld_store, if_pos hin,
    toNat_zero_emod]

/-- An iteration whose key goes to `fld_erase`, with the cursor behind the
start of the field. -/
theorem getinput_loop_erase (c : curses_h) (fuel : Nat) (first : Bool) (f : fld_t)
    (st st1 : key_state) (key : Int) (hg : getliteral st = Res.ok (key, st1))
    (hd : fld_dispatch c key = fld_func.fld_erase) (h0 : 0 < f.fld_index)
    (hin : f.fld_index - 1 < f.fld_buffer.length) :
    getinput_loop c (fuel + 1) first f st
      = getinput_loop c fuel false
          { f with fld_key := key, fld_index := f.fld_index - 1,
                   fld_buffer := f.fld_buffer.set (f.fld_index - 1) 0,
                   stores := f.stores ++ [f.fld_index - 1] } st1 := by
  rw [getinput_loop_step c fuel first f st st1 key hg]
  simp only [hd, reduceCtorEq, and_false, if_false, fld_call, fld_erase, fld_left, if_pos h0,
    fld_store, if_pos hin, toNat_zero_emod]

/-- An iteration whose key goes to `fld_kill`. -/
theorem getinput_loop_kill (c : curses_h) (fuel : Nat) (first : Bool) (f : fld_t)
    (st st1 : key_state) (key : Int) (hg : getliteral st = Res.ok (key, st1))
    (hd : fld_dispatch c key = fld_func.fld_kill) (hin : 0 < f.fld_buffer.length) :
    getinput_loop c (fuel + 1) first f st
      = getinput_loop c fuel false
          { f with fld_key := key, fld_index := 0, fld_buffer := f.fld_buffer.set 0 0,
                   stores := f.stores ++ [0] } st1 := by
  rw [getinput_loop_step c fuel first f st st1 key hg]
  simp only [hd, reduceCtorEq, and_false, if_false, fld_call, fld_kill, fld_store, if_pos hin,
    toNat_zero_emod]

/-- An iteration, not the first, whose key goes to `fld_insert` and leaves the
cursor below the bound. -/
theorem getinput_loop_insert (c : curses_h) (fuel : Nat) (f : fld_t)
    (st st1 : key_state) (key : Int) (hg : getliteral st = Res.ok (key, st1))
    (hd : fld_dispatch c key = fld_func.fld_insert) (hfk : c.ISFUNCKEY key = false)
    (hlt : ((f.fld_index + 1 : Nat) : Int) < f.fld_length)
    (hin : f.fld_index < f.fld_buffer.length) :
    getinput_loop c (fuel + 1) false f st
      = getinput_loop c fuel false
          { f with fld_key := key, fld_index := f.fld_index + 1,
                   fld_buffer := f.fld_buffer.set f.fld_index (key % 256).toNat,
                   stores := f.stores ++ [f.fld_index] } st1 := by
  rw [getinput_loop_step c fuel false f st st1 key hg]
  simp only [Bool.false_eq_true, false_and, if_false, hd, fld_call]
  rw [fld_insert_stores c { f with fld_key := key } (by simp only []; omega) hfk hin]
  simp only [decide_eq_true hlt]

theorem cstring_append_nul (w rest : List Nat) (hw : ∀ x ∈ w, x ≠ 0) :
    cstring (w ++ 0 :: rest) = w := by
  induction w with
  | nil => exact cstring_cons_zero rest
  | cons x xs ih =>
    rw [List.cons_append, cstring_cons_ne_zero _ _ (hw x (List.mem_cons_self _ _)),
      ih (fun y hy => hw y (List.mem_cons_of_mem _ hy))]

theorem set_nul_at_terminator (w rest : List Nat) :
    (w ++ 0 :: rest).set w.length 0 = w ++ 0 :: rest := by
  induction w with
  | nil => rfl
  | cons x xs ih => simp only [List.cons_append, List.length_cons, List.set_cons_succ, ih]

/-- C15.  Typing over a pre-filled field.  For every string `w` in an array of
at least `len` bytes, every `len` of at least 3 and every key `ch` that is
neither the erase nor the kill character, nor CR, LF or backspace, nor a
function key, on a terminal whose erase and kill characters are not CR:
`getinput` returns TRUE and leaves the keys behind those named unread, and
the array holds `ch` and the terminator after the keys `ch`, CR; the empty
string after `ch`, kill character, CR and after `ch`, erase character, CR;
and `w` as it was after CR alone. -/
theorem getinput_type_to_replace (c : curses_h) (w rest more kb : List Nat) (kr len ch : Nat)
    (echoing : Bool) (hw : ∀ x ∈ w, x ≠ 0) (hlen : 3 ≤ len)
    (hroom : len ≤ (w ++ 0 :: rest).length)
    (h1 : ch ≠ c.erasechar) (h2 : ch ≠ c.killchar) (h3 : ch ≠ 13) (h4 : ch ≠ 10) (h5 : ch ≠ 8)
    (h6 : c.ISFUNCKEY ch = false) (he : c.erasechar ≠ 13) (hk : c.killchar ≠ 13) :
    (∃ f, getinput c (w ++ 0 :: rest) len echoing
            { buffer := kb, record := kr, istack := [], tty := ch :: 13 :: more }
          = Res.ok (true, f, { buffer := kb, record := kr, istack := [], tty := more })
        ∧ f.fld_buffer = ch % 256 :: 0 :: (w ++ 0 :: rest).drop 2)
    ∧ (∃ f, getinput c (w ++ 0 :: rest) len echoing
            { buffer := kb, record := kr, istack := [], tty := ch :: c.killchar :: 13 :: more }
          = Res.ok (true, f, { buffer := kb, record := kr, istack := [], tty := more })
        ∧ f.fld_buffer = 0 :: (w ++ 0 :: rest).drop 1)
    ∧ (∃ f, getinput c (w ++ 0 :: rest) len echoing
            { buffer := kb, record := kr, istack := [], tty := ch :: c.erasechar :: 13 :: more }
          = Res.ok (true, f, { buffer := kb, record := kr, istack := [], tty := more })
        ∧ f.fld_buffer = 0 :: (w ++ 0 :: rest).drop 1)
    ∧ (∃ f, getinput c (w ++ 0 :: rest) len echoing
            { buffer := kb, record := kr, istack := [], tty := 13 :: more }
          = Res.ok (true, f, { buffer := kb, record := kr, istack := [], tty := more })
        ∧ f.fld_buffer = w ++ 0 :: rest) := by
  have hl0 : ¬ ((len : Int) < 0) := by omega
  have hl1 : ¬ ((len : Int) - 1 < 1) := by omega
  have hdch := fld_dispatch_insert c ch h1 h2 h3 h4 h5
  have hd13 : fld_dispatch c 13 = fld_func.fld_done := by
    unfold fld_dispatch
    rw [if_neg (by omega), if_neg (by omega), if_pos (Or.inl rfl)]
  have hde : fld_dispatch c c.erasechar = fld_func.fld_erase := by simp [fld_dispatch]
  have hdk : fld_dispatch c c.killchar = fld_func.fld_erase
      ∨ fld_dispatch c c.killchar = fld_func.fld_kill := by
    by_cases hek : c.killchar = c.erasechar
    · left; simp [fld_dispatch, hek]
    · right
      unfold fld_dispatch
      rw [if_neg (by omega), if_pos rfl]
  have hcs : (cstring (w ++ 0 :: rest)).length = w.length := by
    rw [cstring_append_nul w rest hw]
  have hlit : ∀ tty : List Nat,
      literals { buffer := kb, record := kr, istack := [], tty := tty } = tty.length := by
    intro tty; simp [literals]
  have hwl : w.length < (w ++ 0 :: rest).length := by simp
  have hset : (w ++ 0 :: rest).set w.length 0 = w ++ 0 :: rest := set_nul_at_terminator w rest
  simp only [getinput, hl0, if_false, hl1, hlit, hcs, List.length_cons]
  generalize hB : w ++ 0 :: rest = B at hroom hwl hset ⊢
  obtain ⟨b0, b1, tl, rfl⟩ : ∃ b0 b1 tl, B = b0 :: b1 :: tl := by
    match B, hroom with
    | b0 :: b1 :: tl, _ => exact ⟨b0, b1, tl, rfl⟩
    | [_], h => simp at h; omega
    | [], h => simp at h; omega
  refine ⟨?_, ?_, ?_, ?_⟩
  · rw [getinput_loop_first_insert c _ _ _ _ ch (getliteral_tty kb kr ch _) hdch (by simp),
      getinput_loop_insert c _ _ _ _ ch (getliteral_tty kb kr ch _) hdch h6
        (by simp only []; omega) (by simp),
      getinput_loop_done c _ _ _ _ _ 13 (getliteral_tty kb kr 13 _) hd13 (by simp)]
    exact ⟨_, rfl, by simp [toNat_cast_emod]⟩
  · rw [getinput_loop_first_insert c _ _ _ _ ch (getliteral_tty kb kr ch _) hdch (by simp),
      getinput_loop_insert c _ _ _ _ ch (getliteral_tty kb kr ch _) hdch h6
        (by simp only []; omega) (by simp)]
    rcases hdk with hdk | hdk
    · rw [getinput_loop_erase c _ _ _ _ _ c.killchar (getliteral_tty kb kr _ _) hdk
          (by simp) (by simp),
        getinput_loop_done c _ _ _ _ _ 13 (getliteral_tty kb kr 13 _) hd13 (by simp)]
      exact ⟨_, rfl, by simp⟩
    · rw [getinput_loop_kill c _ _ _ _ _ c.killchar (getliteral_tty kb kr _ _) hdk (by simp),
        getinput_loop_done c _ _ _ _ _ 13 (getliteral_tty kb kr 13 _) hd13 (by simp)]
      exact ⟨_, rfl, by simp⟩
  · rw [getinput_loop_first_insert c _ _ _ _ ch (getliteral_tty kb kr ch _) hdch (by simp),
      getinput_loop_insert c _ _ _ _ ch (getliteral_tty kb kr ch _) hdch h6
        (by simp only []; omega) (by simp),
      getinput_loop_erase c _ _ _ _ _ c.erasechar (getliteral_tty kb kr _ _) hde
        (by simp) (by simp),
      getinput_loop_done c _ _ _ _ _ 13 (getliteral_tty kb kr 13 _) hd13 (by simp)]
    exact ⟨_, rfl, by simp⟩
  · rw [getinput_loop_done c _ _ _ _ _ 13 (getliteral_tty kb kr 13 _) hd13 hwl]
    exact ⟨_, rfl, hset⟩

/-- Witness of `getinput_type_to_replace`: `ab` in an array of 5 bytes, `len`
5 and the key `x`, on a terminal with erase character DEL and kill character
^U. -/
theorem getinput_type_to_replace_witness :
    (∃ f, getinput curses_h.sample ([97, 98] ++ 0 :: [7, 7]) (5 : Nat) true
            { buffer := [0, 0], record := 0, istack := [], tty := 120 :: 13 :: [] }
          = Res.ok (true, f, { buffer := [0, 0], record := 0, istack := [], tty := [] })
        ∧ f.fld_buffer = 120 % 256 :: 0 :: ([97, 98] ++ 0 :: [7, 7]).drop 2)
    ∧ (∃ f, getinput curses_h.sample ([97, 98] ++ 0 :: [7, 7]) (5 : Nat) true
            { buffer := [0, 0], record := 0, istack := [],
              tty := 120 :: curses_h.sample.killchar :: 13 :: [] }
          = Res.ok (true, f, { buffer := [0, 0], record := 0, istack := [], tty := [] })
        ∧ f.fld_buffer = 0 :: ([97, 98] ++ 0 :: [7, 7]).drop 1)
    ∧ (∃ f, getinput curses_h.sample ([97, 98] ++ 0 :: [7, 7]) (5 : Nat) true
            { buffer := [0, 0], record := 0, istack := [],
              tty := 120 :: curses_h.sample.erasechar :: 13 :: [] }
          = Res.ok (true, f, { buffer := [0, 0], record := 0, istack := [], tty := [] })
        ∧ f.fld_buffer = 0 :: ([97, 98] ++ 0 :: [7, 7]).drop 1)
    ∧ (∃ f, getinput curses_h.sample ([97, 98] ++ 0 :: [7, 7]) (5 : Nat) true
            { buffer := [0, 0], record := 0, istack := [], tty := 13 :: [] }
          = Res.ok (true, f, { buffer := [0, 0], record := 0, istack := [], tty := [] })
        ∧ f.fld_buffer = [97, 98] ++ 0 :: [7, 7]) :=
  getinput_type_to_replace curses_h.sample [97, 98] [7, 7] [] [0, 0] 0 5 120 true
    (by decide) (by decide) (by decide) (by decide) (by decide) (by decide) (by decide)
    (by decide) (by decide) (by decide) (by decide)

/-! ## encodekey on memory: what its stores can reach -/

theorem strtol_consumes (d : Nat) (rest : List Nat) (hd : isdigit d = true) :
    (strtol (d :: rest)).2.length ≤ rest.length := by
  obtain ⟨v, hv, hv10⟩ := digit_of_isdigit d hd
  unfold strtol
  split
  · have := strtol_digits_length 16 (d :: rest).tail.tail 0
    simp only [List.tail_cons, List.length_tail] at this ⊢
    omega
  · split
    · rw [strtol_digits, hv]
      simp only [show v < 8 from by
        rename_i h48
        simp only [List.headD_cons] at h48
        rw [h48] at hv
        simp [digitValue] at hv
        omega, if_true]
      exact strtol_digits_length 8 rest _
    · rw [strtol_digits, hv]
      simp only [hv10, if_true]
      exact strtol_digits_length 10 rest _

theorem getD_set_eq (l : List Nat) (p v i : Nat) :
    (l.set p v).getD i 0 = if i = p ∧ p < l.length then v else l.getD i 0 := by
  induction l generalizing p i with
  | nil => simp
  | cons x xs ih =>
    cases p with
    | zero =>
      cases i with
      | zero => simp
      | succ j => simp
    | succ q =>
      cases i with
      | zero => simp
      | succ j => simpa using ih q j

/-- A store below `S`, or of a NUL or a byte of `blank`, leaves the memory from
`S` on made of NULs and bytes of `blank`. -/
theorem blank_region_set (S : Nat) (mem : List Nat) (p v : Nat)
    (hr : ∀ i, S ≤ i → mem.getD i 0 = 0 ∨ mem.getD i 0 ∈ blank)
    (hv : p < S ∨ v = 0 ∨ v ∈ blank) :
    ∀ i, S ≤ i → (mem.set p v).getD i 0 = 0 ∨ (mem.set p v).getD i 0 ∈ blank := by
  intro i hi
  rw [getD_set_eq]
  split
  · rename_i h
    rcases hv with hv | hv
    · omega
    · exact hv
  · exact hr i hi

theorem not_isupper_of_blank (d : Nat) (h : d = 0 ∨ d ∈ blank) : isupper d = false := by
  simp only [blank, List.mem_cons, List.mem_singleton, List.not_mem_nil, or_false] at h
  rcases h with h | h | h | h | h <;> rw [h] <;> decide

/-- When the memory from `S` on holds nothing but NULs and bytes of `blank`,
and the output pointer is below the input pointer, a call of `encodekey`
leaves it so: a store at or above `S` copies a byte read further up, which is
a byte of `blank`, or is the terminator. -/
theorem encodekey_mem_loop_blank_region (buf S : Nat) :
    ∀ (fuel : Nat) (mem : List Nat) (str ptr : Nat), ptr < str →
      (∀ i, S ≤ i → mem.getD i 0 = 0 ∨ mem.getD i 0 ∈ blank) →
      ∀ i, S ≤ i → (encodekey_mem_loop buf fuel mem str ptr).mem.getD i 0 = 0
        ∨ (encodekey_mem_loop buf fuel mem str ptr).mem.getD i 0 ∈ blank := by
  intro fuel
  induction fuel with
  | zero => intro mem str ptr _ hr; simpa only [encodekey_mem_loop] using hr
  | succ n ih =>
    intro mem str ptr hlt hr
    have hbelow : mem.getD str 0 ≠ 0 → mem.getD str 0 ∉ blank → str < S := by
      intro h0 hb
      by_contra hge
      rcases hr str (by omega) with h | h
      · exact h0 h
      · exact hb h
    simp only [encodekey_mem_loop]
    by_cases hc0 : mem.getD str 0 = 0
    · rw [if_pos hc0]
      exact blank_region_set S mem ptr 0 hr (Or.inr (Or.inl rfl))
    rw [if_neg hc0]
    by_cases hc94 : mem.getD str 0 = 94
    · rw [if_pos hc94]
      have hs : str < S := hbelow hc0 (by rw [hc94]; decide)
      by_cases hd63 : mem.getD (str + 1) 0 = 63
      · rw [if_pos hd63]
        exact ih _ _ _ (by omega) (blank_region_set S mem ptr 127 hr (Or.inl (by omega)))
      · rw [if_neg hd63]
        have hr1 : ∀ i, S ≤ i →
            (if isupper (mem.getD (str + 1) 0) = true
              then mem.set (str + 1) (tolower (mem.getD (str + 1) 0)) else mem).getD i 0 = 0
            ∨ (if isupper (mem.getD (str + 1) 0) = true
              then mem.set (str + 1) (tolower (mem.getD (str + 1) 0)) else mem).getD i 0
                ∈ blank := by
          by_cases hup : isupper (mem.getD (str + 1) 0) = true
          · rw [if_pos hup]
            refine blank_region_set S mem _ _ hr (Or.inl ?_)
            by_contra hge
            have := not_isupper_of_blank _ (hr (str + 1) (by omega))
            rw [this] at hup
            exact absurd hup (by decide)
          · rw [if_neg hup]; exact hr
        cases hsc : strchr control (tolower (mem.getD (str + 1) 0)) with
        | none => exact hr1
        | some i =>
          exact ih _ _ _ (by omega) (blank_region_set S _ ptr i hr1 (Or.inl (by omega)))
    rw [if_neg hc94]
    by_cases hc92 : mem.getD str 0 = 92
    · rw [if_pos hc92]
      have hs : str < S := hbelow hc0 (by rw [hc92]; decide)
      by_cases hdig : isdigit (mem.getD (str + 1) 0) = true
      · rw [if_pos hdig]
        by_cases hbig : 255 < (strtol (mem.drop (str + 1))).1
        · rw [if_pos hbig]; exact hr
        · rw [if_neg hbig]
          have hin : str + 1 < mem.length := by
            by_contra hge
            rw [getD_zero_of_length_le mem (str + 1) (by omega)] at hdig
            exact absurd hdig (by decide)
          have hcons := strtol_consumes (mem.getD (str + 1) 0) (mem.drop (str + 1 + 1)) hdig
          rw [← drop_eq_getD_cons mem (str + 1) hin] at hcons
          have hlen : (mem.drop (str + 1)).length = (mem.drop (str + 1 + 1)).length + 1 := by
            simp only [List.length_drop]; omega
          exact ih _ _ _ (by omega)
            (blank_region_set S mem ptr _ hr (Or.inl (by omega)))
      · rw [if_neg hdig]
        cases hsc : strchr escmap (mem.getD (str + 1) 0) with
        | some i =>
          exact ih _ _ _ (by omega) (blank_region_set S mem ptr _ hr (Or.inl (by omega)))
        | none =>
          exact ih _ _ _ (by omega) (blank_region_set S mem ptr _ hr (Or.inl (by omega)))
    rw [if_neg hc92]
    refine ih _ _ _ (by omega) (blank_region_set S mem ptr _ hr ?_)
    by_cases hp : ptr < S
    · exact Or.inl hp
    · right
      rcases hr str (by omega) with h | h
      · exact absurd h hc0
      · exact Or.inr h

/-! ## The handlers of the configuration file -/

theorem strspn_blank_stops (s : List Nat) : s.getD (strspn_blank s) 0 ∉ blank := by
  induction s with
  | nil => simp only [strspn_blank, List.getD_nil]; decide
  | cons c s ih =>
    by_cases hc : c ∈ blank
    · simpa only [strspn_blank, if_pos hc, List.getD_cons_succ] using ih
    · simpa only [strspn_blank, if_neg hc, List.getD_cons_zero] using hc

theorem getD_drop_add (mem : List Nat) (s k : Nat) :
    (mem.drop s).getD k 0 = mem.getD (s + k) 0 := by
  simp [List.getD_eq_getElem?_getD, List.getElem?_drop]

/-- Where the memory from `S` on holds nothing but NULs and bytes of `blank`,
`strtok` started at `S` finds no token. -/
theorem strtok_none_of_blank_region (mem : List Nat) (S : Nat)
    (hr : ∀ i, S ≤ i → mem.getD i 0 = 0 ∨ mem.getD i 0 ∈ blank) :
    (strtok mem S).tok = none := by
  have hstop := strspn_blank_stops (mem.drop S)
  rw [getD_drop_add] at hstop
  have h0 : mem.getD (S + strspn_blank (mem.drop S)) 0 = 0 := by
    rcases hr (S + strspn_blank (mem.drop S)) (by omega) with h | h
    · exact h
    · exact absurd h hstop
  simp only [strtok, h0, if_true]

/-- What `strtok` leaves when it finds a token: the token is not below the
start, the pointer kept is above the token, and the memory differs from the
one before at most by a NUL stored below the pointer kept. -/
theorem strtok_some (mem : List Nat) (s tok : Nat) (h : (strtok mem s).tok = some tok) :
    s ≤ tok ∧ tok < (strtok mem s).save
      ∧ ((strtok mem s).mem = mem
          ∨ ∃ e, e < (strtok mem s).save ∧ (strtok mem s).mem = mem.set e 0) := by
  unfold strtok at h ⊢
  simp only [] at h ⊢
  by_cases h0 : mem.getD (s + strspn_blank (mem.drop s)) 0 = 0
  · rw [if_pos h0] at h
    exact absurd h (by simp)
  · have hpos : 0 < strcspn_blank (mem.drop (s + strspn_blank (mem.drop s))) := by
      have hne : s + strspn_blank (mem.drop s) < mem.length := by
        by_contra hge
        exact h0 (getD_zero_of_length_le _ _ (by omega))
      rw [drop_eq_getD_cons mem _ hne, strcspn_blank]
      have hb := strspn_blank_stops (mem.drop s)
      rw [getD_drop_add] at hb
      rw [if_neg (by rintro (h | h); exact h0 h; exact hb h)]
      omega
    rw [if_neg h0] at h ⊢
    by_cases he : mem.getD (s + strspn_blank (mem.drop s)
        + strcspn_blank (mem.drop (s + strspn_blank (mem.drop s)))) 0 = 0
    · rw [if_pos he] at h ⊢
      simp only [Option.some.injEq] at h
      subst h
      exact ⟨by omega, by simp only []; omega, Or.inl rfl⟩
    · rw [if_neg he] at h ⊢
      simp only [Option.some.injEq] at h
      subst h
      exact ⟨by omega, by simp only []; omega, Or.inr ⟨_, by simp only []; omega, rfl⟩⟩

/-- C12 (amended).  A `.macro_define` record with exactly one argument is
rejected.  For every record in which `strtok`, asked by `k_define` for the
first argument, finds a token behind the start of the record, and which holds
nothing but bytes of `blank` and NULs behind that token: whatever the token
is, `k_define` returns FALSE and the slot is not assigned (the second
`strtok` finds no token). -/
theorem k_define_one_token (mem : List Nat) (olds tok : Nat) (kp : keymap_t)
    (htok : (strtok mem olds).tok = some tok) (hpos : 0 < olds)
    (hrest : ∀ i, (strtok mem olds).save ≤ i → mem.getD i 0 = 0 ∨ mem.getD i 0 ∈ blank) :
    k_define mem olds kp = none := by
  obtain ⟨hle, hlt, hmem⟩ := strtok_some mem olds tok htok
  have hr1 : ∀ i, (strtok mem olds).save ≤ i →
      (strtok mem olds).mem.getD i 0 = 0 ∨ (strtok mem olds).mem.getD i 0 ∈ blank := by
    rcases hmem with hm | ⟨e, he, hm⟩
    · rw [hm]; exact hrest
    · rw [hm]; exact blank_region_set _ mem e 0 hrest (Or.inl he)
  have hr2 := encodekey_mem_loop_blank_region 0 (strtok mem olds).save
    ((strtok mem olds).mem.length + 1) (strtok mem olds).mem tok 0 (by omega) hr1
  have hnone := strtok_none_of_blank_region _ _ hr2
  simp only [k_define, htok, encodekey_mem]
  split
  · rw [hnone]
  · rfl

/-- Witness of `k_define_one_token`: the record `.macro_define ^T` as `initkey`
hands it to the handler, the directive cut off by a NUL and the pointer kept
by `strtok` at offset 14. -/
theorem k_define_one_token_witness :
    k_define [46, 109, 97, 99, 114, 111, 95, 100, 101, 102, 105, 110, 101, 0, 94, 84] 14
        { code := -5, lhs := none, rhs := none } = none :=
  k_define_one_token [46, 109, 97, 99, 114, 111, 95, 100, 101, 102, 105, 110, 101, 0, 94, 84]
    14 14 { code := -5, lhs := none, rhs := none } (by decide) (by decide)
    (fun i hi => Or.inl (getD_zero_of_length_le _ i (le_trans (by decide) hi)))

/-- C12 (counterexample).  The record `.macro_define ^T` has the one argument
`^T`, a token that `encodekey` accepts (it encodes to the byte 0x14).  The
loop body of `initkey` finds the entry of `.macro_define`, whose handler is
`k_define`; `k_define` returns FALSE for this record, and `initkey` on the
file made of this record alone returns `INITKEY_ERROR` and passes back
NULL. -/
theorem k_define_rejects_one_token :
    encodekey [94, 84] = (1, [20])
    ∧ initkey_token key_codes.sample
        [46, 109, 97, 99, 114, 111, 95, 100, 101, 102, 105, 110, 101, 32, 94, 84]
      = some ({ code := key_codes.sample.K_MACRO_DEFINE,
                lhs := some [46, 109, 97, 99, 114, 111, 95, 100, 101, 102, 105, 110, 101],
                fn := some handler_t.k_define },
              [46, 109, 97, 99, 114, 111, 95, 100, 101, 102, 105, 110, 101, 0, 94, 84], 14)
    ∧ k_define [46, 109, 97, 99, 114, 111, 95, 100, 101, 102, 105, 110, 101, 0, 94, 84] 14
        { code := key_codes.sample.K_MACRO_DEFINE, lhs := none, rhs := none } = none
    ∧ initkey key_codes.sample curses_h.sample junk_sample
        (some [{ buf := some
                   [46, 109, 97, 99, 114, 111, 95, 100, 101, 102, 105, 110, 101, 32, 94, 84],
                 help := none }])
      = Res.ok (key_codes.sample.INITKEY_ERROR, none) := by
  refine ⟨by decide, by decide, by decide, by decide⟩

/-! ## The loader -/

theorem get?_of_lt (array : List keymap_t) (count : Nat) (hc : count < array.length) :
    ∃ slot, array.get? count = some slot := by
  cases hg : array.get? count with
  | none => rw [List.get?_eq_none] at hg; omega
  | some slot => exact ⟨slot, rfl⟩

theorem initkey_error1_ok (h : key_codes) (array : List keymap_t) (count : Nat) (error : Int)
    (hc : count < array.length) :
    initkey_error1 h array count error false = Res.ok (error, none) := by
  obtain ⟨slot, hs⟩ := get?_of_lt array count hc
  simp only [initkey_error1, hs, Bool.false_eq_true, if_false]

/-- One pass through the loop body of `initkey` with `array[count]` inside the
array and `K_MAX_CODES` at least 1: either `getblock` has returned
`GETBLOCK_ALLOC` and `initkey` returns `INITKEY_ALLOC` and passes back NULL;
or the handler has returned FALSE and `initkey` returns `INITKEY_ERROR` and
passes back NULL; or the loop goes on, with `array[count]` inside the
array. -/
theorem initkey_block_cases (h : key_codes) (c : curses_h) (junk : Nat → keymap_t)
    (b : block_t) (array : List keymap_t) (count : Nat) (hK : 1 ≤ h.K_MAX_CODES)
    (hc : count < array.length) :
    (b.buf = none
      ∧ initkey_block h c junk b array count = initkey_t.stop (Res.ok (h.INITKEY_ALLOC, none)))
    ∨ (b.buf ≠ none
      ∧ initkey_block h c junk b array count = initkey_t.stop (Res.ok (h.INITKEY_ERROR, none)))
    ∨ (b.buf ≠ none
      ∧ ∃ a n, initkey_block h c junk b array count = initkey_t.next a n ∧ n < a.length) := by
  obtain ⟨slot, hs⟩ := get?_of_lt array count hc
  cases hb : b.buf with
  | none =>
    left
    exact ⟨rfl, by simp only [initkey_block, hb, initkey_error1_ok h array count _ hc]⟩
  | some buf =>
    right
    cases ht : initkey_token h buf with
    | none =>
      right
      exact ⟨by simp, array, count, by simp only [initkey_block, hb, ht], hc⟩
    | some t =>
      obtain ⟨kp, mem, olds⟩ := t
      cases hr : (match kp.fn with
               | none => some { slot with code := kp.code }
               | some fn => k_call c b.help fn mem olds { slot with code := kp.code }) with
      | none =>
        left
        refine ⟨by simp, ?_⟩
        simp only [initkey_block, hb, ht, hs, hr]
        rw [initkey_error1_ok h _ count _ (by simpa using hc)]
      | some entry =>
        right
        refine ⟨by simp, ?_⟩
        simp only [initkey_block, hb, ht, hs, hr]
        by_cases hg : array.length ≤ count + 1
        · rw [if_pos hg]
          have hne : ¬ (array.length + h.K_MAX_CODES = 0) := by omega
          simp only [growkey, hne, if_false]
          exact ⟨_, _, rfl, by simp; omega⟩
        · rw [if_neg hg]
          exact ⟨_, _, rfl, by simp; omega⟩

/-- The loop of `initkey` on a file that holds a record whose handler returns
FALSE, entered with `array[count]` inside the array. -/
theorem initkey_loop_fails (h : key_codes) (c : curses_h) (junk : Nat → keymap_t)
    (post : List block_t) (r : block_t) (buf : List Nat) (kp : keyinit_t) (mem : List Nat)
    (olds : Nat) (fn : handler_t) (hK : 1 ≤ h.K_MAX_CODES)
    (hbuf : r.buf = some buf) (htok : initkey_token h buf = some (kp, mem, olds))
    (hfn : kp.fn = some fn) (hfail : ∀ slot, k_call c r.help fn mem olds slot = none) :
    ∀ (pre : List block_t) (array : List keymap_t) (count : Nat), count < array.length →
      ∃ status, initkey_loop h c junk (pre ++ r :: post) array count = Res.ok (status, none)
        ∧ (status = h.INITKEY_ERROR ∨ status = h.INITKEY_ALLOC)
        ∧ ((∀ b ∈ pre, b.buf ≠ none) → status = h.INITKEY_ERROR) := by
  intro pre
  induction pre with
  | nil =>
    intro array count hc
    obtain ⟨slot, hs⟩ := get?_of_lt array count hc
    refine ⟨h.INITKEY_ERROR, ?_, Or.inl rfl, fun _ => rfl⟩
    simp only [List.nil_append, initkey_loop, initkey_block, hbuf, htok, hs, hfn, hfail]
    rw [initkey_error1_ok h _ count _ (by simpa using hc)]
  | cons b pre ih =>
    intro array count hc
    simp only [List.cons_append, initkey_loop]
    rcases initkey_block_cases h c junk b array count hK hc with
      ⟨hb, hr⟩ | ⟨_, hr⟩ | ⟨_, a, n, hr, hn⟩
    · rw [hr]
      exact ⟨h.INITKEY_ALLOC, rfl, Or.inr rfl,
        fun hall => absurd hb (hall b (List.mem_cons_self _ _))⟩
    · rw [hr]
      exact ⟨h.INITKEY_ERROR, rfl, Or.inl rfl, fun _ => rfl⟩
    · rw [hr]
      obtain ⟨status, hs, hor, himp⟩ := ih a n hn
      exact ⟨status, hs, hor, fun hall => himp (fun b1 hb1 => hall b1 (List.mem_cons_of_mem _ hb1))⟩

/-- C13.  A failed load passes back no table.  For every file that `openrc`
opens and that holds, anywhere, a record that the loop body of `initkey`
recognises (it starts with `.` and its first token, made lower case, is a
name of `keywords`) and whose handler returns FALSE, with `K_MAX_CODES` at
least 1: `initkey` returns `INITKEY_ERROR` or `INITKEY_ALLOC` and passes back
NULL through `keys`; the value is `INITKEY_ERROR` whenever no call of
`getblock` before that record returns `GETBLOCK_ALLOC`, whatever the records
before it are and however many; and it differs from `INITKEY_OK` as the two
constants do. -/
theorem initkey_failed_load (h : key_codes) (c : curses_h) (junk : Nat → keymap_t)
    (pre post : List block_t) (r : block_t) (buf : List Nat) (kp : keyinit_t) (mem : List Nat)
    (olds : Nat) (fn : handler_t) (hK : 1 ≤ h.K_MAX_CODES)
    (hbuf : r.buf = some buf) (htok : initkey_token h buf = some (kp, mem, olds))
    (hfn : kp.fn = some fn) (hfail : ∀ slot, k_call c r.help fn mem olds slot = none) :
    ∃ status, initkey h c junk (some (pre ++ r :: post)) = Res.ok (status, none)
      ∧ (status = h.INITKEY_ERROR ∨ status = h.INITKEY_ALLOC)
      ∧ ((∀ b ∈ pre, b.buf ≠ none) → status = h.INITKEY_ERROR)
      ∧ (h.INITKEY_ERROR ≠ h.INITKEY_OK → h.INITKEY_ALLOC ≠ h.INITKEY_OK →
          status ≠ h.INITKEY_OK) := by
  have hne : ¬ (h.K_MAX_CODES = 0) := by omega
  obtain ⟨status, hs, hor, himp⟩ := initkey_loop_fails h c junk post r buf kp mem olds fn hK
    hbuf htok hfn hfail pre
    ([] ++ (List.range' ([] : List keymap_t).length
      (h.K_MAX_CODES - ([] : List keymap_t).length)).map junk) 0
    (by simp; omega)
  refine ⟨status, ?_, hor, himp, ?_⟩
  · simp only [initkey, growkey, hne, if_false]
    exact hs
  · intro h1 h2
    rcases hor with hor | hor <;> rw [hor] <;> assumption

/-- Witness of `initkey_failed_load`: the file of the records `.quit ^Q`,
`.cursor_up \999` and `.undo ^U`; the handler `k_default` of the second
returns FALSE, `\999` being above 255.  So it does for `.cursor_up` without an
argument. -/
theorem initkey_failed_load_witness :
    (∃ status, initkey key_codes.sample curses_h.sample junk_sample
        (some ([{ buf := some [46, 113, 117, 105, 116, 32, 94, 81], help := none }]
          ++ { buf := some [46, 99, 117, 114, 115, 111, 114, 95, 117, 112, 32, 92, 57, 57, 57],
               help := none }
          :: [{ buf := some [46, 117, 110, 100, 111, 32, 94, 85], help := none }]))
        = Res.ok (status, none)
      ∧ (status = key_codes.sample.INITKEY_ERROR ∨ status = key_codes.sample.INITKEY_ALLOC)
      ∧ ((∀ b ∈ [({ buf := some [46, 113, 117, 105, 116, 32, 94, 81], help := none } : block_t)],
            b.buf ≠ none) → status = key_codes.sample.INITKEY_ERROR)
      ∧ (key_codes.sample.INITKEY_ERROR ≠ key_codes.sample.INITKEY_OK →
          key_codes.sample.INITKEY_ALLOC ≠ key_codes.sample.INITKEY_OK →
          status ≠ key_codes.sample.INITKEY_OK))
    ∧ (∀ slot, k_default [46, 99, 117, 114, 115, 111, 114, 95, 117, 112] 10 slot = none) :=
  ⟨initkey_failed_load key_codes.sample curses_h.sample junk_sample
    [{ buf := some [46, 113, 117, 105, 116, 32, 94, 81], help := none }]
    [{ buf := some [46, 117, 110, 100, 111, 32, 94, 85], help := none }]
    { buf := some [46, 99, 117, 114, 115, 111, 114, 95, 117, 112, 32, 92, 57, 57, 57],
      help := none }
    [46, 99, 117, 114, 115, 111, 114, 95, 117, 112, 32, 92, 57, 57, 57]
    { code := key_codes.sample.K_CURSOR_UP,
      lhs := some [46, 99, 117, 114, 115, 111, 114, 95, 117, 112],
      fn := some handler_t.k_default }
    [46, 99, 117, 114, 115, 111, 114, 95, 117, 112, 0, 92, 57, 57, 57] 11
    handler_t.k_default (by decide) rfl (by decide) rfl (fun _ => rfl),
   fun _ => rfl⟩

/-! ## encodekey on memory and encodekey on a string -/

theorem headD_drop (mem : List Nat) (s : Nat) : (mem.drop s).headD 0 = mem.getD s 0 := by
  induction mem generalizing s with
  | nil => simp
  | cons x xs ih =>
    cases s with
    | zero => simp
    | succ k => simp [ih k]

theorem tail_drop (mem : List Nat) (s : Nat) : (mem.drop s).tail = mem.drop (s + 1) := by
  simp [List.tail_drop]

theorem drop_of_suffix (rem s : List Nat) (h : rem <:+ s) : s.drop (s.length - rem.length) = rem := by
  obtain ⟨t, rfl⟩ := h
  simp

/-- The value returned by the loop of `encodekey`, when it is not 0, is the
number of bytes written. -/
theorem encodekey_loop_ret (fuel : Nat) (str out : List Nat)
    (h : (encodekey_loop fuel str out).1 ≠ 0) :
    (encodekey_loop fuel str out).1 = (encodekey_loop fuel str out).2.length := by
  induction fuel generalizing str out with
  | zero => rfl
  | succ n ih =>
    rw [encodekey_loop_succ] at h ⊢
    split
    · rfl
    · rename_i h0
      rw [if_neg h0] at h
      split
      · rename_i h94
        rw [if_pos h94] at h
        split
        · rename_i h63
          rw [if_pos h63] at h
          exact ih _ _ h
        · rename_i h63
          rw [if_neg h63] at h
          split
          · rename_i hsc
            rw [hsc] at h
            exact absurd rfl h
          · rename_i i hsc
            rw [hsc] at h
            exact ih _ _ h
      · rename_i h94
        rw [if_neg h94] at h
        split
        · rename_i h92
          rw [if_pos h92] at h
          split
          · rename_i hdig
            rw [if_pos hdig] at h
            split
            · rename_i hbig
              rw [if_pos hbig] at h
              exact absurd rfl h
            · rename_i hbig
              rw [if_neg hbig] at h
              exact ih _ _ h
          · rename_i hdig
            rw [if_neg hdig] at h
            split
            · rename_i i hsc
              rw [hsc] at h
              exact ih _ _ h
            · rename_i hsc
              rw [hsc] at h
              exact ih _ _ h
        · rename_i h92
          rw [if_neg h92] at h
          exact ih _ _ h

/-- With the output pointer below the input pointer, the loop of `encodekey`
on memory returns what the loop on the string at `str` returns, and the bytes
it has stored from the start of the memory up to the output pointer are the
bytes written: no store reaches a byte still to be read. -/
theorem encodekey_mem_loop_eq :
    ∀ (fuel : Nat) (mem : List Nat) (str ptr : Nat), ptr < str → ptr ≤ mem.length →
      (encodekey_mem_loop 0 fuel mem str ptr).ret
          = (encodekey_loop fuel (mem.drop str) (mem.take ptr)).1
      ∧ (encodekey_mem_loop 0 fuel mem str ptr).mem.take
            (encodekey_loop fuel (mem.drop str) (mem.take ptr)).2.length
          = (encodekey_loop fuel (mem.drop str) (mem.take ptr)).2 := by
  intro fuel
  induction fuel with
  | zero =>
    intro mem str ptr _ hp
    simp only [encodekey_mem_loop, encodekey_loop, Nat.sub_zero, List.length_take,
      Nat.min_eq_left hp, and_self]
  | succ n ih =>
    intro mem str ptr hlt hp
    have hlen : (mem.take ptr).length = ptr := by
      rw [List.length_take]; exact Nat.min_eq_left hp
    rw [encodekey_loop_succ]
    simp only [encodekey_mem_loop, headD_drop, tail_drop, Nat.sub_zero]
    by_cases hc0 : mem.getD str 0 = 0
    · rw [if_pos hc0, if_pos hc0]
      exact ⟨hlen.symm, by rw [hlen, take_set_self]⟩
    rw [if_neg hc0, if_neg hc0]
    have hin : str < mem.length := by
      by_contra hge
      exact hc0 (getD_zero_of_length_le _ _ (by omega))
    have hstep : ∀ (m1 : List Nat) (v k : Nat), m1.length = mem.length →
        m1.take ptr = mem.take ptr → m1.drop (str + (k + 1)) = mem.drop (str + (k + 1)) →
        (encodekey_mem_loop 0 n (m1.set ptr v) (str + (k + 1)) (ptr + 1)).ret
            = (encodekey_loop n (mem.drop (str + (k + 1))) (mem.take ptr ++ [v])).1
        ∧ (encodekey_mem_loop 0 n (m1.set ptr v) (str + (k + 1)) (ptr + 1)).mem.take
              (encodekey_loop n (mem.drop (str + (k + 1))) (mem.take ptr ++ [v])).2.length
            = (encodekey_loop n (mem.drop (str + (k + 1))) (mem.take ptr ++ [v])).2 := by
      intro m1 v k hl ht hd
      have := ih (m1.set ptr v) (str + (k + 1)) (ptr + 1) (by omega)
        (by rw [List.length_set]; omega)
      rwa [List.drop_set_of_lt _ _ (by omega), hd, take_set_succ _ _ _ (by omega), ht] at this
    by_cases hc94 : mem.getD str 0 = 94
    · rw [if_pos hc94, if_pos hc94]
      by_cases hd63 : mem.getD (str + 1) 0 = 63
      · rw [if_pos hd63, if_pos hd63]
        exact hstep mem 127 1 rfl rfl rfl
      · rw [if_neg hd63, if_neg hd63]
        have hm1 : ∀ m1, m1 = (if isupper (mem.getD (str + 1) 0) = true
              then mem.set (str + 1) (tolower (mem.getD (str + 1) 0)) else mem) →
            m1.length = mem.length ∧ m1.take ptr = mem.take ptr
              ∧ m1.drop (str + (1 + 1)) = mem.drop (str + (1 + 1)) := by
          intro m1 hm
          subst hm
          split
          · exact ⟨List.length_set _ _ _, List.take_set_of_lt _ _ (by omega),
              List.drop_set_of_lt _ _ (by omega)⟩
          · exact ⟨rfl, rfl, rfl⟩
        obtain ⟨h1, h2, h3⟩ := hm1 _ rfl
        cases hsc : strchr control (tolower (mem.getD (str + 1) 0)) with
        | none =>
          simp only []
          rw [hlen, h2]
          exact ⟨trivial, rfl⟩
        | some i =>
          simp only []
          exact hstep _ i 1 h1 h2 h3
    rw [if_neg hc94, if_neg hc94]
    by_cases hc92 : mem.getD str 0 = 92
    · rw [if_pos hc92, if_pos hc92]
      by_cases hdig : isdigit (mem.getD (str + 1) 0) = true
      · rw [if_pos hdig, if_pos hdig]
        by_cases hbig : 255 < (strtol (mem.drop (str + 1))).1
        · rw [if_pos hbig, if_pos hbig]
          exact ⟨rfl, by rw [hlen]⟩
        · rw [if_neg hbig, if_neg hbig]
          have hin1 : str + 1 < mem.length := by
            by_contra hge
            rw [getD_zero_of_length_le mem (str + 1) (by omega)] at hdig
            exact absurd hdig (by decide)
          have hcons := strtol_consumes (mem.getD (str + 1) 0) (mem.drop (str + 1 + 1)) hdig
          rw [← drop_eq_getD_cons mem (str + 1) hin1] at hcons
          have hl1 : (mem.drop (str + 1)).length = (mem.drop (str + 1 + 1)).length + 1 := by
            simp only [List.length_drop]; omega
          have hsuf := drop_of_suffix _ _ (strtol_suffix (mem.drop (str + 1)))
          rw [List.drop_drop] at hsuf
          obtain ⟨k, hk⟩ : ∃ k, (mem.drop (str + 1)).length
              - (strtol (mem.drop (str + 1))).2.length = k + 1 :=
            ⟨(mem.drop (str + 1)).length - (strtol (mem.drop (str + 1))).2.length - 1,
              by omega⟩
          rw [hk] at hsuf ⊢
          have hdrop : mem.drop (str + (k + 1 + 1)) = (strtol (mem.drop (str + 1))).2 := by
            rw [← hsuf]; congr 1; omega
          have := hstep mem ((strtol (mem.drop (str + 1))).1 % 256) (k + 1) rfl rfl rfl
          rw [hdrop] at this
          rw [show str + 1 + (k + 1) = str + (k + 1 + 1) from by omega]
          exact this
      · rw [if_neg hdig, if_neg hdig]
        cases hsc : strchr escmap (mem.getD (str + 1) 0) with
        | some i => simp only []; exact hstep mem _ 1 rfl rfl rfl
        | none => simp only []; exact hstep mem _ 1 rfl rfl rfl
    rw [if_neg hc92, if_neg hc92]
    exact hstep mem _ 0 rfl rfl rfl

/-- The call `encodekey(tok, buf)` of a handler, the token being behind the
start of the record: it returns what `encodekey` returns on the string at
`tok`, and when that is not 0, the first bytes of the record, as many as the
value returned, are the bytes written. -/
theorem encodekey_mem_eq (mem : List Nat) (tok : Nat) (hpos : 0 < tok) :
    (encodekey_mem mem tok 0).ret = (encodekey (mem.drop tok)).1
    ∧ ((encodekey (mem.drop tok)).1 ≠ 0 →
        (encodekey_mem mem tok 0).mem.take (encodekey_mem mem tok 0).ret
          = (encodekey (mem.drop tok)).2) := by
  obtain ⟨h1, h2⟩ := encodekey_mem_loop_eq (mem.length + 1) mem tok 0 hpos (Nat.zero_le _)
  have hf : encodekey_loop (mem.length + 1) (mem.drop tok) (mem.take 0)
      = encodekey (mem.drop tok) := by
    have := encodekey_fuel (mem.drop tok) (mem.length - (mem.drop tok).length)
    rw [List.take_zero, ← this]
    congr 1
    simp only [List.length_drop]
    omega
  rw [hf] at h1 h2
  refine ⟨h1, fun hne => ?_⟩
  have hr := encodekey_loop_ret _ _ _ (by rw [hf]; exact hne)
  rw [hf] at hr
  rw [encodekey_mem, h1, hr]
  exact h2

/-- What `k_default` assigns when it returns TRUE: `lhs` becomes the bytes that
`encodekey` writes for the string at the token that `strtok` finds; the code
and `rhs` are left as they are. -/
theorem k_default_some (mem : List Nat) (olds : Nat) (kp entry : keymap_t) (hpos : 0 < olds)
    (h : k_default mem olds kp = some entry) :
    ∃ tok, (strtok mem olds).tok = some tok
      ∧ (encodekey ((strtok mem olds).mem.drop tok)).1 ≠ 0
      ∧ entry = { kp with lhs := some (encodekey ((strtok mem olds).mem.drop tok)).2 } := by
  unfold k_default at h
  cases ht : (strtok mem olds).tok with
  | none => simp [ht] at h
  | some tok =>
    obtain ⟨hle, _, _⟩ := strtok_some mem olds tok ht
    obtain ⟨h1, h2⟩ := encodekey_mem_eq (strtok mem olds).mem tok (by omega)
    simp only [ht] at h
    by_cases h0 : (encodekey_mem (strtok mem olds).mem tok 0).ret = 0
    · simp [h0] at h
    · rw [if_neg h0, Option.some.injEq] at h
      have hne : (encodekey ((strtok mem olds).mem.drop tok)).1 ≠ 0 := by rw [← h1]; exact h0
      refine ⟨tok, rfl, hne, ?_⟩
      rw [← h, h2 hne]

/-- The code that a handler leaves when it returns TRUE: the first byte of the
record for `k_itself`, and the code that the slot had for every other
handler. -/
theorem k_call_code (c : curses_h) (help : Option (List Nat)) (fn : handler_t)
    (mem : List Nat) (olds : Nat) (kp entry : keymap_t)
    (h : k_call c help fn mem olds kp = some entry) :
    entry.code = if fn = handler_t.k_itself then (mem.getD 0 0 : Int) else kp.code := by
  cases fn with
  | k_default =>
    simp only [k_call, k_default] at h
    split at h
    · simp at h
    · split at h
      · simp at h
      · simp only [Option.some.injEq] at h
        rw [← h]; simp
  | k_define =>
    simp only [k_call, k_define, k_token] at h
    split at h
    · simp only [Option.some.injEq] at h
      rw [← h]; simp
    · split at h
      · split at h
        · simp at h
        · split at h
          · simp only [Option.some.injEq] at h
            rw [← h]; simp
          · simp at h
      · simp at h
  | k_erase =>
    simp only [k_call, k_erase, Option.some.injEq] at h
    rw [← h]; simp
  | k_help =>
    simp only [k_call, k_help] at h
    split at h
    · simp only [Option.some.injEq] at h
      rw [← h]; simp
    · simp at h
  | k_itself =>
    simp only [k_call, k_itself, Option.some.injEq] at h
    rw [← h]; simp
  | k_kill =>
    simp only [k_call, k_kill, Option.some.injEq] at h
    rw [← h]; simp
  | k_token =>
    simp only [k_call, k_token, Option.some.injEq] at h
    rw [← h]; simp

/-! ## The loader: which records are recognised -/

theorem strlwr_token (buf : List Nat) :
    cstring (strlwr_string
      (if buf.getD (strcspn_blank buf) 0 = 0 then buf else buf.set (strcspn_blank buf) 0))
      = directive_name buf := by
  induction buf with
  | nil => simp [strcspn_blank, strlwr_string, cstring, directive_name]
  | cons c s ih =>
    by_cases hc : c = 0 ∨ c ∈ blank
    · have hd : directive_name (c :: s) = [] := by
        simp only [directive_name, List.map_eq_nil_iff]
        rw [List.takeWhile_cons_of_neg]
        simp only [decide_eq_true_eq, not_and, not_not]
        intro h0
        exact hc.resolve_left h0
      rw [hd]
      simp only [strcspn_blank, if_pos hc, List.getD_cons_zero, List.set_cons_zero]
      by_cases h0 : c = 0
      · rw [if_pos h0, h0, strlwr_string, if_pos rfl, cstring_cons_zero]
      · rw [if_neg h0, strlwr_string, if_pos rfl, cstring_cons_zero]
    · have hc0 : c ≠ 0 := fun h0 => hc (Or.inl h0)
      have hd : directive_name (c :: s) = tolower c :: directive_name s := by
        simp only [directive_name]
        rw [List.takeWhile_cons_of_pos, List.map_cons]
        simp only [decide_eq_true_eq]
        exact ⟨hc0, fun hb => hc (Or.inr hb)⟩
      rw [hd, ← ih]
      simp only [strcspn_blank, if_neg hc, List.getD_cons_succ, List.set_cons_succ]
      split
      · rw [strlwr_string, if_neg hc0, cstring_cons_ne_zero _ _ (tolower_ne_zero c hc0)]
      · rw [strlwr_string, if_neg hc0, cstring_cons_ne_zero _ _ (tolower_ne_zero c hc0)]

/-- The first `strtok` of `initkey` on a record that starts with `.`: the
token is the start of the record, and `strlwr` leaves there the first token of
the record, made lower case. -/
theorem strtok_first (buf : List Nat) (h46 : buf.getD 0 0 = 46) :
    (strtok buf 0).tok = some 0
    ∧ cstring ((strlwr (strtok buf 0).mem 0).drop 0) = directive_name buf
    ∧ (strlwr (strtok buf 0).mem 0).getD 0 0 = 46
    ∧ 0 < (strtok buf 0).save := by
  obtain ⟨s, rfl⟩ : ∃ s, buf = 46 :: s := by
    cases buf with
    | nil => simp at h46
    | cons c s => simp only [List.getD_cons_zero] at h46; exact ⟨s, by rw [h46]⟩
  have hsp : strspn_blank (46 :: s) = 0 := by
    rw [strspn_blank, if_neg (by decide)]
  have hcs : strcspn_blank (46 :: s) = strcspn_blank s + 1 := by
    rw [strcspn_blank, if_neg (by decide)]
  have hname := strlwr_token (46 :: s)
  simp only [strtok, List.drop_zero, hsp, Nat.add_zero, Nat.zero_add, List.getD_cons_zero,
    show ¬ ((46 : Nat) = 0) from by decide, if_false, strlwr, List.take_zero, List.nil_append]
  by_cases he : (46 :: s).getD (strcspn_blank (46 :: s)) 0 = 0
  · rw [if_pos he] at hname ⊢
    refine ⟨rfl, hname, ?_, by simp only []; omega⟩
    simp only [strlwr_string, show ¬ ((46 : Nat) = 0) from by decide, if_false,
      List.getD_cons_zero]
    decide
  · rw [if_neg he] at hname ⊢
    refine ⟨rfl, hname, ?_, by simp only []; omega⟩
    simp only [hcs, List.set_cons_succ, strlwr_string, show ¬ ((46 : Nat) = 0) from by decide,
      if_false, List.getD_cons_zero]
    decide

theorem findikey_some (h : key_h) (T : List keyinit_t) (token : List Nat) (kp : keyinit_t)
    (hf : findikey h T token = some kp) : kp ∈ T ∧ kp.code ≠ h.K_ERROR := by
  induction T with
  | nil => simp [findikey] at hf
  | cons k T ih =>
    rw [findikey] at hf
    by_cases hk : k.code = h.K_ERROR
    · simp [hk] at hf
    · rw [if_neg hk] at hf
      cases hl : k.lhs with
      | none =>
        simp only [hl] at hf
        exact ⟨List.mem_cons_of_mem _ (ih hf).1, (ih hf).2⟩
      | some l =>
        simp only [hl] at hf
        split at hf
        · simp only [Option.some.injEq] at hf
          rw [← hf]; exact ⟨List.mem_cons_self _ _, hk⟩
        · exact ⟨List.mem_cons_of_mem _ (ih hf).1, (ih hf).2⟩

/-- On a table whose entries before the last have codes other than `K_ERROR`
and NUL-free names, and whose last entry has the code `K_ERROR`, `findikey`
returns the first entry whose name is the string `token`. -/
theorem findikey_eq_find (h : key_h) (T : List keyinit_t) (last : keyinit_t)
    (token : List Nat) (hl : ∀ kp ∈ T, kp.code ≠ h.K_ERROR)
    (hn : ∀ kp ∈ T, kp.lhs.map cstring = kp.lhs) (hlast : last.code = h.K_ERROR) :
    findikey h (T ++ [last]) token
      = T.find? (fun kp => decide (kp.lhs = some (cstring token))) := by
  induction T with
  | nil => simp [findikey, hlast]
  | cons k T ih =>
    have ih1 := ih (fun kp hkp => hl kp (List.mem_cons_of_mem _ hkp))
      (fun kp hkp => hn kp (List.mem_cons_of_mem _ hkp))
    rw [List.cons_append, findikey, if_neg (hl k (List.mem_cons_self _ _)), List.find?_cons]
    have hnk := hn k (List.mem_cons_self _ _)
    cases hk : k.lhs with
    | none => simp only [hk, ih1]; simp
    | some l =>
      rw [hk] at hnk
      simp only [Option.map_some', Option.some.injEq] at hnk
      simp only [hk, ih1, hnk, Option.some.injEq]
      by_cases heq : cstring token = l
      · simp [heq]
      · have : ¬ (l = cstring token) := fun h1 => heq h1.symm
        simp [heq, this]

theorem keywords_names (h : key_codes) :
    ∀ kp ∈ (keywords h).dropLast, kp.lhs.map cstring = kp.lhs := by
  have hN : ∀ x ∈ ((keywords h).dropLast.map (fun kp => kp.lhs)), x.map cstring = x := by
    simp only [keywords, List.dropLast, List.map]
    decide
  intro kp hkp
  exact hN kp.lhs (List.mem_map_of_mem _ hkp)

theorem keywords_last (h : key_codes) :
    keywords h = (keywords h).dropLast ++ [{ code := h.K_ERROR, lhs := none, fn := none }] := by
  rfl

/-- The records that the loop body of `initkey` recognises are those that the
specification names, and the entry of `keywords` found is the one it names: with the
codes of `keywords` other than `K_ERROR`, the record starts with `.` and the
entry is the first one whose name is the first token of the record, made lower
case. -/
theorem initkey_token_directive (h : key_codes)
    (hlive : ∀ kp ∈ (keywords h).dropLast, kp.code ≠ h.K_ERROR) (buf : List Nat) :
    (initkey_token h buf).map (fun t => t.1) = directive h buf := by
  by_cases h46 : buf.getD 0 0 = 46
  · obtain ⟨ht, hname, _, _⟩ := strtok_first buf h46
    have hfind := findikey_eq_find h.tokey_h (keywords h).dropLast
      { code := h.K_ERROR, lhs := none, fn := none }
      ((strlwr (strtok buf 0).mem 0).drop 0) hlive (keywords_names h) rfl
    rw [← keywords_last, hname] at hfind
    simp only [initkey_token, directive, h46, ne_eq, not_true_eq_false, if_false, if_true, ht,
      hfind]
    cases (keywords h).dropLast.find? (fun kp => decide (kp.lhs = some (directive_name buf)))
      <;> rfl
  · simp only [initkey_token, directive, h46, ne_eq, not_false_eq_true, if_true, if_false,
      Option.map_none']

/-- What the loop body of `initkey` hands to a handler: a record that still
starts with `.`, a pointer kept by `strtok` that is behind the start of the
record, and an entry of `keywords` whose code is not `K_ERROR`. -/
theorem initkey_token_some (h : key_codes) (buf : List Nat) (kp : keyinit_t) (mem : List Nat)
    (olds : Nat) (ht : initkey_token h buf = some (kp, mem, olds)) :
    mem.getD 0 0 = 46 ∧ 0 < olds ∧ kp.code ≠ h.K_ERROR ∧ kp ∈ keywords h := by
  by_cases h46 : buf.getD 0 0 = 46
  · obtain ⟨htok, _, hdot, hsave⟩ := strtok_first buf h46
    simp only [initkey_token, h46, ne_eq, not_true_eq_false, if_false, htok] at ht
    cases hf : findikey h.tokey_h (keywords h) ((strlwr (strtok buf 0).mem 0).drop 0) with
    | none =>
      rw [List.drop_zero] at hf
      simp [hf] at ht
    | some k =>
      simp only [hf, Option.some.injEq, Prod.mk.injEq] at ht
      obtain ⟨hk, hm, ho⟩ := ht
      have := findikey_some _ _ _ _ hf
      rw [← hk, ← hm, ← ho]
      exact ⟨hdot, hsave, this.2, this.1⟩
  · unfold initkey_token at ht
    rw [if_pos h46] at ht
    exact absurd ht (by simp)

/-! ## The loader: a load that succeeds -/

/-- Whether a handler returns TRUE does not depend on what the slot holds. -/
theorem k_call_isSome (c : curses_h) (help : Option (List Nat)) (fn : handler_t)
    (mem : List Nat) (olds : Nat) (s1 s2 : keymap_t) :
    (k_call c help fn mem olds s1).isSome = (k_call c help fn mem olds s2).isSome := by
  cases fn with
  | k_default =>
    simp only [k_call, k_default]
    split
    · rfl
    · split <;> rfl
  | k_define =>
    simp only [k_call, k_define, k_token]
    split
    · rfl
    · split
      · split
        · rfl
        · split <;> rfl
      · rfl
  | k_erase => rfl
  | k_help =>
    simp only [k_call, k_help]
    split <;> rfl
  | k_itself => rfl
  | k_kill => rfl
  | k_token => rfl

theorem set_take_append (array : List keymap_t) (count : Nat) (entry : keymap_t)
    (extra : List keymap_t) (hc : count < array.length) :
    (array.set count entry ++ extra).take (count + 1) = array.take count ++ [entry] := by
  rw [List.set_eq_take_append_cons_drop, if_pos hc, List.append_assoc, List.take_append_eq_append_take]
  have hl : (array.take count).length = count := by
    rw [List.length_take]; exact Nat.min_eq_left (by omega)
  rw [List.take_of_length_le (by omega), hl]
  simp

/-- One pass through the loop body of `initkey` for a recognised record whose
handler returns TRUE: the entry is stored at `array[count]`, it is as the
specification says, its code is not `K_ERROR`, and the loop goes on with `count + 1`
and `array[count + 1]` inside the array, which is grown when needed with the
entries before kept as they are. -/
theorem initkey_block_entry (h : key_codes) (c : curses_h) (junk : Nat → keymap_t)
    (b : block_t) (array : List keymap_t) (count : Nat) (buf : List Nat) (kp : keyinit_t)
    (mem : List Nat) (olds : Nat) (hK : 1 ≤ h.K_MAX_CODES) (hdot : h.K_ERROR ≠ 46)
    (hc : count < array.length) (hb : b.buf = some buf)
    (ht : initkey_token h buf = some (kp, mem, olds))
    (hs : handler_succeeds h c b = true) :
    ∃ entry a, initkey_block h c junk b array count = initkey_t.next a (count + 1)
      ∧ count + 1 < a.length ∧ a.take (count + 1) = array.take count ++ [entry]
      ∧ entry_for (kp, mem, olds) entry ∧ entry.code ≠ h.K_ERROR := by
  obtain ⟨slot, hslot⟩ := get?_of_lt array count hc
  obtain ⟨h46, hpos, hkp, _⟩ := initkey_token_some h buf kp mem olds ht
  have hentry : ∃ entry, (match kp.fn with
               | none => some { slot with code := kp.code }
               | some fn => k_call c b.help fn mem olds { slot with code := kp.code })
             = some entry ∧ entry_for (kp, mem, olds) entry ∧ entry.code ≠ h.K_ERROR := by
    cases hfn : kp.fn with
    | none =>
      refine ⟨_, rfl, ⟨?_, ?_⟩, hkp⟩
      · simp [hfn]
      · intro hd; simp [hfn] at hd
    | some fn =>
      simp only [handler_succeeds, hb, ht, hfn] at hs
      rw [k_call_isSome c b.help fn mem olds _ { slot with code := kp.code }] at hs
      obtain ⟨entry, he⟩ := Option.isSome_iff_exists.mp hs
      have hcode := k_call_code c b.help fn mem olds _ entry he
      rw [h46] at hcode
      refine ⟨entry, he, ⟨?_, ?_⟩, ?_⟩
      · simp only [hfn, Option.some.injEq]
        rw [hcode]
        split <;> simp
      · intro hd
        simp only [hfn, Option.some.injEq] at hd
        subst hd
        obtain ⟨tok, h1, _, h3⟩ := k_default_some mem olds _ entry hpos he
        exact ⟨tok, h1, by rw [h3]⟩
      · rw [hcode]
        split
        · intro h1; exact hdot (by rw [← h1]; rfl)
        · exact hkp
  obtain ⟨entry, he, hfor, hne⟩ := hentry
  simp only [initkey_block, hb, ht, hslot, he]
  by_cases hg : array.length ≤ count + 1
  · rw [if_pos hg]
    have hne0 : ¬ (array.length + h.K_MAX_CODES = 0) := by omega
    simp only [growkey, hne0, if_false]
    refine ⟨entry, _, rfl, by simp; omega, set_take_append array count entry _ hc, hfor, hne⟩
  · rw [if_neg hg]
    have := set_take_append array count entry [] hc
    rw [List.append_nil] at this
    exact ⟨entry, _, rfl, by simp; omega, this, hfor, hne⟩

/-- The loop of `initkey` on a file that `getblock` reads without
`GETBLOCK_ALLOC` and in which every handler returns TRUE, entered with
`array[count]` inside the array: `initkey` returns `INITKEY_OK`, and the table
is the `count` entries it had, then one entry for each recognised record, in
the order of the records, then the entry with code `K_ERROR`. -/
theorem initkey_loop_loads (h : key_codes) (c : curses_h) (junk : Nat → keymap_t)
    (hK : 1 ≤ h.K_MAX_CODES) (hdot : h.K_ERROR ≠ 46) :
    ∀ (blocks : List block_t) (array : List keymap_t) (count : Nat), count < array.length →
      (∀ b ∈ blocks, b.buf ≠ none) → (∀ b ∈ blocks, handler_succeeds h c b = true) →
      ∃ (entries rest : List keymap_t) (slot : keymap_t),
        initkey_loop h c junk blocks array count
          = Res.ok (h.INITKEY_OK,
              some (array.take count ++ entries ++ { slot with code := h.K_ERROR } :: rest))
        ∧ List.Forall₂ entry_for (blocks.filterMap (fun b => b.buf.bind (initkey_token h)))
            entries
        ∧ ∀ e ∈ entries, e.code ≠ h.K_ERROR := by
  intro blocks
  induction blocks with
  | nil =>
    intro array count hc _ _
    obtain ⟨slot, hslot⟩ := get?_of_lt array count hc
    refine ⟨[], array.drop (count + 1), slot, ?_, List.Forall₂.nil, by simp⟩
    simp only [initkey_loop, initkey_error1, hslot, if_true, List.append_nil]
    rw [List.set_eq_take_append_cons_drop, if_pos hc]
  | cons b blocks ih =>
    intro array count hc hread hsucc
    have hread1 : ∀ b1 ∈ blocks, b1.buf ≠ none :=
      fun b1 hb1 => hread b1 (List.mem_cons_of_mem _ hb1)
    have hsucc1 : ∀ b1 ∈ blocks, handler_succeeds h c b1 = true :=
      fun b1 hb1 => hsucc b1 (List.mem_cons_of_mem _ hb1)
    cases hb : b.buf with
    | none => exact absurd hb (hread b (List.mem_cons_self _ _))
    | some buf =>
      cases ht : initkey_token h buf with
      | none =>
        obtain ⟨entries, rest, slot, hr, hf, hne⟩ := ih array count hc hread1 hsucc1
        refine ⟨entries, rest, slot, ?_, ?_, hne⟩
        · simp only [initkey_loop, initkey_block, hb, ht]
          exact hr
        · rw [List.filterMap_cons_none (by rw [hb]; exact ht)]
          exact hf
      | some r =>
        obtain ⟨kp, mem, olds⟩ := r
        obtain ⟨entry, a, hnext, hlen, htake, hfor, hcode⟩ :=
          initkey_block_entry h c junk b array count buf kp mem olds hK hdot hc hb ht
            (hsucc b (List.mem_cons_self _ _))
        obtain ⟨entries, rest, slot, hr, hf, hne⟩ := ih a (count + 1) hlen hread1 hsucc1
        refine ⟨entry :: entries, rest, slot, ?_, ?_, ?_⟩
        · simp only [initkey_loop, hnext]
          rw [hr, htake]
          simp
        · rw [List.filterMap_cons_some (by rw [hb]; exact ht)]
          exact List.Forall₂.cons hfor hf
        · intro e he
          rcases List.mem_cons.mp he with he | he
          · rw [he]; exact hcode
          · exact hne e he

/-- C14.  A load that succeeds.  For every file that `openrc` opens and
`getblock` reads without `GETBLOCK_ALLOC`, in which the handler of every
recognised record returns TRUE, with `K_MAX_CODES` at least 1 and `K_ERROR`
neither the code of `.` nor a code of `keywords`: `initkey` returns
`INITKEY_OK` and passes back a table that holds an entry with code `K_ERROR`,
and whose entries before the first such entry stand, one for one and in the
order of the file, for the recognised records.  Each of them has the code of
the entry of `keywords` for its record, or the code of `.` when the handler is
`k_itself`, and when the handler is `k_default` its `lhs` is the bytes that
`encodekey` writes for the argument of the record.  The recognised records
are those that start with `.` and whose first token, made lower case, is a
name of `keywords`; every other record has no entry.  The number of records
is not bounded: the table is grown by `K_MAX_CODES` elements when it is
full. -/
theorem initkey_loads_table (h : key_codes) (c : curses_h) (junk : Nat → keymap_t)
    (blocks : List block_t) (hK : 1 ≤ h.K_MAX_CODES) (hdot : h.K_ERROR ≠ 46)
    (hlive : ∀ kp ∈ (keywords h).dropLast, kp.code ≠ h.K_ERROR)
    (hread : ∀ b ∈ blocks, b.buf ≠ none)
    (hsucc : ∀ b ∈ blocks, handler_succeeds h c b = true) :
    ∃ table, initkey h c junk (some blocks) = Res.ok (h.INITKEY_OK, some table)
      ∧ (table.takeWhile (fun e => decide (e.code ≠ h.K_ERROR))).length < table.length
      ∧ List.Forall₂ entry_for (blocks.filterMap (fun b => b.buf.bind (initkey_token h)))
          (table.takeWhile (fun e => decide (e.code ≠ h.K_ERROR)))
      ∧ (∀ buf, (initkey_token h buf).map (fun t => t.1) = directive h buf) := by
  have hne : ¬ (h.K_MAX_CODES = 0) := by omega
  obtain ⟨entries, rest, slot, hr, hf, hcodes⟩ := initkey_loop_loads h c junk hK hdot blocks
    ([] ++ (List.range' ([] : List keymap_t).length
      (h.K_MAX_CODES - ([] : List keymap_t).length)).map junk) 0
    (by simp; omega) hread hsucc
  have htw : (entries ++ { slot with code := h.K_ERROR } :: rest).takeWhile
      (fun e => decide (e.code ≠ h.K_ERROR)) = entries := by
    rw [List.takeWhile_append_of_pos (fun e he => by simpa using hcodes e he),
      List.takeWhile_cons_of_neg (by simp), List.append_nil]
  refine ⟨entries ++ { slot with code := h.K_ERROR } :: rest, ?_, ?_, ?_,
    initkey_token_directive h hlive⟩
  · simp only [initkey, growkey, hne, if_false]
    rw [hr]
    simp
  · rw [htw]; simp
  · rw [htw]; exact hf

/-- Witness of `initkey_loads_table`: the file of the records `# keys`,
`.quit ^Q`, `.Cursor_Up \033[A`, `.itself` and `.unknown x`, with
`K_MAX_CODES` 2: the table passed back holds the three entries of `.quit`,
`.cursor_up` and `.itself` and the entry with code `K_ERROR`, in an array
grown once. -/
theorem initkey_loads_table_witness :
    (∃ table, initkey key_codes.sample curses_h.sample junk_sample
        (some [{ buf := some [35, 32, 107, 101, 121, 115], help := none },
         { buf := some [46, 113, 117, 105, 116, 32, 94, 81], help := none },
         { buf := some [46, 67, 117, 114, 115, 111, 114, 95, 85, 112, 32, 92, 48, 51, 51, 91, 65], help := none },
         { buf := some [46, 105, 116, 115, 101, 108, 102], help := none },
         { buf := some [46, 117, 110, 107, 110, 111, 119, 110, 32, 120], help := none }])
        = Res.ok (key_codes.sample.INITKEY_OK, some table)
      ∧ (table.takeWhile (fun e => decide (e.code ≠ key_codes.sample.K_ERROR))).length
          < table.length
      ∧ List.Forall₂ entry_for
          (([{ buf := some [35, 32, 107, 101, 121, 115], help := none },
         { buf := some [46, 113, 117, 105, 116, 32, 94, 81], help := none },
         { buf := some [46, 67, 117, 114, 115, 111, 114, 95, 85, 112, 32, 92, 48, 51, 51, 91, 65], help := none },
         { buf := some [46, 105, 116, 115, 101, 108, 102], help := none },
         { buf := some [46, 117, 110, 107, 110, 111, 119, 110, 32, 120], help := none }] : List block_t).filterMap
            (fun b => b.buf.bind (initkey_token key_codes.sample)))
          (table.takeWhile (fun e => decide (e.code ≠ key_codes.sample.K_ERROR)))
      ∧ (∀ buf, (initkey_token key_codes.sample buf).map (fun t => t.1)
          = directive key_codes.sample buf))
    ∧ initkey key_codes.sample curses_h.sample junk_sample
        (some [{ buf := some [35, 32, 107, 101, 121, 115], help := none },
         { buf := some [46, 113, 117, 105, 116, 32, 94, 81], help := none },
         { buf := some [46, 67, 117, 114, 115, 111, 114, 95, 85, 112, 32, 92, 48, 51, 51, 91, 65], help := none },
         { buf := some [46, 105, 116, 115, 101, 108, 102], help := none },
         { buf := some [46, 117, 110, 107, 110, 111, 119, 110, 32, 120], help := none }])
      = Res.ok (0,
          some [{ code := key_codes.sample.K_QUIT, lhs := some [17], rhs := none },
                { code := key_codes.sample.K_CURSOR_UP, lhs := some [27, 91, 65], rhs := none },
                { code := 46, lhs := some [46, 0], rhs := none },
                { code := key_codes.sample.K_ERROR, lhs := none, rhs := none }]) :=
  ⟨initkey_loads_table key_codes.sample curses_h.sample junk_sample
    [{ buf := some [35, 32, 107, 101, 121, 115], help := none },
         { buf := some [46, 113, 117, 105, 116, 32, 94, 81], help := none },
         { buf := some [46, 67, 117, 114, 115, 111, 114, 95, 85, 112, 32, 92, 48, 51, 51, 91, 65], help := none },
         { buf := some [46, 105, 116, 115, 101, 108, 102], help := none },
         { buf := some [46, 117, 110, 107, 110, 111, 119, 110, 32, 120], help := none }]
    (by decide) (by decide) (by decide) (by decide) (by decide), by decide⟩

/-! ## The loops never use up the iterations granted -/

theorem encodekey_mem_loop_succ (buf fuel : Nat) (mem : List Nat) (str ptr : Nat) :
    encodekey_mem_loop buf (fuel + 1) mem str ptr =
      if mem.getD str 0 = 0 then { ret := ptr - buf, mem := mem.set ptr 0, str := str }
      else if mem.getD str 0 = 94 then
        if mem.getD (str + 1) 0 = 63 then
          encodekey_mem_loop buf fuel (mem.set ptr 127) (str + 2) (ptr + 1)
        else
          match strchr control (tolower (mem.getD (str + 1) 0)) with
          | none =>
            { ret := 0,
              mem := if isupper (mem.getD (str + 1) 0) = true
                then mem.set (str + 1) (tolower (mem.getD (str + 1) 0)) else mem,
              str := str + 1 }
          | some i =>
            encodekey_mem_loop buf fuel
              ((if isupper (mem.getD (str + 1) 0) = true
                then mem.set (str + 1) (tolower (mem.getD (str + 1) 0)) else mem).set ptr i)
              (str + 2) (ptr + 1)
      else if mem.getD str 0 = 92 then
        if isdigit (mem.getD (str + 1) 0) = true then
          if 255 < (strtol (mem.drop (str + 1))).1 then
            { ret := 0, mem := mem,
              str := str + 1
                + ((mem.drop (str + 1)).length - (strtol (mem.drop (str + 1))).2.length) }
          else
            encodekey_mem_loop buf fuel (mem.set ptr ((strtol (mem.drop (str + 1))).1 % 256))
              (str + 1
                + ((mem.drop (str + 1)).length - (strtol (mem.drop (str + 1))).2.length))
              (ptr + 1)
        else
          match strchr escmap (mem.getD (str + 1) 0) with
          | some i =>
            encodekey_mem_loop buf fuel (mem.set ptr (escvalue.getD i 0)) (str + 2) (ptr + 1)
          | none =>
            encodekey_mem_loop buf fuel (mem.set ptr (mem.getD (str + 1) 0)) (str + 2) (ptr + 1)
      else encodekey_mem_loop buf fuel (mem.set ptr (mem.getD str 0)) (str + 1) (ptr + 1) := by
  rw [encodekey_mem_loop]

/-- With at least as many iterations left as bytes from `str` to the end of the
memory, one more iteration changes nothing: the loop of `encodekey` on memory
has ended before, whether or not its stores reach bytes still to be read. -/
theorem encodekey_mem_loop_fuel (buf : Nat) :
    ∀ (fuel : Nat) (mem : List Nat) (str ptr : Nat), mem.length ≤ str + fuel →
      encodekey_mem_loop buf (fuel + 1 + 1) mem str ptr
        = encodekey_mem_loop buf (fuel + 1) mem str ptr := by
  intro fuel
  induction fuel with
  | zero =>
    intro mem str ptr hl
    have h0 : mem.getD str 0 = 0 := getD_zero_of_length_le _ _ (by omega)
    rw [encodekey_mem_loop_succ buf 0 mem str ptr, encodekey_mem_loop_succ buf (0 + 1) mem str ptr,
      if_pos h0, if_pos h0]
  | succ n ih =>
    intro mem str ptr hl
    rw [encodekey_mem_loop_succ buf (n + 1) mem str ptr,
      encodekey_mem_loop_succ buf (n + 1 + 1) mem str ptr]
    have hs : ∀ (m : List Nat) (k p : Nat), m.length = mem.length →
        encodekey_mem_loop buf (n + 1 + 1) m (str + (k + 1)) p
          = encodekey_mem_loop buf (n + 1) m (str + (k + 1)) p :=
      fun m k p hm => ih m _ p (by omega)
    have hset : ∀ (p v : Nat), (mem.set p v).length = mem.length := fun p v => List.length_set _ _ _
    split
    · rfl
    · split
      · split
        · exact hs _ 1 _ (hset _ _)
        · split
          · rfl
          · refine hs _ 1 _ ?_
            rw [List.length_set]
            split
            · exact hset _ _
            · rfl
      · split
        · split
          · split
            · rfl
            · have := hs (mem.set ptr ((strtol (mem.drop (str + 1))).1 % 256))
                ((mem.drop (str + 1)).length - (strtol (mem.drop (str + 1))).2.length)
                (ptr + 1) (hset _ _)
              rw [show str + 1
                  + ((mem.drop (str + 1)).length - (strtol (mem.drop (str + 1))).2.length)
                = str + ((mem.drop (str + 1)).length
                  - (strtol (mem.drop (str + 1))).2.length + 1) from by omega]
              exact this
          · split
            · exact hs _ 1 _ (hset _ _)
            · exact hs _ 1 _ (hset _ _)
        · exact hs _ 0 _ (hset _ _)

/-- The function `encodekey` on memory gives its loop enough iterations: any
larger number yields the same result. -/
theorem encodekey_mem_fuel (mem : List Nat) (str buf n : Nat) :
    encodekey_mem_loop buf (mem.length + n + 1) mem str buf = encodekey_mem mem str buf := by
  induction n with
  | zero => rfl
  | succ n ih =>
    exact (encodekey_mem_loop_fuel buf (mem.length + n) mem str buf (by omega)).trans ih

theorem fld_store_cases (g : fld_t) (i : Nat) (v : Int) :
    fld_store g i v ≠ Res.blocked ∧ fld_store g i v ≠ Res.unfinished := by
  unfold fld_store
  by_cases h : i < g.fld_buffer.length
  · rw [if_pos h]; exact ⟨by simp, by simp⟩
  · rw [if_neg h]; exact ⟨by simp, by simp⟩

theorem fld_kill_cases (g : fld_t) :
    fld_kill g ≠ Res.blocked ∧ fld_kill g ≠ Res.unfinished := by
  unfold fld_kill
  cases h : fld_store g 0 0 with
  | ok g1 => exact ⟨by simp, by simp⟩
  | blocked => exact absurd h (fld_store_cases g 0 0).1
  | fault => exact ⟨by simp, by simp⟩
  | unfinished => exact absurd h (fld_store_cases g 0 0).2

theorem fld_call_cases (c : curses_h) (func : fld_func) (g : fld_t) :
    fld_call c func g ≠ Res.blocked ∧ fld_call c func g ≠ Res.unfinished := by
  cases func with
  | fld_done => exact ⟨by simp [fld_call, fld_done], by simp [fld_call, fld_done]⟩
  | fld_left =>
    simp only [fld_call, fld_left]
    split <;> exact ⟨by simp, by simp⟩
  | fld_erase =>
    simp only [fld_call, fld_erase, fld_left]
    by_cases h0 : 0 < g.fld_index
    · simp only [if_pos h0]
      cases h : fld_store { g with fld_index := g.fld_index - 1 } (g.fld_index - 1) 0 with
      | ok g1 => exact ⟨by simp, by simp⟩
      | blocked => exact absurd h (fld_store_cases _ _ _).1
      | fault => exact ⟨by simp, by simp⟩
      | unfinished => exact absurd h (fld_store_cases _ _ _).2
    · simp only [if_neg h0]
      exact ⟨by simp, by simp⟩
  | fld_kill => exact fld_kill_cases g
  | fld_insert =>
    simp only [fld_call, fld_insert]
    by_cases hlt : (g.fld_index : Int) < g.fld_length
    · simp only [if_pos hlt]
      by_cases hfk : c.ISFUNCKEY g.fld_key = true
      · simp only [hfk, Bool.not_true, Bool.false_eq_true, if_false]
        exact ⟨by simp, by simp⟩
      · simp only [hfk, Bool.not_false, if_true]
        cases h : fld_store g g.fld_index g.fld_key with
        | ok g1 => exact ⟨by simp, by simp⟩
        | blocked => exact absurd h (fld_store_cases _ _ _).1
        | fault => exact ⟨by simp, by simp⟩
        | unfinished => exact absurd h (fld_store_cases _ _ _).2
    · simp only [if_neg hlt]
      exact ⟨by simp, by simp⟩

/-- The loop of `getinput`, given more iterations than `getliteral` can
deliver keys, never uses them up. -/
theorem getinput_loop_finishes (c : curses_h) :
    ∀ (fuel : Nat) (first : Bool) (f : fld_t) (st : key_state), literals st < fuel →
      getinput_loop c fuel first f st ≠ Res.unfinished := by
  intro fuel
  induction fuel with
  | zero => intro first f st h; omega
  | succ n ih =>
    intro first f st hl
    cases hg : getliteral st with
    | blocked => simp only [getinput_loop, hg]; simp
    | fault => exact absurd hg (getliteral_ne_fault st)
    | unfinished => exact absurd hg (getliteral_ne_unfinished st)
    | ok r =>
      obtain ⟨key, st1⟩ := r
      have hl1 := literals_getliteral st st1 key hg
      rw [getinput_loop_step c n first f st st1 key hg]
      have hkill : (if first ∧ fld_dispatch c key = fld_func.fld_insert
               then fld_kill { f with fld_key := key }
               else Res.ok (true, { f with fld_key := key })) ≠ Res.blocked
          ∧ (if first ∧ fld_dispatch c key = fld_func.fld_insert
               then fld_kill { f with fld_key := key }
               else Res.ok (true, { f with fld_key := key })) ≠ Res.unfinished := by
        split
        · exact fld_kill_cases _
        · exact ⟨by simp, by simp⟩
      cases hk : (if first ∧ fld_dispatch c key = fld_func.fld_insert
               then fld_kill { f with fld_key := key }
               else Res.ok (true, { f with fld_key := key })) with
      | blocked => exact absurd hk hkill.1
      | unfinished => exact absurd hk hkill.2
      | fault => simp
      | ok r1 =>
        obtain ⟨b, f1⟩ := r1
        simp only []
        cases hc : fld_call c (fld_dispatch c key) f1 with
        | blocked => exact absurd hc (fld_call_cases c _ f1).1
        | unfinished => exact absurd hc (fld_call_cases c _ f1).2
        | fault => simp
        | ok r2 =>
          obtain ⟨b2, f2⟩ := r2
          cases b2 with
          | true => exact ih false f2 st1 (by omega)
          | false =>
            simp only []
            cases hs : fld_store f2 f2.fld_index 0 with
            | blocked => exact absurd hs (fld_store_cases _ _ _).1
            | unfinished => exact absurd hs (fld_store_cases _ _ _).2
            | fault => simp
            | ok f3 => simp

/-- The function `getinput` never uses up the iterations it grants its
loop. -/
theorem getinput_finishes (c : curses_h) (buf : List Nat) (len : Int) (echoing : Bool)
    (st : key_state) : getinput c buf len echoing st ≠ Res.unfinished := by
  unfold getinput
  simp only []
  generalize (if len < 0 then c.COLS else len) - 1 = L
  by_cases hL : L < 1
  · rw [if_pos hL]; simp
  · rw [if_neg hL]
    have := getinput_loop_finishes c (literals st + 1) true
      { fld_buffer := buf, fld_index := (cstring buf).length, fld_length := L,
        fld_key := 0, fld_echo := echoing, stores := [] } st (by omega)
    cases hr : getinput_loop c (literals st + 1) true
      { fld_buffer := buf, fld_index := (cstring buf).length, fld_length := L,
        fld_key := 0, fld_echo := echoing, stores := [] } st with
    | unfinished => exact absurd hr this
    | ok r => simp
    | blocked => simp
    | fault => simp

end Key
